import Mathlib

/-!
Formal model of the `interval-sets` repository.

The development shallowly embeds the code of `src/multidimensional.py`
(classes `Box` and `BoxSet`) and `src/spatial.py` (class `RTree`) as
executable Lean definitions, and proves the specification claims about
them.  Python floats are modelled by exact rationals (the library's
operations are exact endpoint arithmetic), raised exceptions by
`Except String`, and in-place mutation by explicit state passing.

The one-dimensional collaborator module `src/intervals.py` (classes
`Interval` and `IntervalSet`) is not part of the sources; the spec
declares it an external collaborator and enumerates the consumed
operations.  Those operations are therefore modelled from the spec
(each such definition carries a `Modelled from the spec:` comment).
-/

namespace IntervalSets

/-- Modelled from the spec: the repository's `src/intervals.py` is not among
the sources.  Per spec section 2 and 6, an `Interval` is a 1-D region with
rational endpoints and independent open/closed endpoint flags, constructed
from explicit `start, end, open_start, open_end`.  The Python field `end`
is named `endp` here because `end` is a Lean keyword.  Unbounded endpoints
are not needed by any claim and are not modelled; see `Interval.is_bounded`. -/
structure Interval where
  start : ℚ
  endp : ℚ
  open_start : Bool
  open_end : Bool
deriving DecidableEq, Repr

namespace Interval

/-- Modelled from the spec: membership of a value in an interval with exact
open/closed boundary semantics (`contains(value)` in spec section 6). -/
def mem (i : Interval) (x : ℚ) : Bool :=
  (if i.open_start then decide (i.start < x) else decide (i.start ≤ x)) &&
  (if i.open_end then decide (x < i.endp) else decide (x ≤ i.endp))

/-- Modelled from the spec: `is_empty` — the interval denotes the empty set,
i.e. inverted endpoints, or equal endpoints with at least one open flag. -/
def is_empty (i : Interval) : Bool :=
  decide (i.endp < i.start) || (decide (i.start = i.endp) && (i.open_start || i.open_end))

/-- Modelled from the spec: the `empty()` factory. -/
def empty : Interval := ⟨0, 0, true, true⟩

/-- Modelled from the spec: the `closed(start, end)` factory. -/
def closed (s e : ℚ) : Interval := ⟨s, e, false, false⟩

/-- Modelled from the spec: `length` — measure of the interval, `0` if empty. -/
def length (i : Interval) : ℚ := if i.is_empty then 0 else i.endp - i.start

/-- Modelled from the spec: `intersection(Interval) -> Interval`; the tighter
lower and upper constraints win, open beating closed at equal endpoints. -/
def inter (i j : Interval) : Interval where
  start := max i.start j.start
  endp := min i.endp j.endp
  open_start :=
    if j.start < i.start then i.open_start
    else if i.start < j.start then j.open_start
    else (i.open_start || j.open_start)
  open_end :=
    if i.endp < j.endp then i.open_end
    else if j.endp < i.endp then j.open_end
    else (i.open_end || j.open_end)

/-- Modelled from the spec: `overlaps(Interval)` — nonempty intersection. -/
def overlaps (i j : Interval) : Bool := !(inter i j).is_empty

/-- Modelled from the spec: `interior()` — both endpoints open. -/
def interior (i : Interval) : Interval := ⟨i.start, i.endp, true, true⟩

/-- Modelled from the spec: `closure()` — both endpoints closed. -/
def closure (i : Interval) : Interval := ⟨i.start, i.endp, false, false⟩

/-- Modelled from the spec: `contains(Interval)` — boundary-aware set
containment (`j ⊆ i`), vacuously true for an empty argument. -/
def containsI (i j : Interval) : Bool :=
  j.is_empty ||
    ((decide (i.start < j.start) || (decide (i.start = j.start) && (!i.open_start || j.open_start))) &&
     (decide (j.endp < i.endp) || (decide (j.endp = i.endp) && (!i.open_end || j.open_end))))

/-- Modelled from the spec: `is_bounded`.  With rational endpoints every
modelled interval is bounded; no claim depends on unbounded intervals. -/
def is_bounded (_ : Interval) : Bool := true

/-! Basic semantic lemmas about the interval model. -/

theorem mem_iff (i : Interval) (x : ℚ) :
    i.mem x = true ↔
      (if i.open_start then i.start < x else i.start ≤ x) ∧
      (if i.open_end then x < i.endp else x ≤ i.endp) := by
  unfold mem
  by_cases hos : i.open_start <;> by_cases hoe : i.open_end <;> simp [hos, hoe]

theorem mem_le {i : Interval} {x : ℚ} (h : i.mem x = true) :
    i.start ≤ x ∧ x ≤ i.endp := by
  rw [mem_iff] at h
  obtain ⟨h1, h2⟩ := h
  constructor
  · by_cases hos : i.open_start
    · rw [if_pos hos] at h1; exact le_of_lt h1
    · rw [if_neg hos] at h1; exact h1
  · by_cases hoe : i.open_end
    · rw [if_pos hoe] at h2; exact le_of_lt h2
    · rw [if_neg hoe] at h2; exact h2

theorem is_empty_iff (i : Interval) :
    i.is_empty = true ↔
      (i.endp < i.start ∨ (i.start = i.endp ∧ (i.open_start = true ∨ i.open_end = true))) := by
  unfold is_empty
  simp [Bool.or_eq_true, Bool.and_eq_true]

theorem not_mem_of_empty {i : Interval} (h : i.is_empty = true) (x : ℚ) :
    i.mem x = false := by
  cases hmx : i.mem x
  · rfl
  · exfalso
    have hle := mem_le hmx
    rw [is_empty_iff] at h
    rcases h with h1 | ⟨heq, hflag⟩
    · linarith [hle.1, hle.2]
    · have hxs : x = i.start := le_antisymm (heq ▸ hle.2) hle.1
      rw [mem_iff] at hmx
      obtain ⟨hm1, hm2⟩ := hmx
      rcases hflag with hos | hoe
      · rw [if_pos hos] at hm1
        rw [hxs] at hm1
        exact lt_irrefl _ hm1
      · rw [if_pos hoe] at hm2
        rw [hxs, ← heq] at hm2
        exact lt_irrefl _ hm2

theorem exists_mem_of_not_empty {i : Interval} (h : i.is_empty = false) :
    ∃ x : ℚ, i.mem x = true := by
  have h' : ¬(i.endp < i.start ∨ (i.start = i.endp ∧ (i.open_start = true ∨ i.open_end = true))) := by
    intro hc
    have := (is_empty_iff i).mpr hc
    rw [this] at h
    exact absurd h (by simp)
  push_neg at h'
  obtain ⟨h1, h2⟩ := h'
  rcases lt_or_eq_of_le h1 with hlt | heq
  · refine ⟨(i.start + i.endp) / 2, ?_⟩
    rw [mem_iff]
    have ha : i.start < (i.start + i.endp) / 2 := by linarith
    have hb : (i.start + i.endp) / 2 < i.endp := by linarith
    constructor
    · by_cases hos : i.open_start <;> simp [hos, ha, le_of_lt ha]
    · by_cases hoe : i.open_end <;> simp [hoe, hb, le_of_lt hb]
  · have hflags := h2 heq
    push_neg at hflags
    obtain ⟨hos, hoe⟩ := hflags
    refine ⟨i.start, ?_⟩
    rw [mem_iff]
    rw [if_neg hos, if_neg hoe]
    exact ⟨le_refl _, heq ▸ le_refl _⟩

theorem is_empty_eq_false_iff (i : Interval) :
    i.is_empty = false ↔ ∃ x : ℚ, i.mem x = true := by
  constructor
  · exact exists_mem_of_not_empty
  · rintro ⟨x, hx⟩
    cases hie : i.is_empty
    · rfl
    · rw [not_mem_of_empty hie x] at hx
      exact absurd hx (by simp)

theorem lower_inter_iff (s t : ℚ) (os ot : Bool) (x : ℚ) :
    (if (if t < s then os else if s < t then ot else (os || ot)) = true
       then max s t < x else max s t ≤ x) ↔
      ((if os = true then s < x else s ≤ x) ∧ (if ot = true then t < x else t ≤ x)) := by
  rcases lt_trichotomy s t with h | h | h
  · rw [if_neg (asymm h), if_pos h, max_eq_right h.le]
    by_cases hos : os <;> by_cases hot : ot <;> simp only [hos, hot] <;>
      simp only [if_pos, if_neg, Bool.false_eq_true, if_true, if_false] <;>
      exact ⟨fun hx => ⟨by linarith, hx⟩, fun hx => hx.2⟩
  · subst h
    rw [if_neg (lt_irrefl s), if_neg (lt_irrefl s), max_self]
    by_cases hos : os <;> by_cases hot : ot <;> simp only [hos, hot] <;>
      simp only [Bool.true_or, Bool.or_true, Bool.false_or, Bool.or_false,
        Bool.false_eq_true, if_true, if_false]
    · exact ⟨fun hx => ⟨hx, hx⟩, fun hx => hx.1⟩
    · exact ⟨fun hx => ⟨hx, hx.le⟩, fun hx => hx.1⟩
    · exact ⟨fun hx => ⟨hx.le, hx⟩, fun hx => hx.2⟩
    · exact ⟨fun hx => ⟨hx, hx⟩, fun hx => hx.1⟩
  · rw [if_pos h, max_eq_left h.le]
    by_cases hos : os <;> by_cases hot : ot <;> simp only [hos, hot] <;>
      simp only [Bool.false_eq_true, if_true, if_false] <;>
      exact ⟨fun hx => ⟨hx, by linarith⟩, fun hx => hx.1⟩

theorem upper_inter_iff (s t : ℚ) (os ot : Bool) (x : ℚ) :
    (if (if s < t then os else if t < s then ot else (os || ot)) = true
       then x < min s t else x ≤ min s t) ↔
      ((if os = true then x < s else x ≤ s) ∧ (if ot = true then x < t else x ≤ t)) := by
  rcases lt_trichotomy s t with h | h | h
  · rw [if_pos h, min_eq_left h.le]
    by_cases hos : os <;> by_cases hot : ot <;> simp only [hos, hot] <;>
      simp only [Bool.false_eq_true, if_true, if_false] <;>
      exact ⟨fun hx => ⟨hx, by linarith⟩, fun hx => hx.1⟩
  · subst h
    rw [if_neg (lt_irrefl s), if_neg (lt_irrefl s), min_self]
    by_cases hos : os <;> by_cases hot : ot <;> simp only [hos, hot] <;>
      simp only [Bool.true_or, Bool.or_true, Bool.false_or, Bool.or_false,
        Bool.false_eq_true, if_true, if_false]
    · exact ⟨fun hx => ⟨hx, hx⟩, fun hx => hx.1⟩
    · exact ⟨fun hx => ⟨hx, hx.le⟩, fun hx => hx.1⟩
    · exact ⟨fun hx => ⟨hx.le, hx⟩, fun hx => hx.2⟩
    · exact ⟨fun hx => ⟨hx, hx⟩, fun hx => hx.1⟩
  · rw [if_neg (asymm h), if_pos h, min_eq_right h.le]
    by_cases hos : os <;> by_cases hot : ot <;> simp only [hos, hot] <;>
      simp only [Bool.false_eq_true, if_true, if_false] <;>
      exact ⟨fun hx => ⟨by linarith, hx⟩, fun hx => hx.2⟩

theorem mem_inter_iff (i j : Interval) (x : ℚ) :
    (inter i j).mem x = true ↔ (i.mem x = true ∧ j.mem x = true) := by
  rw [mem_iff, mem_iff, mem_iff]
  have hL := lower_inter_iff i.start j.start i.open_start j.open_start x
  have hU := upper_inter_iff i.endp j.endp i.open_end j.open_end x
  show ((if (inter i j).open_start = true then (inter i j).start < x
          else (inter i j).start ≤ x) ∧ _) ↔ _
  have hs : (inter i j).start = max i.start j.start := rfl
  have he : (inter i j).endp = min i.endp j.endp := rfl
  have hso : (inter i j).open_start =
      (if j.start < i.start then i.open_start
       else if i.start < j.start then j.open_start
       else (i.open_start || j.open_start)) := rfl
  have heo : (inter i j).open_end =
      (if i.endp < j.endp then i.open_end
       else if j.endp < i.endp then j.open_end
       else (i.open_end || j.open_end)) := rfl
  rw [hs, he, hso, heo, hL, hU]
  tauto

/-- Normalization performed by `Box.intersection` (multidimensional.py lines
170 to 186): an empty componentwise intersection is replaced by the canonical
empty interval. -/
def normInter (i j : Interval) : Interval :=
  if (inter i j).is_empty then empty else inter i j

theorem mem_normInter_iff (i j : Interval) (x : ℚ) :
    (normInter i j).mem x = true ↔ (i.mem x = true ∧ j.mem x = true) := by
  unfold normInter
  by_cases h : (inter i j).is_empty
  · rw [if_pos h]
    constructor
    · intro hx
      rw [not_mem_of_empty (by decide) x] at hx
      exact absurd hx (by simp)
    · intro hx
      exfalso
      have := (mem_inter_iff i j x).mpr hx
      rw [not_mem_of_empty h x] at this
      exact absurd this (by simp)
  · rw [if_neg h]
    exact mem_inter_iff i j x

theorem overlaps_iff_exists (i j : Interval) :
    overlaps i j = true ↔ ∃ x : ℚ, i.mem x = true ∧ j.mem x = true := by
  unfold overlaps
  rw [Bool.not_eq_true']
  rw [is_empty_eq_false_iff]
  constructor
  · rintro ⟨x, hx⟩
    exact ⟨x, (mem_inter_iff i j x).mp hx⟩
  · rintro ⟨x, hx⟩
    exact ⟨x, (mem_inter_iff i j x).mpr hx⟩

/-! One-dimensional facts for the slicing step of `Box.difference`.
Relative to the overlap interval `o`, every rational is in exactly one of
three regions: strictly before `o`, inside `o`, strictly after `o`. -/

/-- The point `x` lies strictly before the overlap interval `o`. -/
def belowO (o : Interval) (x : ℚ) : Prop :=
  x < o.start ∨ (x = o.start ∧ o.open_start = true)

/-- The point `x` lies strictly after the overlap interval `o`. -/
def aboveO (o : Interval) (x : ℚ) : Prop :=
  o.endp < x ∨ (x = o.endp ∧ o.open_end = true)

theorem nonempty_bounds {o : Interval} (h : o.is_empty = false) :
    o.start ≤ o.endp ∧ (o.start = o.endp → o.open_start = false ∧ o.open_end = false) := by
  have h' : ¬(o.endp < o.start ∨ (o.start = o.endp ∧ (o.open_start = true ∨ o.open_end = true))) := by
    intro hc
    have := (is_empty_iff o).mpr hc
    rw [this] at h
    exact absurd h (by simp)
  push_neg at h'
  obtain ⟨ha, hb⟩ := h'
  refine ⟨ha, fun heq => ?_⟩
  have := hb heq
  push_neg at this
  exact ⟨Bool.not_eq_true _ ▸ this.1, Bool.not_eq_true _ ▸ this.2⟩

theorem not_mem_of_below {o : Interval} {x : ℚ} (h : belowO o x) :
    o.mem x = true → False := by
  intro hm
  rw [mem_iff] at hm
  obtain ⟨h1, _⟩ := hm
  rcases h with hlt | ⟨heq, hos⟩
  · by_cases hf : o.open_start
    · rw [if_pos hf] at h1; linarith
    · rw [if_neg hf] at h1; linarith
  · rw [if_pos hos] at h1
    rw [heq] at h1
    exact lt_irrefl _ h1

theorem not_mem_of_above {o : Interval} {x : ℚ} (h : aboveO o x) :
    o.mem x = true → False := by
  intro hm
  rw [mem_iff] at hm
  obtain ⟨_, h2⟩ := hm
  rcases h with hlt | ⟨heq, hoe⟩
  · by_cases hf : o.open_end
    · rw [if_pos hf] at h2; linarith
    · rw [if_neg hf] at h2; linarith
  · rw [if_pos hoe] at h2
    rw [heq] at h2
    exact lt_irrefl _ h2

theorem not_below_and_above {o : Interval} {x : ℚ} (ho : o.is_empty = false) :
    belowO o x → aboveO o x → False := by
  intro hb ha
  obtain ⟨hle, hpt⟩ := nonempty_bounds ho
  rcases hb with hb1 | ⟨hb2, hbos⟩
  · rcases ha with ha1 | ⟨ha2, _⟩
    · linarith
    · rw [ha2] at hb1; linarith
  · rcases ha with ha1 | ⟨ha2, _⟩
    · rw [hb2] at ha1; linarith
    · have : o.start = o.endp := by rw [← hb2, ha2]
      have := (hpt this).1
      rw [this] at hbos
      exact absurd hbos (by simp)

theorem mem_of_not_below_not_above {o : Interval} {x : ℚ}
    (hb : ¬ belowO o x) (ha : ¬ aboveO o x) : o.mem x = true := by
  unfold belowO at hb
  unfold aboveO at ha
  push_neg at hb ha
  obtain ⟨hb1, hb2⟩ := hb
  obtain ⟨ha1, ha2⟩ := ha
  rw [mem_iff]
  constructor
  · by_cases hf : o.open_start
    · rw [if_pos hf]
      rcases lt_or_eq_of_le hb1 with h | h
      · exact h
      · exact absurd hf (by simpa using hb2 h.symm)
    · rw [if_neg hf]
      exact hb1
  · by_cases hf : o.open_end
    · rw [if_pos hf]
      rcases lt_or_eq_of_le ha1 with h | h
      · exact h
      · exact absurd hf (by simpa using ha2 h)
    · rw [if_neg hf]
      exact ha1

/-- The "left slice" interval built by `Box.difference` in each dimension
(multidimensional.py lines 416 to 421). -/
def leftSlice (r o : Interval) : Interval :=
  ⟨r.start, o.start, r.open_start, !o.open_start⟩

/-- The "right slice" interval built by `Box.difference` in each dimension
(multidimensional.py lines 432 to 437). -/
def rightSlice (r o : Interval) : Interval :=
  ⟨o.endp, r.endp, !o.open_end, r.open_end⟩

/-- The per-dimension relationship between a component `o` of the overlap box
and the corresponding component `r` of the minuend box. -/
def SubRel (o r : Interval) : Prop :=
  o.is_empty = false ∧ r.is_empty = false ∧ r.start ≤ o.start ∧ o.endp ≤ r.endp ∧
    ∀ x : ℚ, o.mem x = true → r.mem x = true

theorem mem_leftSlice_iff {r o : Interval} (h : SubRel o r) (x : ℚ) :
    (leftSlice r o).mem x = true ↔ (r.mem x = true ∧ belowO o x) := by
  obtain ⟨hoe, hre, h1, h2, hsub⟩ := h
  obtain ⟨holen, hopt⟩ := nonempty_bounds hoe
  rw [mem_iff, mem_iff]
  show ((if r.open_start = true then r.start < x else r.start ≤ x) ∧
        (if (!o.open_start) = true then x < o.start else x ≤ o.start)) ↔ _
  constructor
  · rintro ⟨hlow, hup⟩
    have hbelow : belowO o x := by
      by_cases hf : o.open_start
      · rw [if_neg (by simp [hf])] at hup
        rcases lt_or_eq_of_le hup with h | h
        · exact Or.inl h
        · exact Or.inr ⟨h, hf⟩
      · rw [if_pos (by simp [hf])] at hup
        exact Or.inl hup
    refine ⟨⟨hlow, ?_⟩, hbelow⟩
    have hxlt : x < r.endp := by
      rcases hbelow with hb | ⟨hb, hbos⟩
      · linarith
      · rcases lt_or_eq_of_le holen with h | h
        · rw [hb]; linarith
        · exfalso
          have := (hopt h).1
          rw [this] at hbos
          exact absurd hbos (by simp)
    by_cases hf : r.open_end
    · rw [if_pos hf]; exact hxlt
    · rw [if_neg hf]; exact le_of_lt hxlt
  · rintro ⟨hrmem, hbelow⟩
    refine ⟨hrmem.1, ?_⟩
    by_cases hf : o.open_start
    · rw [if_neg (by simp [hf])]
      rcases hbelow with hb | ⟨hb, _⟩
      · exact le_of_lt hb
      · exact le_of_eq hb
    · rw [if_pos (by simp [hf])]
      rcases hbelow with hb | ⟨hb, hbos⟩
      · exact hb
      · exact absurd hbos (by simp [hf])

theorem mem_rightSlice_iff {r o : Interval} (h : SubRel o r) (x : ℚ) :
    (rightSlice r o).mem x = true ↔ (r.mem x = true ∧ aboveO o x) := by
  obtain ⟨hoe, hre, h1, h2, hsub⟩ := h
  obtain ⟨holen, hopt⟩ := nonempty_bounds hoe
  rw [mem_iff, mem_iff]
  show ((if (!o.open_end) = true then o.endp < x else o.endp ≤ x) ∧
        (if r.open_end = true then x < r.endp else x ≤ r.endp)) ↔ _
  constructor
  · rintro ⟨hlow, hup⟩
    have habove : aboveO o x := by
      by_cases hf : o.open_end
      · rw [if_neg (by simp [hf])] at hlow
        rcases lt_or_eq_of_le hlow with h | h
        · exact Or.inl h
        · exact Or.inr ⟨h.symm, hf⟩
      · rw [if_pos (by simp [hf])] at hlow
        exact Or.inl hlow
    have hxgt : r.start < x := by
      rcases habove with ha | ⟨ha, haoe⟩
      · linarith
      · rcases lt_or_eq_of_le holen with h | h
        · rw [ha]; linarith
        · exfalso
          have := (hopt h).2
          rw [this] at haoe
          exact absurd haoe (by simp)
    refine ⟨⟨?_, hup⟩, habove⟩
    by_cases hf : r.open_start
    · rw [if_pos hf]; exact hxgt
    · rw [if_neg hf]; exact le_of_lt hxgt
  · rintro ⟨hrmem, habove⟩
    refine ⟨?_, hrmem.2⟩
    by_cases hf : o.open_end
    · rw [if_neg (by simp [hf])]
      rcases habove with ha | ⟨ha, _⟩
      · exact le_of_lt ha
      · exact le_of_eq ha.symm
    · rw [if_pos (by simp [hf])]
      rcases habove with ha | ⟨ha, haoe⟩
      · exact ha
      · exact absurd haoe (by simp [hf])

theorem length_leftSlice {r o : Interval} (h1 : r.start ≤ o.start) :
    (leftSlice r o).length = o.start - r.start := by
  unfold length
  by_cases h : (leftSlice r o).is_empty
  · rw [if_pos h]
    rw [is_empty_iff] at h
    rcases h with h | ⟨h, _⟩
    · exact absurd h1 (not_le.mpr h)
    · show (0 : ℚ) = o.start - r.start
      have : r.start = o.start := h
      rw [this]; ring
  · rw [if_neg h]
    rfl

theorem length_rightSlice {r o : Interval} (h2 : o.endp ≤ r.endp) :
    (rightSlice r o).length = r.endp - o.endp := by
  unfold length
  by_cases h : (rightSlice r o).is_empty
  · rw [if_pos h]
    rw [is_empty_iff] at h
    rcases h with h | ⟨h, _⟩
    · exact absurd h2 (not_le.mpr h)
    · show (0 : ℚ) = r.endp - o.endp
      have : o.endp = r.endp := h
      rw [this]; ring
  · rw [if_neg h]
    rfl

theorem length_split {r o : Interval} (h : SubRel o r) :
    r.length = (leftSlice r o).length + o.length + (rightSlice r o).length := by
  obtain ⟨hoe, hre, h1, h2, _⟩ := h
  rw [length_leftSlice h1, length_rightSlice h2]
  unfold length
  rw [if_neg (by simp [hre]), if_neg (by simp [hoe])]
  ring

end Interval

/-- Shallow embedding of the `Box` class (multidimensional.py lines 11 to
447): the Cartesian product of N component intervals.  The Python
constructor validation (at least one dimension, all elements `Interval`) is
carried as hypotheses in the theorems that need it. -/
structure Box where
  intervals : List Interval
deriving DecidableEq, Repr

/-- Pointwise membership of a point list in a list of component intervals,
used to state the semantics of boxes. -/
def memL (l : List Interval) (p : List ℚ) : Prop :=
  List.Forall₂ (fun (x : ℚ) (i : Interval) => i.mem x = true) p l

namespace Box

/-- `Box.dimension` (multidimensional.py line 43). -/
def dimension (b : Box) : Nat := b.intervals.length

/-- `Box.is_empty` (line 58): a box is empty iff any component is empty. -/
def is_empty (b : Box) : Bool := b.intervals.any Interval.is_empty

/-- `Box.volume` (line 65): the product of component lengths, `0` if empty.
Python multiplies floats; the model uses exact rationals. -/
def volume (b : Box) : ℚ := if b.is_empty then 0 else (b.intervals.map Interval.length).prod

/-- Point membership in a box: the point has the box's dimension and every
coordinate lies in the matching interval (the loop of `Box.contains`,
lines 124 to 128, stated totally for semantic reasoning). -/
def memB (b : Box) (p : List ℚ) : Bool :=
  decide (p.length = b.intervals.length) &&
    (p.zip b.intervals).all (fun z => z.2.mem z.1)

/-- The body of `Box.overlaps` after the dimension check (lines 147 to 150):
false if either box is empty, else componentwise interval overlap. -/
def overlapsB (a b : Box) : Bool :=
  if a.is_empty || b.is_empty then false
  else (a.intervals.zip b.intervals).all (fun z => Interval.overlaps z.1 z.2)

/-- `Box.overlaps` (lines 133 to 150): dimension mismatch raises. -/
def overlaps (a b : Box) : Except String Bool :=
  if a.dimension ≠ b.dimension then .error "Cannot compare Box dimensions"
  else .ok (overlapsB a b)

/-- The body of `Box.intersection` after the dimension check (lines 170 to
187): componentwise intersection, normalizing empties. -/
def interB (a b : Box) : Box := ⟨List.zipWith Interval.normInter a.intervals b.intervals⟩

/-- `Box.intersection` (lines 152 to 187). -/
def intersection (a b : Box) : Except String Box :=
  if a.dimension ≠ b.dimension then .error "Dimension mismatch"
  else .ok (interB a b)

/-- `Box.contains` for a point argument (lines 114 to 128): the length check
precedes the emptiness check, so a mismatched point always raises. -/
def containsPoint (b : Box) (p : List ℚ) : Except String Bool :=
  if p.length ≠ b.dimension then .error "Point dimension must match Box dimension"
  else if b.is_empty then .ok false
  else .ok ((p.zip b.intervals).all (fun z => z.2.mem z.1))

/-- `Box.contains` for a Box argument (lines 99 to 107): an empty argument is
contained vacuously, a dimension mismatch returns false (never raises). -/
def containsBox (b other : Box) : Bool :=
  if other.is_empty then true
  else if other.dimension ≠ b.dimension then false
  else (b.intervals.zip other.intervals).all (fun z => Interval.containsI z.1 z.2)

/-- `Box.interior` (lines 189 to 196). -/
def interior (b : Box) : Box :=
  if b.is_empty then b else ⟨b.intervals.map Interval.interior⟩

/-- `Box.closure` (lines 198 to 205). -/
def closure (b : Box) : Box :=
  if b.is_empty then b else ⟨b.intervals.map Interval.closure⟩

/-- `Box.is_bounded` (lines 77 to 81): an empty box is bounded. -/
def is_bounded (b : Box) : Bool :=
  if b.is_empty then true else b.intervals.all Interval.is_bounded

/-- `Box.is_open` (line 83): non-empty and structurally equal to its interior. -/
def is_open (b : Box) : Bool := !b.is_empty && decide (b = b.interior)

/-- `Box.is_closed` (line 87): non-empty and structurally equal to its closure. -/
def is_closed (b : Box) : Bool := !b.is_empty && decide (b = b.closure)

/-- `Box.is_compact` (line 91): closed and bounded. -/
def is_compact (b : Box) : Bool := b.is_closed && b.is_bounded

end Box

/-- Result type for `Box.distance_to_point`: Python returns `float("inf")`
for empty boxes and otherwise `math.sqrt` of the accumulated square.  The
model keeps the exact accumulated square (the square root is a monotone
bijection on nonnegatives and no claim depends on its value). -/
inductive ExtQ where
  | inf : ExtQ
  | val : ℚ → ExtQ
deriving DecidableEq, Repr

namespace Box

/-- `Box.distance_to_point` (lines 226 to 241): note the emptiness check
comes before the dimension check. -/
def distance_to_point (b : Box) (p : List ℚ) : Except String ExtQ :=
  if b.is_empty then .ok .inf
  else if p.length ≠ b.dimension then .error "Dimension mismatch"
  else .ok (.val (((p.zip b.intervals).map (fun z =>
      if z.1 < z.2.start then (z.2.start - z.1)^2
      else if z.2.endp < z.1 then (z.1 - z.2.endp)^2
      else 0)).sum))

/-- The dimension loop of `Box.difference` (lines 400 to 445), expressed as
recursion over the remaining dimensions: at each dimension emit the non-empty
left and right slices and collapse the remainder to the overlap interval. -/
def sliceRec : List Interval → List Interval → List (List Interval)
  | [], _ => []
  | _ :: _, [] => []
  | r :: rs, o :: os =>
      (if (Interval.leftSlice r o).is_empty then [] else [Interval.leftSlice r o :: rs]) ++
      (if (Interval.rightSlice r o).is_empty then [] else [Interval.rightSlice r o :: rs]) ++
      (sliceRec rs os).map (fun l => o :: l)

/-- The body of `Box.difference` after the dimension check (lines 388 to
447). -/
def diffB (a b : Box) : List Box :=
  if (interB a b).is_empty then [a]
  else (sliceRec a.intervals (interB a b).intervals).map Box.mk

/-- `Box.difference` (lines 369 to 447). -/
def difference (a b : Box) : Except String (List Box) :=
  if a.dimension ≠ b.dimension then .error "Dimension mismatch"
  else .ok (diffB a b)

end Box

/-! Semantic bridge lemmas between the executable box operations and the
pointwise membership predicate `memL`. -/

theorem memB_iff_memL (b : Box) (p : List ℚ) :
    Box.memB b p = true ↔ memL b.intervals p := by
  unfold Box.memB memL
  rw [Bool.and_eq_true, decide_eq_true_iff, List.all_eq_true, List.forall₂_iff_zip]
  constructor
  · rintro ⟨h1, h2⟩
    refine ⟨h1, ?_⟩
    intro a b hab
    exact h2 (a, b) hab
  · rintro ⟨h1, h2⟩
    refine ⟨h1, fun z hz => ?_⟩
    obtain ⟨a, b⟩ := z
    exact h2 hz

theorem memL_nonempty {l : List Interval} {p : List ℚ} (h : memL l p) :
    ∀ i ∈ l, i.is_empty = false := by
  induction h with
  | nil => intro i hi; cases hi
  | cons h1 _ ih =>
      intro i hi
      rcases List.mem_cons.mp hi with rfl | hi
      · exact (Interval.is_empty_eq_false_iff i).mpr ⟨_, h1⟩
      · exact ih i hi

theorem is_empty_eq_false_of_memB {b : Box} {p : List ℚ} (h : Box.memB b p = true) :
    b.is_empty = false := by
  have hm := (memB_iff_memL b p).mp h
  have hall := memL_nonempty hm
  unfold Box.is_empty
  cases hany : b.intervals.any Interval.is_empty
  · rfl
  · exfalso
    rw [List.any_eq_true] at hany
    obtain ⟨i, hi, hie⟩ := hany
    rw [hall i hi] at hie
    exact absurd hie (by simp)

theorem memL_zipWith_normInter :
    ∀ (xs ys : List Interval) (p : List ℚ), xs.length = ys.length →
      (memL (List.zipWith Interval.normInter xs ys) p ↔ (memL xs p ∧ memL ys p)) := by
  intro xs
  induction xs with
  | nil =>
      intro ys p hlen
      have : ys = [] := by
        cases ys with
        | nil => rfl
        | cons y ys => simp at hlen
      subst this
      simp [memL, List.forall₂_nil_right_iff]
  | cons x xs ih =>
      intro ys p hlen
      cases ys with
      | nil => simp at hlen
      | cons y ys =>
          cases p with
          | nil =>
              simp [memL, List.forall₂_nil_left_iff]
          | cons v p =>
              simp only [List.zipWith_cons_cons]
              unfold memL
              rw [List.forall₂_cons, List.forall₂_cons, List.forall₂_cons]
              have hlen' : xs.length = ys.length := by simpa using hlen
              have := ih ys p hlen'
              unfold memL at this
              rw [this, Interval.mem_normInter_iff]
              tauto

theorem memB_interB {a b : Box} (hd : a.dimension = b.dimension) (p : List ℚ) :
    Box.memB (Box.interB a b) p = true ↔ (Box.memB a p = true ∧ Box.memB b p = true) := by
  rw [memB_iff_memL, memB_iff_memL, memB_iff_memL]
  exact memL_zipWith_normInter _ _ _ hd

theorem exists_common_of_zip_overlaps :
    ∀ (xs ys : List Interval), xs.length = ys.length →
      (∀ z ∈ xs.zip ys, Interval.overlaps z.1 z.2 = true) →
      ∃ p : List ℚ, memL xs p ∧ memL ys p := by
  intro xs
  induction xs with
  | nil =>
      intro ys hlen _
      have : ys = [] := by
        cases ys with
        | nil => rfl
        | cons y ys => simp at hlen
      subst this
      exact ⟨[], List.Forall₂.nil, List.Forall₂.nil⟩
  | cons x xs ih =>
      intro ys hlen hall
      cases ys with
      | nil => simp at hlen
      | cons y ys =>
          have hxy : Interval.overlaps x y = true := hall (x, y) (by simp)
          obtain ⟨v, hv1, hv2⟩ := (Interval.overlaps_iff_exists x y).mp hxy
          have hlen' : xs.length = ys.length := by simpa using hlen
          obtain ⟨p, hp1, hp2⟩ := ih ys hlen' (fun z hz => hall z (by simp [hz]))
          exact ⟨v :: p, List.Forall₂.cons hv1 hp1, List.Forall₂.cons hv2 hp2⟩

theorem zip_overlaps_of_common :
    ∀ (xs ys : List Interval) (p : List ℚ), memL xs p → memL ys p →
      ∀ z ∈ xs.zip ys, Interval.overlaps z.1 z.2 = true := by
  intro xs ys p h1 h2
  induction p generalizing xs ys with
  | nil =>
      rw [memL, List.forall₂_nil_left_iff] at h1 h2
      subst h1; subst h2
      intro z hz; cases hz
  | cons v p ih =>
      cases xs with
      | nil => exact absurd h1.length_eq (by simp)
      | cons x xs =>
          cases ys with
          | nil => exact absurd h2.length_eq (by simp)
          | cons y ys =>
              rw [memL, List.forall₂_cons] at h1 h2
              intro z hz
              rcases List.mem_cons.mp (by simpa using hz) with rfl | hz'
              · exact (Interval.overlaps_iff_exists x y).mpr ⟨v, h1.1, h2.1⟩
              · exact ih xs ys h1.2 h2.2 z hz'

theorem overlapsB_iff {a b : Box} (hd : a.dimension = b.dimension) :
    Box.overlapsB a b = true ↔
      ∃ p : List ℚ, Box.memB a p = true ∧ Box.memB b p = true := by
  unfold Box.overlapsB
  by_cases he : (a.is_empty || b.is_empty) = true
  · rw [if_pos he]
    constructor
    · intro h; exact absurd h (by simp)
    · rintro ⟨p, hpa, hpb⟩
      rcases Bool.or_eq_true _ _ ▸ he with h | h
      · rw [is_empty_eq_false_of_memB hpa] at h; exact absurd h (by simp)
      · rw [is_empty_eq_false_of_memB hpb] at h; exact absurd h (by simp)
  · rw [if_neg he, List.all_eq_true]
    constructor
    · intro h
      obtain ⟨p, h1, h2⟩ := exists_common_of_zip_overlaps a.intervals b.intervals hd
        (fun z hz => h z hz)
      exact ⟨p, (memB_iff_memL a p).mpr h1, (memB_iff_memL b p).mpr h2⟩
    · rintro ⟨p, hpa, hpb⟩
      exact zip_overlaps_of_common a.intervals b.intervals p
        ((memB_iff_memL a p).mp hpa) ((memB_iff_memL b p).mp hpb)

theorem overlapsB_eq_false_iff {a b : Box} (hd : a.dimension = b.dimension) :
    Box.overlapsB a b = false ↔
      ∀ p : List ℚ, ¬(Box.memB a p = true ∧ Box.memB b p = true) := by
  rw [← Bool.not_eq_true, overlapsB_iff hd]
  constructor
  · intro h p hp
    exact h ⟨p, hp⟩
  · rintro h ⟨p, hp⟩
    exact h p hp

theorem bool_eq_false {b : Bool} (h : ¬ b = true) : b = false := by
  cases b
  · rfl
  · exact absurd rfl h

theorem normInter_eq_inter {x y : Interval}
    (h : (Interval.normInter x y).is_empty = false) :
    Interval.normInter x y = Interval.inter x y := by
  unfold Interval.normInter at h ⊢
  by_cases hi : (Interval.inter x y).is_empty
  · rw [if_pos hi] at h
    exact absurd h (by simp [Interval.empty, Interval.is_empty])
  · rw [if_neg hi]

theorem subrel_zipWith :
    ∀ (xs ys : List Interval), xs.length = ys.length →
      (∀ o ∈ List.zipWith Interval.normInter xs ys, o.is_empty = false) →
      List.Forall₂ Interval.SubRel (List.zipWith Interval.normInter xs ys) xs := by
  intro xs
  induction xs with
  | nil =>
      intro ys _ _
      exact List.Forall₂.nil
  | cons x xs ih =>
      intro ys hlen hne
      cases ys with
      | nil => simp at hlen
      | cons y ys =>
          simp only [List.zipWith_cons_cons] at hne ⊢
          have hhead : (Interval.normInter x y).is_empty = false := hne _ (by simp)
          have hinter := normInter_eq_inter hhead
          refine List.Forall₂.cons ?_
            (ih ys (by simpa using hlen) (fun o ho => hne o (by simp [ho])))
          refine ⟨hhead, ?_, ?_, ?_, ?_⟩
          · obtain ⟨v, hv⟩ := Interval.exists_mem_of_not_empty hhead
            have := (Interval.mem_normInter_iff x y v).mp hv
            exact (Interval.is_empty_eq_false_iff x).mpr ⟨v, this.1⟩
          · rw [hinter]
            exact le_max_left _ _
          · rw [hinter]
            exact min_le_left _ _
          · intro v hv
            exact ((Interval.mem_normInter_iff x y v).mp hv).1

theorem forall₂_subrel_rs_nonempty {os rs : List Interval}
    (h : List.Forall₂ Interval.SubRel os rs) : ∀ r ∈ rs, r.is_empty = false := by
  induction h with
  | nil => intro r hr; cases hr
  | cons h1 _ ih =>
      intro r hr
      rcases List.mem_cons.mp hr with rfl | hr
      · exact h1.2.1
      · exact ih r hr

theorem mem_sliceRec_cons {r o : Interval} {rs os : List Interval} {l : List Interval} :
    l ∈ Box.sliceRec (r :: rs) (o :: os) ↔
      ((Interval.leftSlice r o).is_empty = false ∧ l = Interval.leftSlice r o :: rs) ∨
      ((Interval.rightSlice r o).is_empty = false ∧ l = Interval.rightSlice r o :: rs) ∨
      (∃ l' ∈ Box.sliceRec rs os, o :: l' = l) := by
  show l ∈ _ ++ _ ++ _ ↔ _
  rw [List.mem_append, List.mem_append, List.mem_map]
  constructor
  · rintro ((hl | hl) | hl)
    · by_cases hg : (Interval.leftSlice r o).is_empty
      · rw [if_pos hg] at hl; cases hl
      · rw [if_neg hg] at hl
        exact Or.inl ⟨bool_eq_false hg, List.mem_singleton.mp hl⟩
    · by_cases hg : (Interval.rightSlice r o).is_empty
      · rw [if_pos hg] at hl; cases hl
      · rw [if_neg hg] at hl
        exact Or.inr (Or.inl ⟨bool_eq_false hg, List.mem_singleton.mp hl⟩)
    · obtain ⟨l', hl', heq⟩ := hl
      exact Or.inr (Or.inr ⟨l', hl', heq⟩)
  · rintro (⟨hg, rfl⟩ | ⟨hg, rfl⟩ | ⟨l', hl', rfl⟩)
    · refine Or.inl (Or.inl ?_)
      rw [if_neg (by simp [hg])]
      exact List.mem_singleton.mpr rfl
    · refine Or.inl (Or.inr ?_)
      rw [if_neg (by simp [hg])]
      exact List.mem_singleton.mpr rfl
    · exact Or.inr ⟨l', hl', rfl⟩

theorem sliceRec_length_le : ∀ (rs os : List Interval),
    (Box.sliceRec rs os).length ≤ 2 * rs.length := by
  intro rs
  induction rs with
  | nil => intro os; simp [Box.sliceRec]
  | cons r rs ih =>
      intro os
      cases os with
      | nil => simp [Box.sliceRec]
      | cons o os =>
          have hdef : Box.sliceRec (r :: rs) (o :: os) =
              (if (Interval.leftSlice r o).is_empty then []
                else [Interval.leftSlice r o :: rs]) ++
              (if (Interval.rightSlice r o).is_empty then []
                else [Interval.rightSlice r o :: rs]) ++
              (Box.sliceRec rs os).map (fun l => o :: l) := rfl
          rw [hdef, List.length_append, List.length_append, List.length_map]
          have h1 : (if (Interval.leftSlice r o).is_empty then ([] : List (List Interval))
              else [Interval.leftSlice r o :: rs]).length ≤ 1 := by
            by_cases hg : (Interval.leftSlice r o).is_empty <;> simp [hg]
          have h2 : (if (Interval.rightSlice r o).is_empty then ([] : List (List Interval))
              else [Interval.rightSlice r o :: rs]).length ≤ 1 := by
            by_cases hg : (Interval.rightSlice r o).is_empty <;> simp [hg]
          have h3 := ih os
          simp only [List.length_cons]
          omega

theorem sliceRec_shape {os rs : List Interval} (h : List.Forall₂ Interval.SubRel os rs) :
    ∀ l ∈ Box.sliceRec rs os, l.length = rs.length ∧ ∀ i ∈ l, i.is_empty = false := by
  induction h with
  | nil => intro l hl; simp [Box.sliceRec] at hl
  | @cons o r os rs h1 h2 ih =>
      intro l hl
      rcases mem_sliceRec_cons.mp hl with ⟨hg, rfl⟩ | ⟨hg, rfl⟩ | ⟨l', hl', rfl⟩
      · refine ⟨by simp, ?_⟩
        intro i hi
        rcases List.mem_cons.mp hi with rfl | hi
        · exact hg
        · exact forall₂_subrel_rs_nonempty h2 i hi
      · refine ⟨by simp, ?_⟩
        intro i hi
        rcases List.mem_cons.mp hi with rfl | hi
        · exact hg
        · exact forall₂_subrel_rs_nonempty h2 i hi
      · obtain ⟨hlen, hne⟩ := ih l' hl'
        refine ⟨by simp [hlen], ?_⟩
        intro i hi
        rcases List.mem_cons.mp hi with rfl | hi
        · exact h1.1
        · exact hne i hi

theorem memL_cons_iff {i : Interval} {l : List Interval} {x : ℚ} {p : List ℚ} :
    memL (i :: l) (x :: p) ↔ (i.mem x = true ∧ memL l p) := by
  unfold memL
  exact List.forall₂_cons

theorem sliceRec_mem_iff {os rs : List Interval} (h : List.Forall₂ Interval.SubRel os rs) :
    ∀ p : List ℚ, (∃ l ∈ Box.sliceRec rs os, memL l p) ↔ (memL rs p ∧ ¬ memL os p) := by
  induction h with
  | nil =>
      intro p
      constructor
      · rintro ⟨l, hl, _⟩
        simp [Box.sliceRec] at hl
      · rintro ⟨hm, hno⟩
        unfold memL at hm
        rw [List.forall₂_nil_right_iff] at hm
        subst hm
        exact absurd List.Forall₂.nil hno
  | @cons o r os rs h1 h2 ih =>
      intro p
      cases p with
      | nil =>
          constructor
          · rintro ⟨l, hl, hml⟩
            obtain ⟨hlen, _⟩ := sliceRec_shape (List.Forall₂.cons h1 h2) l hl
            have := hml.length_eq
            rw [hlen] at this
            simp at this
          · rintro ⟨hm, _⟩
            have := hm.length_eq
            simp at this
      | cons x p =>
          by_cases hb : Interval.belowO o x
          · -- x lies strictly before the overlap in this dimension
            have homem : o.mem x = false := by
              cases hmo : o.mem x
              · rfl
              · exact absurd (Interval.not_mem_of_below hb hmo) not_false
            constructor
            · rintro ⟨l, hl, hml⟩
              rcases mem_sliceRec_cons.mp hl with ⟨hg, rfl⟩ | ⟨hg, rfl⟩ | ⟨l', hl', rfl⟩
              · obtain ⟨hhead, htail⟩ := memL_cons_iff.mp hml
                obtain ⟨hrx, _⟩ := (Interval.mem_leftSlice_iff h1 x).mp hhead
                refine ⟨memL_cons_iff.mpr ⟨hrx, htail⟩, ?_⟩
                intro hmo
                obtain ⟨hox, _⟩ := memL_cons_iff.mp hmo
                rw [homem] at hox
                exact absurd hox (by simp)
              · obtain ⟨hhead, _⟩ := memL_cons_iff.mp hml
                obtain ⟨_, hab⟩ := (Interval.mem_rightSlice_iff h1 x).mp hhead
                exact absurd (Interval.not_below_and_above h1.1 hb hab) not_false
              · obtain ⟨hhead, _⟩ := memL_cons_iff.mp hml
                rw [homem] at hhead
                exact absurd hhead (by simp)
            · rintro ⟨hm, _⟩
              obtain ⟨hrx, htail⟩ := memL_cons_iff.mp hm
              have hlmem : (Interval.leftSlice r o).mem x = true :=
                (Interval.mem_leftSlice_iff h1 x).mpr ⟨hrx, hb⟩
              have hlne : (Interval.leftSlice r o).is_empty = false :=
                (Interval.is_empty_eq_false_iff _).mpr ⟨x, hlmem⟩
              refine ⟨Interval.leftSlice r o :: rs, ?_, memL_cons_iff.mpr ⟨hlmem, htail⟩⟩
              exact mem_sliceRec_cons.mpr (Or.inl ⟨hlne, rfl⟩)
          · by_cases ha : Interval.aboveO o x
            · -- x lies strictly after the overlap in this dimension
              have homem : o.mem x = false := by
                cases hmo : o.mem x
                · rfl
                · exact absurd (Interval.not_mem_of_above ha hmo) not_false
              constructor
              · rintro ⟨l, hl, hml⟩
                rcases mem_sliceRec_cons.mp hl with ⟨hg, rfl⟩ | ⟨hg, rfl⟩ | ⟨l', hl', rfl⟩
                · obtain ⟨hhead, _⟩ := memL_cons_iff.mp hml
                  obtain ⟨_, hbe⟩ := (Interval.mem_leftSlice_iff h1 x).mp hhead
                  exact absurd (Interval.not_below_and_above h1.1 hbe ha) not_false
                · obtain ⟨hhead, htail⟩ := memL_cons_iff.mp hml
                  obtain ⟨hrx, _⟩ := (Interval.mem_rightSlice_iff h1 x).mp hhead
                  refine ⟨memL_cons_iff.mpr ⟨hrx, htail⟩, ?_⟩
                  intro hmo
                  obtain ⟨hox, _⟩ := memL_cons_iff.mp hmo
                  rw [homem] at hox
                  exact absurd hox (by simp)
                · obtain ⟨hhead, _⟩ := memL_cons_iff.mp hml
                  rw [homem] at hhead
                  exact absurd hhead (by simp)
              · rintro ⟨hm, _⟩
                obtain ⟨hrx, htail⟩ := memL_cons_iff.mp hm
                have hrmem : (Interval.rightSlice r o).mem x = true :=
                  (Interval.mem_rightSlice_iff h1 x).mpr ⟨hrx, ha⟩
                have hrne : (Interval.rightSlice r o).is_empty = false :=
                  (Interval.is_empty_eq_false_iff _).mpr ⟨x, hrmem⟩
                refine ⟨Interval.rightSlice r o :: rs, ?_, memL_cons_iff.mpr ⟨hrmem, htail⟩⟩
                exact mem_sliceRec_cons.mpr (Or.inr (Or.inl ⟨hrne, rfl⟩))
            · -- x lies inside the overlap in this dimension
              have homem : o.mem x = true := Interval.mem_of_not_below_not_above hb ha
              have hrmem : r.mem x = true := h1.2.2.2.2 x homem
              constructor
              · rintro ⟨l, hl, hml⟩
                rcases mem_sliceRec_cons.mp hl with ⟨hg, rfl⟩ | ⟨hg, rfl⟩ | ⟨l', hl', rfl⟩
                · obtain ⟨hhead, _⟩ := memL_cons_iff.mp hml
                  obtain ⟨_, hbe⟩ := (Interval.mem_leftSlice_iff h1 x).mp hhead
                  exact absurd hbe hb
                · obtain ⟨hhead, _⟩ := memL_cons_iff.mp hml
                  obtain ⟨_, hab⟩ := (Interval.mem_rightSlice_iff h1 x).mp hhead
                  exact absurd hab ha
                · obtain ⟨_, htail⟩ := memL_cons_iff.mp hml
                  obtain ⟨hrs, hnos⟩ := (ih p).mp ⟨l', hl', htail⟩
                  refine ⟨memL_cons_iff.mpr ⟨hrmem, hrs⟩, ?_⟩
                  intro hmo
                  exact hnos (memL_cons_iff.mp hmo).2
              · rintro ⟨hm, hno⟩
                obtain ⟨_, htail⟩ := memL_cons_iff.mp hm
                have hnos : ¬ memL os p := by
                  intro hos
                  exact hno (memL_cons_iff.mpr ⟨homem, hos⟩)
                obtain ⟨l', hl', hml'⟩ := (ih p).mpr ⟨htail, hnos⟩
                refine ⟨o :: l', ?_, memL_cons_iff.mpr ⟨homem, hml'⟩⟩
                exact mem_sliceRec_cons.mpr (Or.inr (Or.inr ⟨l', hl', rfl⟩))

theorem sliceRec_pairwise {os rs : List Interval} (h : List.Forall₂ Interval.SubRel os rs) :
    List.Pairwise (fun l1 l2 => ∀ p : List ℚ, ¬(memL l1 p ∧ memL l2 p))
      (Box.sliceRec rs os) := by
  induction h with
  | nil => exact List.Pairwise.nil
  | @cons o r os rs h1 h2 ih =>
      have hdef : Box.sliceRec (r :: rs) (o :: os) =
          (if (Interval.leftSlice r o).is_empty then []
            else [Interval.leftSlice r o :: rs]) ++
          (if (Interval.rightSlice r o).is_empty then []
            else [Interval.rightSlice r o :: rs]) ++
          (Box.sliceRec rs os).map (fun l => o :: l) := rfl
      have hLR : ∀ p : List ℚ, ¬(memL (Interval.leftSlice r o :: rs) p ∧
          memL (Interval.rightSlice r o :: rs) p) := by
        rintro p ⟨m1, m2⟩
        cases p with
        | nil => have := m1.length_eq; simp at this
        | cons x p =>
            have hh1 := (memL_cons_iff.mp m1).1
            have hh2 := (memL_cons_iff.mp m2).1
            have hb := ((Interval.mem_leftSlice_iff h1 x).mp hh1).2
            have ha := ((Interval.mem_rightSlice_iff h1 x).mp hh2).2
            exact Interval.not_below_and_above h1.1 hb ha
      have hLC : ∀ (l' : List Interval) (p : List ℚ),
          ¬(memL (Interval.leftSlice r o :: rs) p ∧ memL (o :: l') p) := by
        rintro l' p ⟨m1, m2⟩
        cases p with
        | nil => have := m1.length_eq; simp at this
        | cons x p =>
            have hh1 := (memL_cons_iff.mp m1).1
            have hh2 := (memL_cons_iff.mp m2).1
            have hb := ((Interval.mem_leftSlice_iff h1 x).mp hh1).2
            exact Interval.not_mem_of_below hb hh2
      have hRC : ∀ (l' : List Interval) (p : List ℚ),
          ¬(memL (Interval.rightSlice r o :: rs) p ∧ memL (o :: l') p) := by
        rintro l' p ⟨m1, m2⟩
        cases p with
        | nil => have := m1.length_eq; simp at this
        | cons x p =>
            have hh1 := (memL_cons_iff.mp m1).1
            have hh2 := (memL_cons_iff.mp m2).1
            have ha := ((Interval.mem_rightSlice_iff h1 x).mp hh1).2
            exact Interval.not_mem_of_above ha hh2
      have hCC : List.Pairwise (fun l1 l2 => ∀ p : List ℚ, ¬(memL l1 p ∧ memL l2 p))
          ((Box.sliceRec rs os).map (fun l => o :: l)) := by
        rw [List.pairwise_map]
        refine List.Pairwise.imp ?_ ih
        intro l1 l2 hR p hp
        obtain ⟨m1, m2⟩ := hp
        cases p with
        | nil => have := m1.length_eq; simp at this
        | cons x p =>
            exact hR p ⟨(memL_cons_iff.mp m1).2, (memL_cons_iff.mp m2).2⟩
      rw [hdef]
      by_cases hg1 : (Interval.leftSlice r o).is_empty
      · rw [if_pos hg1, List.nil_append]
        by_cases hg2 : (Interval.rightSlice r o).is_empty
        · rw [if_pos hg2, List.nil_append]
          exact hCC
        · rw [if_neg hg2, List.singleton_append]
          refine List.Pairwise.cons ?_ hCC
          intro b hb
          rcases List.mem_map.mp hb with ⟨l', _, rfl⟩
          exact hRC l'
      · rw [if_neg hg1]
        by_cases hg2 : (Interval.rightSlice r o).is_empty
        · rw [if_pos hg2, List.append_nil, List.singleton_append]
          refine List.Pairwise.cons ?_ hCC
          intro b hb
          rcases List.mem_map.mp hb with ⟨l', _, rfl⟩
          exact hLC l'
        · rw [if_neg hg2]
          have hl2 : ([Interval.leftSlice r o :: rs] ++ [Interval.rightSlice r o :: rs]) ++
              (Box.sliceRec rs os).map (fun l => o :: l) =
              (Interval.leftSlice r o :: rs) :: (Interval.rightSlice r o :: rs) ::
                (Box.sliceRec rs os).map (fun l => o :: l) := rfl
          rw [hl2]
          refine List.Pairwise.cons ?_ (List.Pairwise.cons ?_ hCC)
          · intro b hb
            rcases List.mem_cons.mp hb with rfl | hb
            · exact hLR
            · rcases List.mem_map.mp hb with ⟨l', _, rfl⟩
              exact hLC l'
          · intro b hb
            rcases List.mem_map.mp hb with ⟨l', _, rfl⟩
            exact hRC l'

theorem sum_map_mul_const {α : Type} (c : ℚ) (g : α → ℚ) (l : List α) :
    (l.map (fun a => c * g a)).sum = c * (l.map g).sum := by
  induction l with
  | nil => simp
  | cons a l ih => simp [ih, mul_add]

theorem sliceRec_volume {os rs : List Interval} (h : List.Forall₂ Interval.SubRel os rs) :
    ((Box.sliceRec rs os).map (fun l => (l.map Interval.length).prod)).sum
      = (rs.map Interval.length).prod - (os.map Interval.length).prod := by
  induction h with
  | nil => simp [Box.sliceRec]
  | @cons o r os rs h1 h2 ih =>
      have hdef : Box.sliceRec (r :: rs) (o :: os) =
          (if (Interval.leftSlice r o).is_empty then []
            else [Interval.leftSlice r o :: rs]) ++
          (if (Interval.rightSlice r o).is_empty then []
            else [Interval.rightSlice r o :: rs]) ++
          (Box.sliceRec rs os).map (fun l => o :: l) := rfl
      have hA : ((if (Interval.leftSlice r o).is_empty then []
          else [Interval.leftSlice r o :: rs]).map
            (fun l => (l.map Interval.length).prod)).sum
          = (Interval.leftSlice r o).length * (rs.map Interval.length).prod := by
        by_cases hg : (Interval.leftSlice r o).is_empty
        · rw [if_pos hg]
          have : (Interval.leftSlice r o).length = 0 := by
            unfold Interval.length
            rw [if_pos hg]
          rw [this]
          simp
        · rw [if_neg hg]
          simp [List.prod_cons]
      have hB : ((if (Interval.rightSlice r o).is_empty then []
          else [Interval.rightSlice r o :: rs]).map
            (fun l => (l.map Interval.length).prod)).sum
          = (Interval.rightSlice r o).length * (rs.map Interval.length).prod := by
        by_cases hg : (Interval.rightSlice r o).is_empty
        · rw [if_pos hg]
          have : (Interval.rightSlice r o).length = 0 := by
            unfold Interval.length
            rw [if_pos hg]
          rw [this]
          simp
        · rw [if_neg hg]
          simp [List.prod_cons]
      have hC : (((Box.sliceRec rs os).map (fun l => o :: l)).map
            (fun l => (l.map Interval.length).prod)).sum
          = o.length * ((Box.sliceRec rs os).map (fun l => (l.map Interval.length).prod)).sum := by
        rw [List.map_map]
        have hfun : ((fun l : List Interval => (l.map Interval.length).prod) ∘ (fun l => o :: l))
            = fun l : List Interval => o.length * (l.map Interval.length).prod := by
          funext l
          simp [List.prod_cons]
        rw [hfun]
        exact sum_map_mul_const _ _ _
      rw [hdef, List.map_append, List.map_append, List.sum_append, List.sum_append,
        hA, hB, hC, ih, List.map_cons, List.prod_cons, List.map_cons, List.prod_cons,
        Interval.length_split h1]
      ring

theorem box_is_empty_eq_false_iff (b : Box) :
    b.is_empty = false ↔ ∀ i ∈ b.intervals, i.is_empty = false := by
  unfold Box.is_empty
  rw [List.any_eq_false]
  constructor
  · intro h i hi
    exact bool_eq_false (h i hi)
  · intro h i hi
    rw [h i hi]
    simp

theorem interB_subrel {a b : Box} (hd : a.dimension = b.dimension)
    (hne : (Box.interB a b).is_empty = false) :
    List.Forall₂ Interval.SubRel (Box.interB a b).intervals a.intervals := by
  have hcomp := (box_is_empty_eq_false_iff _).mp hne
  exact subrel_zipWith a.intervals b.intervals hd hcomp

theorem memB_mk_iff (l : List Interval) (p : List ℚ) :
    Box.memB (Box.mk l) p = true ↔ memL l p :=
  memB_iff_memL (Box.mk l) p

/-- C1: for any two Boxes of equal dimension, `difference` returns at most
`2 N` boxes, they are pairwise non-overlapping, none overlaps the
subtrahend, their union is exactly the pointwise set difference, and the
volume of the minuend is the volume of the intersection plus the total
volume of the returned fragments. -/
theorem claim_C1 (a b : Box) (l : List Box) (o : Box)
    (hdiff : Box.difference a b = Except.ok l)
    (hint : Box.intersection a b = Except.ok o) :
    l.length ≤ 2 * a.dimension ∧
    List.Pairwise (fun f g => Box.overlaps f g = Except.ok false) l ∧
    (∀ f ∈ l, Box.overlaps f b = Except.ok false) ∧
    (∀ p : List ℚ, ((∃ f ∈ l, Box.memB f p = true) ↔
        (Box.memB a p = true ∧ Box.memB b p = false))) ∧
    Box.volume a = Box.volume o + (l.map Box.volume).sum := by
  unfold Box.difference at hdiff
  unfold Box.intersection at hint
  by_cases hd : a.dimension ≠ b.dimension
  · rw [if_pos hd] at hdiff
    exact absurd hdiff (by simp)
  · rw [if_neg hd] at hdiff hint
    push_neg at hd
    have hl : l = Box.diffB a b := by
      injection hdiff with h
      exact h.symm
    have ho : o = Box.interB a b := by
      injection hint with h
      exact h.symm
    subst hl
    subst ho
    unfold Box.diffB
    by_cases hie : (Box.interB a b).is_empty
    · -- the intersection is empty: the difference is the whole minuend
      rw [if_pos hie]
      have hnocommon : ∀ p : List ℚ, ¬(Box.memB a p = true ∧ Box.memB b p = true) := by
        rintro p ⟨hpa, hpb⟩
        have := (memB_interB hd p).mpr ⟨hpa, hpb⟩
        rw [is_empty_eq_false_of_memB this] at hie
        exact absurd hie (by simp)
      have hdim_pos : 1 ≤ a.dimension := by
        unfold Box.is_empty at hie
        rw [List.any_eq_true] at hie
        obtain ⟨i, hi, _⟩ := hie
        have : (Box.interB a b).intervals ≠ [] := List.ne_nil_of_mem hi
        have hlen : (Box.interB a b).intervals.length ≤ a.intervals.length := by
          unfold Box.interB
          simp [List.length_zipWith]
        have : 0 < (Box.interB a b).intervals.length := List.length_pos.mpr this
        unfold Box.dimension
        omega
      refine ⟨by simp only [List.length_singleton]; omega, ?_, ?_, ?_, ?_⟩
      · exact List.pairwise_singleton _ _
      · intro f hf
        rcases List.mem_singleton.mp hf with rfl
        unfold Box.overlaps
        rw [if_neg (by simp [hd])]
        congr 1
        rw [overlapsB_eq_false_iff hd]
        exact hnocommon
      · intro p
        constructor
        · rintro ⟨f, hf, hmf⟩
          rcases List.mem_singleton.mp hf with rfl
          refine ⟨hmf, ?_⟩
          cases hmb : Box.memB b p
          · rfl
          · exact absurd ⟨hmf, hmb⟩ (hnocommon p)
        · rintro ⟨hma, _⟩
          exact ⟨a, List.mem_singleton.mpr rfl, hma⟩
      · have hvo : Box.volume (Box.interB a b) = 0 := by
          unfold Box.volume
          rw [if_pos hie]
        rw [hvo]
        simp
    · -- the intersection is nonempty: the slicing loop runs
      rw [if_neg hie]
      have hie' : (Box.interB a b).is_empty = false := bool_eq_false hie
      have hsub := interB_subrel hd hie'
      have hshape := sliceRec_shape hsub
      have hmem := sliceRec_mem_iff hsub
      have hdimb : a.intervals.length = b.intervals.length := hd
      refine ⟨?_, ?_, ?_, ?_, ?_⟩
      · rw [List.length_map]
        exact sliceRec_length_le _ _
      · rw [List.pairwise_map]
        refine List.Pairwise.imp_of_mem ?_ (sliceRec_pairwise hsub)
        intro l1 l2 h1m h2m hR
        unfold Box.overlaps
        have hd1 : (Box.mk l1).dimension = (Box.mk l2).dimension := by
          show l1.length = l2.length
          rw [(hshape l1 h1m).1, (hshape l2 h2m).1]
        rw [if_neg (by simp [hd1])]
        congr 1
        rw [overlapsB_eq_false_iff hd1]
        intro p hp
        exact hR p ⟨(memB_mk_iff l1 p).mp hp.1, (memB_mk_iff l2 p).mp hp.2⟩
      · intro f hf
        rcases List.mem_map.mp hf with ⟨l', hl', rfl⟩
        unfold Box.overlaps
        have hd1 : (Box.mk l').dimension = b.dimension := by
          show l'.length = b.intervals.length
          rw [(hshape l' hl').1]
          exact hdimb
        rw [if_neg (by simp [hd1])]
        congr 1
        rw [overlapsB_eq_false_iff hd1]
        rintro p ⟨hp1, hp2⟩
        have hex : ∃ ll ∈ Box.sliceRec a.intervals (Box.interB a b).intervals, memL ll p :=
          ⟨l', hl', (memB_mk_iff l' p).mp hp1⟩
        obtain ⟨hra, hnos⟩ := (hmem p).mp hex
        have hia : Box.memB a p = true := (memB_iff_memL a p).mpr hra
        have := (memB_interB hd p).mpr ⟨hia, hp2⟩
        exact hnos ((memB_iff_memL _ p).mp this)
      · intro p
        constructor
        · rintro ⟨f, hf, hmf⟩
          rcases List.mem_map.mp hf with ⟨l', hl', rfl⟩
          obtain ⟨hra, hnos⟩ := (hmem p).mp ⟨l', hl', (memB_mk_iff l' p).mp hmf⟩
          have hia : Box.memB a p = true := (memB_iff_memL a p).mpr hra
          refine ⟨hia, ?_⟩
          cases hmb : Box.memB b p
          · rfl
          · exfalso
            have := (memB_interB hd p).mpr ⟨hia, hmb⟩
            exact hnos ((memB_iff_memL _ p).mp this)
        · rintro ⟨hma, hmb⟩
          have hnos : ¬ memL (Box.interB a b).intervals p := by
            intro hos
            have := (memB_interB hd p).mp ((memB_iff_memL _ p).mpr hos)
            rw [hmb] at this
            exact absurd this.2 (by simp)
          obtain ⟨l', hl', hml'⟩ := (hmem p).mpr ⟨(memB_iff_memL a p).mp hma, hnos⟩
          exact ⟨Box.mk l', List.mem_map.mpr ⟨l', hl', rfl⟩, (memB_mk_iff l' p).mpr hml'⟩
      · have hane : a.is_empty = false := by
          rw [box_is_empty_eq_false_iff]
          exact forall₂_subrel_rs_nonempty hsub
        have hva : Box.volume a = (a.intervals.map Interval.length).prod := by
          unfold Box.volume
          rw [if_neg (by simp [hane])]
        have hvo : Box.volume (Box.interB a b)
            = ((Box.interB a b).intervals.map Interval.length).prod := by
          unfold Box.volume
          rw [if_neg (by simp [hie'])]
        have hmapv : (((Box.sliceRec a.intervals (Box.interB a b).intervals).map
              Box.mk).map Box.volume)
            = ((Box.sliceRec a.intervals (Box.interB a b).intervals).map
              (fun ll => (ll.map Interval.length).prod)) := by
          rw [List.map_map]
          refine List.map_congr_left ?_
          intro ll hll
          show Box.volume (Box.mk ll) = _
          unfold Box.volume
          have : (Box.mk ll).is_empty = false := by
            rw [box_is_empty_eq_false_iff]
            exact (hshape ll hll).2
          rw [if_neg (by simp [this])]
        rw [hva, hvo, hmapv, sliceRec_volume hsub]
        ring

theorem claim_C1_witness :
    Box.difference (Box.mk [Interval.mk 0 2 false false])
        (Box.mk [Interval.mk 1 3 false false])
      = Except.ok [Box.mk [Interval.mk 0 1 false true]] ∧
    Box.intersection (Box.mk [Interval.mk 0 2 false false])
        (Box.mk [Interval.mk 1 3 false false])
      = Except.ok (Box.mk [Interval.mk 1 2 false false]) ∧
    ([Box.mk [Interval.mk 0 1 false true]].length
        ≤ 2 * (Box.mk [Interval.mk 0 2 false false]).dimension ∧
      List.Pairwise (fun f g => Box.overlaps f g = Except.ok false)
        [Box.mk [Interval.mk 0 1 false true]] ∧
      (∀ f ∈ [Box.mk [Interval.mk 0 1 false true]],
        Box.overlaps f (Box.mk [Interval.mk 1 3 false false]) = Except.ok false) ∧
      (∀ p : List ℚ,
        ((∃ f ∈ [Box.mk [Interval.mk 0 1 false true]], Box.memB f p = true) ↔
          (Box.memB (Box.mk [Interval.mk 0 2 false false]) p = true ∧
            Box.memB (Box.mk [Interval.mk 1 3 false false]) p = false))) ∧
      Box.volume (Box.mk [Interval.mk 0 2 false false])
        = Box.volume (Box.mk [Interval.mk 1 2 false false])
          + ([Box.mk [Interval.mk 0 1 false true]].map Box.volume).sum) :=
  ⟨rfl, rfl, claim_C1 _ _ _ _ rfl rfl⟩

/-- C8 counterexample: `distance_to_point` checks emptiness before the
dimension check (multidimensional.py lines 228 to 231), so an empty
1-dimensional box with a length-2 point returns infinity instead of raising
the dimension-mismatch error the claim requires. -/
theorem claim_C8_counterexample :
    Box.distance_to_point (Box.mk [Interval.empty]) [0, 0] = Except.ok ExtQ.inf := rfl

/-- C8 (amended): for a non-empty box, a point of mismatched length raises a
dimension-mismatch error; for an empty box, `distance_to_point` returns plus
infinity for every point, whether its length matches or not. -/
theorem claim_C8 (b : Box) (p : List ℚ) :
    (b.is_empty = false → p.length ≠ b.dimension →
        ∃ e, Box.distance_to_point b p = Except.error e) ∧
    (b.is_empty = true → Box.distance_to_point b p = Except.ok ExtQ.inf) := by
  constructor
  · intro hne hlen
    unfold Box.distance_to_point
    rw [if_neg (by simp [hne]), if_pos hlen]
    exact ⟨_, rfl⟩
  · intro he
    unfold Box.distance_to_point
    rw [if_pos he]

theorem claim_C8_witness :
    ((Box.mk [Interval.closed 0 1]).is_empty = false ∧ [0, (0 : ℚ)].length ≠ (Box.mk [Interval.closed 0 1]).dimension) ∧
    (∃ e, Box.distance_to_point (Box.mk [Interval.closed 0 1]) [0, 0] = Except.error e) :=
  ⟨⟨by decide, by decide⟩,
    (claim_C8 (Box.mk [Interval.closed 0 1]) [0, 0]).1 (by decide) (by decide)⟩

/-- C9: an empty Box is bounded, and neither open, nor closed, nor compact
(multidimensional.py lines 77 to 93: `is_bounded` early-returns true on
empty, while `is_open`, `is_closed` and hence `is_compact` require
non-emptiness). -/
theorem claim_C9 (b : Box) (h : b.is_empty = true) :
    b.is_bounded = true ∧ b.is_open = false ∧ b.is_closed = false ∧
      b.is_compact = false := by
  unfold Box.is_compact Box.is_bounded Box.is_open Box.is_closed
  rw [h]
  simp

theorem claim_C9_witness :
    (Box.mk [Interval.empty]).is_empty = true ∧
    ((Box.mk [Interval.empty]).is_bounded = true ∧
      (Box.mk [Interval.empty]).is_open = false ∧
      (Box.mk [Interval.empty]).is_closed = false ∧
      (Box.mk [Interval.empty]).is_compact = false) :=
  ⟨by decide, claim_C9 (Box.mk [Interval.empty]) (by decide)⟩

/-- C10: `Box.contains` with a Box argument of differing dimension never
raises: it returns true exactly when the argument is empty (lines 100 to
103), whereas point containment raises on any length mismatch (lines 116
to 119). -/
theorem claim_C10 (b1 b2 : Box) (h : b1.dimension ≠ b2.dimension) :
    Box.containsBox b1 b2 = b2.is_empty ∧
    (∀ p : List ℚ, p.length ≠ b1.dimension →
        ∃ e, Box.containsPoint b1 p = Except.error e) := by
  constructor
  · unfold Box.containsBox
    by_cases he : b2.is_empty
    · rw [if_pos he, he]
    · rw [if_neg he, if_pos (Ne.symm h)]
      exact (bool_eq_false he).symm
  · intro p hp
    unfold Box.containsPoint
    rw [if_pos hp]
    exact ⟨_, rfl⟩

theorem claim_C10_witness :
    (Box.mk [Interval.closed 0 1]).dimension ≠
        (Box.mk [Interval.closed 0 1, Interval.closed 0 1]).dimension ∧
    (Box.containsBox (Box.mk [Interval.closed 0 1])
        (Box.mk [Interval.closed 0 1, Interval.closed 0 1])
      = (Box.mk [Interval.closed 0 1, Interval.closed 0 1]).is_empty ∧
    (∀ p : List ℚ, p.length ≠ (Box.mk [Interval.closed 0 1]).dimension →
        ∃ e, Box.containsPoint (Box.mk [Interval.closed 0 1]) p = Except.error e)) :=
  ⟨by decide, claim_C10 _ _ (by decide)⟩

/-! Shallow embedding of the generic R-tree (spatial.py).  Mutation of the
node graph is modelled by rebuilding the affected path; the parent
back-reference is replaced by recursion.  Python list `remove` uses `==` on
the removed element, modelled by `List.erase` under decidable equality
(`RTreeNode` objects compare by identity in Python; structural equality only
differs on duplicate identical subtrees, which no claim distinguishes). -/

/-- The four host-supplied callbacks and branching factors of `RTree`
(spatial.py lines 53 to 67). -/
structure RTreeFns (T MBR : Type) where
  get_mbr : T → MBR
  expand_mbr : Option MBR → MBR → MBR
  get_volume : MBR → ℚ
  overlaps : MBR → MBR → Bool
  min_entries : Nat
  max_entries : Nat

/-- An R-tree node (spatial.py lines 13 to 44): leaves hold items, inner
nodes hold child nodes (the only shapes the insert/search API creates). -/
inductive RTreeNode (T MBR : Type) : Type where
  | leaf : List T → Option MBR → RTreeNode T MBR
  | inner : List (RTreeNode T MBR) → Option MBR → RTreeNode T MBR

namespace RTreeNode

variable {T MBR : Type}

mutual

def decEq [DecidableEq T] [DecidableEq MBR] :
    ∀ (a b : RTreeNode T MBR), Decidable (a = b)
  | .leaf cs m, .leaf cs' m' =>
      match (inferInstance : Decidable (cs = cs')), (inferInstance : Decidable (m = m')) with
      | isTrue h1, isTrue h2 => isTrue (by rw [h1, h2])
      | isFalse h1, _ => isFalse (by intro h; cases h; exact h1 rfl)
      | _, isFalse h2 => isFalse (by intro h; cases h; exact h2 rfl)
  | .inner cs m, .inner cs' m' =>
      match decEqList cs cs', (inferInstance : Decidable (m = m')) with
      | isTrue h1, isTrue h2 => isTrue (by rw [h1, h2])
      | isFalse h1, _ => isFalse (by intro h; cases h; exact h1 rfl)
      | _, isFalse h2 => isFalse (by intro h; cases h; exact h2 rfl)
  | .leaf _ _, .inner _ _ => isFalse (by intro h; cases h)
  | .inner _ _, .leaf _ _ => isFalse (by intro h; cases h)

def decEqList [DecidableEq T] [DecidableEq MBR] :
    ∀ (l l' : List (RTreeNode T MBR)), Decidable (l = l')
  | [], [] => isTrue rfl
  | [], _ :: _ => isFalse (by intro h; cases h)
  | _ :: _, [] => isFalse (by intro h; cases h)
  | a :: l, b :: l' =>
      match decEq a b, decEqList l l' with
      | isTrue h1, isTrue h2 => isTrue (by rw [h1, h2])
      | isFalse h1, _ => isFalse (by intro h; cases h; exact h1 rfl)
      | _, isFalse h2 => isFalse (by intro h; cases h; exact h2 rfl)

end

instance [DecidableEq T] [DecidableEq MBR] : DecidableEq (RTreeNode T MBR) := decEq

/-- The stored `mbr` field of a node. -/
def nodeMbr : RTreeNode T MBR → Option MBR
  | .leaf _ m => m
  | .inner _ m => m

/-- The number of children, as used by the tie-breaks (`len(child.children)`). -/
def childCount : RTreeNode T MBR → Nat
  | .leaf cs _ => cs.length
  | .inner cs _ => cs.length

/-- All items stored in the leaves below a node, in traversal order. -/
def itemsOf : RTreeNode T MBR → List T
  | .leaf cs _ => cs
  | .inner cs _ => (cs.attach.map (fun c => itemsOf c.1)).flatten
decreasing_by
  simp_wf
  have := List.sizeOf_lt_of_mem c.2
  omega

theorem itemsOf_leaf (cs : List T) (m : Option MBR) :
    itemsOf (.leaf cs m : RTreeNode T MBR) = cs := by
  unfold itemsOf
  rfl

theorem itemsOf_inner (cs : List (RTreeNode T MBR)) (m : Option MBR) :
    itemsOf (.inner cs m) = (cs.map itemsOf).flatten := by
  unfold itemsOf
  congr 1
  exact List.attach_map_val cs itemsOf

end RTreeNode

namespace RTree

open RTreeNode

variable {T MBR : Type}

/-- `RTreeNode.recalculate_mbr` (spatial.py lines 36 to 44) as a fold over
stored child bounds.  Children of reachable inner nodes always carry a
bound; the skip of a `none` entry models Python behaviour that would
otherwise pass a node object into `expand_mbr` (unreachable, see `WF`). -/
def recalcStep (F : RTreeFns T MBR) (acc : Option MBR) (om : Option MBR) : Option MBR :=
  match om with
  | some m => some (F.expand_mbr acc m)
  | none => acc

def recalcMbr (F : RTreeFns T MBR) (ms : List (Option MBR)) : Option MBR :=
  ms.foldl (recalcStep F) none

/-- Successive `add_child` bound expansion starting from no bound. -/
def foldMbr (F : RTreeFns T MBR) (ms : List MBR) : Option MBR :=
  recalcMbr F (ms.map some)

/-- `RTree._search_recursive` (spatial.py lines 254 to 268). -/
def searchAux (F : RTreeFns T MBR) (q : MBR) : RTreeNode T MBR → List T
  | .leaf cs m =>
      match m with
      | none => []
      | some mv =>
          if F.overlaps mv q then cs.filter (fun c => F.overlaps (F.get_mbr c) q)
          else []
  | .inner cs m =>
      match m with
      | none => []
      | some mv =>
          if F.overlaps mv q then (cs.attach.map (fun c => searchAux F q c.1)).flatten
          else []
decreasing_by
  simp_wf
  have := List.sizeOf_lt_of_mem c.2
  omega

/-- `RTree.search` (spatial.py lines 246 to 252). -/
def search (F : RTreeFns T MBR) (root : RTreeNode T MBR) (q : MBR) : List T :=
  match nodeMbr root with
  | none => []
  | some _ => searchAux F q root

/-- The selection loop of `RTree._choose_leaf` (spatial.py lines 86 to 114):
pick the child of least enlargement, ties broken by smaller resulting
volume, then fewer children; earlier children win remaining ties.  Returns
the index of the winner.  The initial `inf` sentinels are modelled by an
empty accumulator, which the first child always beats. -/
def chooseStep (F : RTreeFns T MBR) (imbr : MBR)
    (acc : Option (Nat × RTreeNode T MBR × ℚ × ℚ))
    (ic : Nat × RTreeNode T MBR) : Option (Nat × RTreeNode T MBR × ℚ × ℚ) :=
  let area_before := match nodeMbr ic.2 with
    | some m => F.get_volume m
    | none => 0
  let area_after := F.get_volume (F.expand_mbr (nodeMbr ic.2) imbr)
  let enlargement := area_after - area_before
  match acc with
  | none => some (ic.1, ic.2, enlargement, area_after)
  | some (bi, bc, be, ba) =>
      if enlargement < be then some (ic.1, ic.2, enlargement, area_after)
      else if enlargement = be then
        if area_after < ba then some (ic.1, ic.2, enlargement, area_after)
        else if area_after = ba then
          if childCount ic.2 < childCount bc then
            some (ic.1, ic.2, enlargement, area_after)
          else some (bi, bc, be, ba)
        else some (bi, bc, be, ba)
      else some (bi, bc, be, ba)

def chooseIdx (F : RTreeFns T MBR) (cs : List (RTreeNode T MBR)) (imbr : MBR) :
    Option Nat :=
  (cs.enum.foldl (chooseStep F imbr) none).map (fun r => r.1)

theorem chooseStep_valid (F : RTreeFns T MBR) (imbr : MBR)
    {cs : List (RTreeNode T MBR)} :
    ∀ (l : List (Nat × RTreeNode T MBR))
      (acc : Option (Nat × RTreeNode T MBR × ℚ × ℚ)),
      (∀ p ∈ l, cs[p.1]? = some p.2) →
      (∀ r, acc = some r → cs[r.1]? = some r.2.1) →
      (∀ r, l.foldl (chooseStep F imbr) acc = some r → cs[r.1]? = some r.2.1) := by
  intro l
  induction l with
  | nil => intro acc _ hacc; exact hacc
  | cons p l ih =>
      intro acc hl hacc
      rw [List.foldl_cons]
      refine ih _ (fun p' hp' => hl p' (by simp [hp'])) ?_
      intro r hr
      have hp := hl p (by simp)
      unfold chooseStep at hr
      cases acc with
      | none =>
          simp only [] at hr
          injection hr with hr
          rw [← hr]
          exact hp
      | some b =>
          obtain ⟨bi, bc, be, ba⟩ := b
          simp only [] at hr
          split at hr
          · injection hr with hr; rw [← hr]; exact hp
          · split at hr
            · split at hr
              · injection hr with hr; rw [← hr]; exact hp
              · split at hr
                · split at hr
                  · injection hr with hr; rw [← hr]; exact hp
                  · injection hr with hr; rw [← hr]; exact hacc _ rfl
                · injection hr with hr; rw [← hr]; exact hacc _ rfl
            · injection hr with hr; rw [← hr]; exact hacc _ rfl

theorem chooseStep_ne_none (F : RTreeFns T MBR) (imbr : MBR) :
    ∀ (l : List (Nat × RTreeNode T MBR))
      (acc : Option (Nat × RTreeNode T MBR × ℚ × ℚ)),
      (acc ≠ none ∨ l ≠ []) → l.foldl (chooseStep F imbr) acc ≠ none := by
  intro l
  induction l with
  | nil =>
      intro acc h
      rcases h with h | h
      · exact h
      · exact absurd rfl h
  | cons p l ih =>
      intro acc _
      rw [List.foldl_cons]
      refine ih _ (Or.inl ?_)
      unfold chooseStep
      cases acc with
      | none => simp
      | some b =>
          obtain ⟨bi, bc, be, ba⟩ := b
          simp only []
          split
          · simp
          · split
            · split
              · simp
              · split
                · split <;> simp
                · simp
            · simp

theorem chooseIdx_valid (F : RTreeFns T MBR) (cs : List (RTreeNode T MBR))
    (imbr : MBR) {i : Nat} (h : chooseIdx F cs imbr = some i) :
    ∃ c, cs[i]? = some c := by
  unfold chooseIdx at h
  cases hf : cs.enum.foldl (chooseStep F imbr) none with
  | none => rw [hf] at h; cases h
  | some r =>
      rw [hf] at h
      injection h with h
      have hv := chooseStep_valid F imbr cs.enum none
        (fun p hp => by
          have := List.mem_enum hp
          exact List.getElem?_eq_some.mpr ⟨this.1, this.2.symm⟩)
        (fun r hr => by cases hr) r hf
      exact ⟨r.2.1, h ▸ hv⟩

theorem chooseIdx_ne_none (F : RTreeFns T MBR) {cs : List (RTreeNode T MBR)}
    (imbr : MBR) (hne : cs ≠ []) : chooseIdx F cs imbr ≠ none := by
  unfold chooseIdx
  intro h
  have h' : cs.enum.foldl (chooseStep F imbr) none = none := by
    cases hf : cs.enum.foldl (chooseStep F imbr) none with
    | none => rfl
    | some r => rw [hf] at h; cases h
  refine chooseStep_ne_none F imbr cs.enum none (Or.inr ?_) h'
  cases cs with
  | nil => exact absurd rfl hne
  | cons c cs => simp [List.enum]

/-- The pair loop of `RTree._pick_seeds` (spatial.py lines 208 to 222),
visiting pairs in index order with strict improvement. -/
def seedPairs {α : Type} (F : RTreeFns T MBR) (mbrOf : α → MBR) :
    List α → (α × α × ℚ) → α × α × ℚ
  | [], best => best
  | c :: rest, best =>
      seedPairs F mbrOf rest (rest.foldl (fun b d =>
        let waste := F.get_volume (F.expand_mbr (some (mbrOf c)) (mbrOf d)) -
          F.get_volume (mbrOf c) - F.get_volume (mbrOf d)
        if waste > b.2.2 then (c, d, waste) else b) best)

/-- `RTree._pick_seeds` (spatial.py lines 202 to 223).  Python indexes
`children[0]` and `children[1]` unconditionally; with fewer than two
children it would raise, which the insert flow never does. -/
def pickSeeds {α : Type} (F : RTreeFns T MBR) (mbrOf : α → MBR) (cs : List α) :
    Option (α × α) :=
  match cs with
  | c0 :: c1 :: _ =>
      let r := seedPairs F mbrOf cs (c0, c1, -1)
      some (r.1, r.2.1)
  | _ => none

/-- `RTree._pick_next` (spatial.py lines 225 to 244): the remaining child
maximizing the absolute difference of enlargement costs, first maximum
winning. -/
def pickNext {α : Type} (F : RTreeFns T MBR) (mbrOf : α → MBR) (cs : List α)
    (m1 m2 : MBR) : Option α :=
  match cs with
  | [] => none
  | c0 :: _ =>
      some ((cs.foldl (fun (b : α × ℚ) c =>
        let d1 := F.get_volume (F.expand_mbr (some m1) (mbrOf c)) - F.get_volume m1
        let d2 := F.get_volume (F.expand_mbr (some m2) (mbrOf c)) - F.get_volume m2
        let diff := |d1 - d2|
        if diff > b.2 then (c, diff) else b) (c0, -1)).1)

/-- Bulk `add_child` of a list of children into a group (the starvation
branches of `_split_node`, spatial.py lines 142 to 151). -/
def bulkExpand {α : Type} (F : RTreeFns T MBR) (mbrOf : α → MBR) (m : MBR)
    (cs : List α) : MBR :=
  cs.foldl (fun acc c => F.expand_mbr (some acc) (mbrOf c)) m

theorem pickNext_mem {α : Type} (F : RTreeFns T MBR) (mbrOf : α → MBR)
    (cs : List α) (m1 m2 : MBR) (c : α)
    (h : pickNext F mbrOf cs m1 m2 = some c) : c ∈ cs := by
  unfold pickNext at h
  match cs, h with
  | c0 :: rest, h =>
      have hfold : ∀ (l : List α) (b : α × ℚ), b.1 ∈ c0 :: rest → (∀ d ∈ l, d ∈ c0 :: rest) →
          (l.foldl (fun (b : α × ℚ) c =>
            let d1 := F.get_volume (F.expand_mbr (some m1) (mbrOf c)) - F.get_volume m1
            let d2 := F.get_volume (F.expand_mbr (some m2) (mbrOf c)) - F.get_volume m2
            let diff := |d1 - d2|
            if diff > b.2 then (c, diff) else b) b).1 ∈ c0 :: rest := by
        intro l
        induction l with
        | nil => intro b hb _; exact hb
        | cons d l ih =>
            intro b hb hl
            simp only [List.foldl_cons]
            by_cases hc : |F.get_volume (F.expand_mbr (some m1) (mbrOf d)) - F.get_volume m1 -
                (F.get_volume (F.expand_mbr (some m2) (mbrOf d)) - F.get_volume m2)| > b.2
            · refine ih _ ?_ (fun e he => hl e (by simp [he]))
              simp only [hc, if_pos]
              exact hl d (by simp)
            · refine ih _ ?_ (fun e he => hl e (by simp [he]))
              simp only [if_neg hc]
              exact hb
      injection h with h
      rw [← h]
      exact hfold (c0 :: rest) (c0, -1) (by simp) (fun d hd => hd)

/-- The redistribution loop of `RTree._split_node` (spatial.py lines 141 to
182): starvation checks for each group, then assign the picked child to the
group of smaller enlargement, ties by smaller area, then by fewer children. -/
def splitLoop {α : Type} [DecidableEq α] (F : RTreeFns T MBR) (mbrOf : α → MBR)
    (g1 : List α) (m1 : MBR) (g2 : List α) (m2 : MBR)
    (rem : List α) : (List α × MBR) × (List α × MBR) :=
  match rem with
  | [] => ((g1, m1), (g2, m2))
  | c0 :: rest =>
      if g1.length + (c0 :: rest).length = F.min_entries then
        ((g1 ++ (c0 :: rest), bulkExpand F mbrOf m1 (c0 :: rest)), (g2, m2))
      else if g2.length + (c0 :: rest).length = F.min_entries then
        ((g1, m1), (g2 ++ (c0 :: rest), bulkExpand F mbrOf m2 (c0 :: rest)))
      else
        match hpick : pickNext F mbrOf (c0 :: rest) m1 m2 with
        | none => ((g1, m1), (g2, m2))
        | some c =>
            have hmem : c ∈ c0 :: rest := pickNext_mem F mbrOf _ m1 m2 c hpick
            have hlen : ((c0 :: rest).erase c).length < (c0 :: rest).length := by
              rw [List.length_erase_of_mem hmem]
              simp
            if F.get_volume (F.expand_mbr (some m1) (mbrOf c)) - F.get_volume m1 <
                F.get_volume (F.expand_mbr (some m2) (mbrOf c)) - F.get_volume m2 then
              splitLoop F mbrOf (g1 ++ [c]) (F.expand_mbr (some m1) (mbrOf c)) g2 m2
                ((c0 :: rest).erase c)
            else if F.get_volume (F.expand_mbr (some m2) (mbrOf c)) - F.get_volume m2 <
                F.get_volume (F.expand_mbr (some m1) (mbrOf c)) - F.get_volume m1 then
              splitLoop F mbrOf g1 m1 (g2 ++ [c]) (F.expand_mbr (some m2) (mbrOf c))
                ((c0 :: rest).erase c)
            else if F.get_volume m1 < F.get_volume m2 then
              splitLoop F mbrOf (g1 ++ [c]) (F.expand_mbr (some m1) (mbrOf c)) g2 m2
                ((c0 :: rest).erase c)
            else if F.get_volume m2 < F.get_volume m1 then
              splitLoop F mbrOf g1 m1 (g2 ++ [c]) (F.expand_mbr (some m2) (mbrOf c))
                ((c0 :: rest).erase c)
            else if g1.length < g2.length then
              splitLoop F mbrOf (g1 ++ [c]) (F.expand_mbr (some m1) (mbrOf c)) g2 m2
                ((c0 :: rest).erase c)
            else
              splitLoop F mbrOf g1 m1 (g2 ++ [c]) (F.expand_mbr (some m2) (mbrOf c))
                ((c0 :: rest).erase c)
termination_by rem.length
decreasing_by
  all_goals
    simp_wf
    simp only [List.length_cons] at *
    omega

/-- The grouping phase of `RTree._split_node` (spatial.py lines 126 to 182,
before the hierarchy update): seeds, then redistribution.  Returns each
group's children and bound.  With fewer than two children Python would
raise in `_pick_seeds`; the insert flow always splits with at least
`max_entries + 1` children. -/
def quadSplit {α : Type} [DecidableEq α] (F : RTreeFns T MBR) (mbrOf : α → MBR)
    (cs : List α) : ((List α × Option MBR) × (List α × Option MBR)) :=
  match pickSeeds F mbrOf cs with
  | none => ((cs, recalcMbr F []), ([], recalcMbr F []))
  | some (c1, c2) =>
      let rest := (cs.erase c1).erase c2
      let r := splitLoop F mbrOf [c1] (F.expand_mbr none (mbrOf c1))
        [c2] (F.expand_mbr none (mbrOf c2)) rest
      ((r.1.1, some r.1.2), (r.2.1, some r.2.2))

/-- Result of inserting below a node: either the rebuilt node, or the two
groups replacing it after an overflow split. -/
inductive InsRes (T MBR : Type) : Type where
  | one : RTreeNode T MBR → InsRes T MBR
  | split : RTreeNode T MBR → RTreeNode T MBR → InsRes T MBR

/-- Stored bound of a node with a junk fallback; reachable children always
carry a bound (`WF`), matching Python where a bound-less child would crash
`expand_mbr`. -/
def nodeMbrOr (dflt : MBR) (n : RTreeNode T MBR) : MBR :=
  (nodeMbr n).getD dflt

/-- `RTree.insert` below one node (spatial.py lines 70 to 200): descend via
the `_choose_leaf` criteria, append at the leaf, split on overflow
(`_split_node`), otherwise recalculate bounds up the path (`_adjust_tree`). -/
def insertAux [DecidableEq T] [DecidableEq MBR] (F : RTreeFns T MBR) (x : T) :
    RTreeNode T MBR → InsRes T MBR
  | .leaf cs m =>
      let cs' := cs ++ [x]
      if cs'.length > F.max_entries then
        let r := quadSplit F F.get_mbr cs'
        .split (.leaf r.1.1 r.1.2) (.leaf r.2.1 r.2.2)
      else .one (.leaf cs' (foldMbr F (cs'.map F.get_mbr)))
  | .inner cs m =>
      match chooseIdx F cs (F.get_mbr x) with
      | none => .one (.inner cs m)
      | some i =>
          match hgi : cs[i]? with
          | none => .one (.inner cs m)
          | some child =>
              have hszlt : sizeOf child < sizeOf cs := by
                obtain ⟨hi, heq⟩ := List.getElem?_eq_some.mp hgi
                exact heq ▸ List.sizeOf_lt_of_mem (List.getElem_mem hi)
              match insertAux F x child with
              | .one c' =>
                  let cs' := cs.set i c'
                  .one (.inner cs' (recalcMbr F (cs'.map nodeMbr)))
              | .split a b =>
                  let cs' := cs.eraseIdx i ++ [a, b]
                  if cs'.length > F.max_entries then
                    let r := quadSplit F (nodeMbrOr (F.get_mbr x)) cs'
                    .split (.inner r.1.1 r.1.2) (.inner r.2.1 r.2.2)
                  else .one (.inner cs' (recalcMbr F (cs'.map nodeMbr)))
decreasing_by
  simp_wf
  omega

/-- The root of a fresh `RTree` (spatial.py line 68). -/
def emptyTree : RTreeNode T MBR := .leaf [] none

/-- `RTree.insert` at the root (spatial.py lines 70 to 79 and the root case
of `_split_node`, lines 185 to 189): a root split creates a new inner root
holding the two groups. -/
def insertTree [DecidableEq T] [DecidableEq MBR] (F : RTreeFns T MBR)
    (root : RTreeNode T MBR) (x : T) : RTreeNode T MBR :=
  match insertAux F x root with
  | .one n => n
  | .split a b => .inner [a, b] (recalcMbr F [nodeMbr a, nodeMbr b])

/-- Folding a sequence of insertions from an empty tree. -/
def insertAll [DecidableEq T] [DecidableEq MBR] (F : RTreeFns T MBR)
    (items : List T) : RTreeNode T MBR :=
  items.foldl (insertTree F) emptyTree

/-! Correctness of the R-tree, generic in the host-supplied callbacks.  The
abstract enclosure relation `encl` and the predicate `ok` (the set of
bounds the host instantiation actually produces) parameterize the
hypotheses: `expand_mbr` yields a bound enclosing both arguments, and
`overlaps` is monotone with respect to enclosure. -/

/-- The hypotheses on the host callbacks under which the R-tree is sound. -/
structure GoodFns (F : RTreeFns T MBR) (ok : MBR → Prop)
    (encl : MBR → MBR → Prop) : Prop where
  refl : ∀ m, ok m → encl m m
  trans : ∀ a b c, encl a b → encl b c → encl a c
  expand_ok : ∀ (o : Option MBR) m, (∀ x ∈ o, ok x) → ok m → ok (F.expand_mbr o m)
  expand_left : ∀ m1 m2, ok m1 → ok m2 → encl m1 (F.expand_mbr (some m1) m2)
  expand_right : ∀ (o : Option MBR) m2, (∀ x ∈ o, ok x) → ok m2 →
    encl m2 (F.expand_mbr o m2)
  mono : ∀ a b q, ok a → ok b → ok q → encl a b →
    F.overlaps a q = true → F.overlaps b q = true
  max_pos : 1 ≤ F.max_entries

variable {F : RTreeFns T MBR} {ok : MBR → Prop} {encl : MBR → MBR → Prop}

/-- All contents of an optional bound satisfy `ok`. -/
def okO (ok : MBR → Prop) (o : Option MBR) : Prop := ∀ m, o = some m → ok m

theorem recalcFold_ok (GF : GoodFns F ok encl) :
    ∀ (ms : List (Option MBR)) (acc : Option MBR), okO ok acc →
      (∀ om ∈ ms, okO ok om) → okO ok (ms.foldl (recalcStep F) acc) := by
  intro ms
  induction ms with
  | nil => intro acc ha _; exact ha
  | cons om ms ih =>
      intro acc ha hm
      rw [List.foldl_cons]
      refine ih _ ?_ (fun o ho => hm o (by simp [ho]))
      cases om with
      | none => exact ha
      | some m0 =>
          intro m hm'
          have : F.expand_mbr acc m0 = m := by
            simpa [recalcStep] using hm'
          rw [← this]
          refine GF.expand_ok acc m0 ?_ (hm (some m0) (by simp) m0 rfl)
          intro x hx
          cases acc with
          | none => cases hx
          | some a => exact (by simpa using hx : a = x) ▸ ha a rfl

theorem recalcFold_ne_none :
    ∀ (ms : List (Option MBR)) (acc : Option MBR),
      (acc ≠ none ∨ ∃ om ∈ ms, om ≠ none) →
      ms.foldl (recalcStep F) acc ≠ none := by
  intro ms
  induction ms with
  | nil =>
      intro acc h
      rcases h with h | ⟨om, hom, _⟩
      · exact h
      · cases hom
  | cons om ms ih =>
      intro acc h
      rw [List.foldl_cons]
      cases om with
      | none =>
          refine ih _ ?_
          rcases h with h | ⟨o, ho, hne⟩
          · exact Or.inl h
          · rcases List.mem_cons.mp ho with rfl | ho
            · exact absurd rfl hne
            · exact Or.inr ⟨o, ho, hne⟩
      | some m0 =>
          refine ih _ (Or.inl ?_)
          simp [recalcStep]

theorem okO_mem {o : Option MBR} (h : okO ok o) : ∀ x ∈ o, ok x := by
  intro x hx
  cases o with
  | none => cases hx
  | some a =>
      have ha : a = x := by simpa using hx
      exact ha ▸ h a rfl

theorem recalcFold_encl (GF : GoodFns F ok encl) :
    ∀ (ms : List (Option MBR)) (acc : Option MBR), okO ok acc →
      (∀ om ∈ ms, okO ok om) →
      ∀ r, ms.foldl (recalcStep F) acc = some r →
        (∀ m, acc = some m → encl m r) ∧
        (∀ om ∈ ms, ∀ m, om = some m → encl m r) := by
  intro ms
  induction ms with
  | nil =>
      intro acc ha _ r hr
      refine ⟨fun m hm => ?_, fun om hom => absurd hom (List.not_mem_nil _)⟩
      rw [List.foldl_nil] at hr
      rw [hm] at hr
      injection hr with hr
      subst hr
      exact GF.refl m (ha m hm)
  | cons om ms ih =>
      intro acc ha hm r hr
      rw [List.foldl_cons] at hr
      cases om with
      | none =>
          have hrec := ih acc ha (fun o ho => hm o (by simp [ho])) r
            (by simpa [recalcStep] using hr)
          refine ⟨hrec.1, fun o ho m hm' => ?_⟩
          rcases List.mem_cons.mp ho with rfl | ho
          · cases hm'
          · exact hrec.2 o ho m hm'
      | some m0 =>
          have hok0 : ok m0 := hm (some m0) (by simp) m0 rfl
          have hacc' : okO ok (some (F.expand_mbr acc m0)) := by
            intro m hm'
            injection hm' with hm'
            rw [← hm']
            exact GF.expand_ok acc m0 (okO_mem ha) hok0
          have hrec := ih (some (F.expand_mbr acc m0)) hacc'
            (fun o ho => hm o (by simp [ho])) r (by simpa [recalcStep] using hr)
          constructor
          · intro m hmacc
            have h1 : encl m (F.expand_mbr acc m0) := by
              have := GF.expand_left m m0 (ha m hmacc) hok0
              rw [hmacc]
              exact this
            exact GF.trans _ _ _ h1 (hrec.1 _ rfl)
          · intro o ho m hm'
            rcases List.mem_cons.mp ho with rfl | ho
            · have hinj : m0 = m := by injection hm'
              rw [← hinj]
              have h1 : encl m0 (F.expand_mbr acc m0) :=
                GF.expand_right acc m0 (okO_mem ha) hok0
              exact GF.trans _ _ _ h1 (hrec.1 _ rfl)
            · exact hrec.2 o ho m hm'

theorem recalcMbr_contents_ok (GF : GoodFns F ok encl) {oms : List (Option MBR)}
    (h : ∀ om ∈ oms, okO ok om) : okO ok (recalcMbr F oms) :=
  recalcFold_ok GF oms none (fun _ hm => by cases hm) h

theorem recalcMbr_ne_none {oms : List (Option MBR)}
    (h : ∃ om ∈ oms, om ≠ none) : recalcMbr F oms ≠ none :=
  recalcFold_ne_none oms none (Or.inr h)

theorem recalcMbr_encl (GF : GoodFns F ok encl) {oms : List (Option MBR)} {r : MBR}
    (h : ∀ om ∈ oms, okO ok om) (hr : recalcMbr F oms = some r) :
    ∀ om ∈ oms, ∀ m, om = some m → encl m r :=
  (recalcFold_encl GF oms none (fun _ hm => by cases hm) h r hr).2

theorem foldMbr_contents_ok (GF : GoodFns F ok encl) {ms : List MBR}
    (h : ∀ m ∈ ms, ok m) : okO ok (foldMbr F ms) := by
  refine recalcMbr_contents_ok GF ?_
  intro om hom m hm
  rcases List.mem_map.mp hom with ⟨m0, hm0, rfl⟩
  have : m0 = m := by injection hm
  exact this ▸ h m0 hm0

theorem foldMbr_ne_none {ms : List MBR} (h : ms ≠ []) : foldMbr F ms ≠ none := by
  refine recalcMbr_ne_none ?_
  cases ms with
  | nil => exact absurd rfl h
  | cons m ms => exact ⟨some m, by simp, by simp⟩

theorem foldMbr_encl (GF : GoodFns F ok encl) {ms : List MBR} {r : MBR}
    (h : ∀ m ∈ ms, ok m) (hr : foldMbr F ms = some r) : ∀ m ∈ ms, encl m r := by
  intro m hm
  refine recalcMbr_encl GF ?_ hr (some m) (List.mem_map.mpr ⟨m, hm, rfl⟩) m rfl
  intro om hom m0 hm0
  rcases List.mem_map.mp hom with ⟨m1, hm1, rfl⟩
  have : m1 = m0 := by injection hm0
  exact this ▸ h m1 hm1

/-- Well-formedness of a reachable R-tree node: the stored bound is the
recalculated fold over the children's bounds, item bounds satisfy `ok`,
inner nodes are nonempty and all their children carry bounds. -/
inductive WF (F : RTreeFns T MBR) (ok : MBR → Prop) : RTreeNode T MBR → Prop where
  | leaf : ∀ (cs : List T) (m : Option MBR),
      m = foldMbr F (cs.map F.get_mbr) →
      (∀ c ∈ cs, ok (F.get_mbr c)) →
      WF F ok (.leaf cs m)
  | inner : ∀ (cs : List (RTreeNode T MBR)) (m : Option MBR),
      cs ≠ [] →
      m = recalcMbr F (cs.map nodeMbr) →
      (∀ c ∈ cs, WF F ok c) →
      (∀ c ∈ cs, nodeMbr c ≠ none) →
      WF F ok (.inner cs m)

theorem WF_mbr_ok (GF : GoodFns F ok encl) {n : RTreeNode T MBR} (h : WF F ok n) :
    okO ok (nodeMbr n) := by
  induction h with
  | leaf cs m hm hok =>
      show okO ok m
      rw [hm]
      refine foldMbr_contents_ok GF ?_
      intro m0 hm0
      rcases List.mem_map.mp hm0 with ⟨c, hc, rfl⟩
      exact hok c hc
  | inner cs m hne hm hwf hnn ih =>
      show okO ok m
      rw [hm]
      refine recalcMbr_contents_ok GF ?_
      intro om hom
      rcases List.mem_map.mp hom with ⟨c, hc, rfl⟩
      exact ih c hc

theorem WF_mbr_none_items {n : RTreeNode T MBR} (h : WF F ok n) :
    nodeMbr n = none → RTreeNode.itemsOf n = [] := by
  induction h with
  | leaf cs m hm hok =>
      intro hnone
      rw [RTreeNode.itemsOf_leaf]
      cases cs with
      | nil => rfl
      | cons c cs =>
          exfalso
          rw [hm] at hnone
          exact foldMbr_ne_none (by simp) hnone
  | inner cs m hne hm hwf hnn ih =>
      intro hnone
      exfalso
      rw [hm] at hnone
      refine recalcMbr_ne_none ?_ hnone
      cases cs with
      | nil => exact absurd rfl hne
      | cons c cs => exact ⟨nodeMbr c, by simp, hnn c (by simp)⟩

theorem WF_items_ok {n : RTreeNode T MBR} (h : WF F ok n) :
    ∀ x ∈ RTreeNode.itemsOf n, ok (F.get_mbr x) := by
  induction h with
  | leaf cs m hm hok =>
      intro x hx
      rw [RTreeNode.itemsOf_leaf] at hx
      exact hok x hx
  | inner cs m hne hm hwf hnn ih =>
      intro x hx
      rw [RTreeNode.itemsOf_inner] at hx
      rw [List.mem_flatten] at hx
      obtain ⟨l, hl, hxl⟩ := hx
      rcases List.mem_map.mp hl with ⟨c, hc, rfl⟩
      exact ih c hc x hxl

theorem WF_items_encl (GF : GoodFns F ok encl) {n : RTreeNode T MBR}
    (h : WF F ok n) :
    ∀ x ∈ RTreeNode.itemsOf n, ∃ m, nodeMbr n = some m ∧ encl (F.get_mbr x) m := by
  induction h with
  | leaf cs m hm hok =>
      intro x hx
      rw [RTreeNode.itemsOf_leaf] at hx
      have hne : cs.map F.get_mbr ≠ [] := by
        cases cs with
        | nil => cases hx
        | cons c cs => simp
      obtain ⟨r, hr⟩ := Option.ne_none_iff_exists'.mp (hm ▸ foldMbr_ne_none hne)
      refine ⟨r, hr, ?_⟩
      have hr' : foldMbr F (cs.map F.get_mbr) = some r := by rw [← hm]; exact hr
      have hok' : ∀ m0 ∈ cs.map F.get_mbr, ok m0 := by
        intro m0 hm0
        rcases List.mem_map.mp hm0 with ⟨c, hc, rfl⟩
        exact hok c hc
      exact foldMbr_encl GF hok' hr' _ (List.mem_map.mpr ⟨x, hx, rfl⟩)
  | inner cs m hne hm hwf hnn ih =>
      intro x hx
      rw [RTreeNode.itemsOf_inner, List.mem_flatten] at hx
      obtain ⟨l, hl, hxl⟩ := hx
      rcases List.mem_map.mp hl with ⟨c, hc, rfl⟩
      obtain ⟨mc, hmc, hencl⟩ := ih c hc x hxl
      have hokc : ∀ om ∈ cs.map nodeMbr, okO ok om := by
        intro om hom
        rcases List.mem_map.mp hom with ⟨c', hc', rfl⟩
        exact WF_mbr_ok GF (hwf c' hc')
      have hnner : recalcMbr F (cs.map nodeMbr) ≠ none := by
        refine recalcMbr_ne_none ?_
        exact ⟨nodeMbr c, List.mem_map.mpr ⟨c, hc, rfl⟩, hnn c hc⟩
      obtain ⟨r, hr⟩ := Option.ne_none_iff_exists'.mp (hm ▸ hnner)
      refine ⟨r, hr, ?_⟩
      have hr' : recalcMbr F (cs.map nodeMbr) = some r := by rw [← hm]; exact hr
      have h2 : encl mc r := recalcMbr_encl GF hokc hr' (nodeMbr c)
        (List.mem_map.mpr ⟨c, hc, rfl⟩) mc hmc
      exact GF.trans _ _ _ hencl h2

theorem searchAux_leaf (F : RTreeFns T MBR) (q : MBR) (cs : List T) (m : Option MBR) :
    searchAux F q (.leaf cs m) =
      (match m with
      | none => []
      | some mv =>
          if F.overlaps mv q then cs.filter (fun c => F.overlaps (F.get_mbr c) q)
          else []) := by
  unfold searchAux
  rfl

theorem searchAux_inner (F : RTreeFns T MBR) (q : MBR)
    (cs : List (RTreeNode T MBR)) (m : Option MBR) :
    searchAux F q (.inner cs m) =
      (match m with
      | none => []
      | some mv =>
          if F.overlaps mv q then (cs.map (searchAux F q)).flatten
          else []) := by
  unfold searchAux
  cases m with
  | none => rfl
  | some mv =>
      by_cases h : F.overlaps mv q
      · simp only [h, if_true]
        congr 1
        exact List.attach_map_val cs (searchAux F q)
      · simp only [h, Bool.false_eq_true, if_false]

theorem searchAux_eq (GF : GoodFns F ok encl) {q : MBR} (hq : ok q)
    {n : RTreeNode T MBR} (h : WF F ok n) :
    searchAux F q n = (RTreeNode.itemsOf n).filter (fun c => F.overlaps (F.get_mbr c) q) := by
  induction h with
  | leaf cs m hm hok =>
      rw [searchAux_leaf, RTreeNode.itemsOf_leaf]
      cases hmm : m with
      | none =>
          have hcs : cs = [] := by
            cases cs with
            | nil => rfl
            | cons c cs =>
                exfalso
                rw [hmm] at hm
                exact foldMbr_ne_none (by simp) hm.symm
          rw [hcs]
          rfl
      | some mv =>
          show (if F.overlaps mv q then _ else _) = _
          by_cases hov : F.overlaps mv q
          · rw [if_pos hov]
          · rw [if_neg hov]
            symm
            rw [List.filter_eq_nil_iff]
            intro c hc hovc
            have hok' : ∀ m0 ∈ cs.map F.get_mbr, ok m0 := by
              intro m0 hm0
              rcases List.mem_map.mp hm0 with ⟨c', hc', rfl⟩
              exact hok c' hc'
            have hr' : foldMbr F (cs.map F.get_mbr) = some mv := by
              rw [← hm, hmm]
            have hencl := foldMbr_encl GF hok' hr' _ (List.mem_map.mpr ⟨c, hc, rfl⟩)
            have hokc := hok c hc
            have hokmv : ok mv := foldMbr_contents_ok GF hok' mv hr'
            exact hov (GF.mono _ _ _ hokc hokmv hq hencl hovc)
  | inner cs m hne hm hwf hnn ih =>
      rw [searchAux_inner, RTreeNode.itemsOf_inner]
      have hokc : ∀ om ∈ cs.map nodeMbr, okO ok om := by
        intro om hom
        rcases List.mem_map.mp hom with ⟨c', hc', rfl⟩
        exact WF_mbr_ok GF (hwf c' hc')
      cases hmm : m with
      | none =>
          exfalso
          rw [hmm] at hm
          refine recalcMbr_ne_none ?_ hm.symm
          cases cs with
          | nil => exact absurd rfl hne
          | cons c cs => exact ⟨nodeMbr c, by simp, hnn c (by simp)⟩
      | some mv =>
          show (if F.overlaps mv q then _ else _) = _
          by_cases hov : F.overlaps mv q
          · rw [if_pos hov]
            have hmapeq : cs.map (searchAux F q) =
                cs.map (fun c => (RTreeNode.itemsOf c).filter
                  (fun x => F.overlaps (F.get_mbr x) q)) :=
              List.map_congr_left (fun c hc => ih c hc)
            rw [hmapeq, List.filter_flatten, List.map_map]
            rfl
          · rw [if_neg hov]
            symm
            rw [List.filter_eq_nil_iff]
            intro x hx hovx
            rw [List.mem_flatten] at hx
            obtain ⟨l, hl, hxl⟩ := hx
            rcases List.mem_map.mp hl with ⟨c, hc, rfl⟩
            obtain ⟨mc, hmc, hencl⟩ := WF_items_encl GF (hwf c hc) x hxl
            have hr' : recalcMbr F (cs.map nodeMbr) = some mv := by
              rw [← hm, hmm]
            have h2 : encl mc mv := recalcMbr_encl GF hokc hr' (nodeMbr c)
              (List.mem_map.mpr ⟨c, hc, rfl⟩) mc hmc
            have hokx := WF_items_ok (hwf c hc) x hxl
            have hokmc : ok mc := WF_mbr_ok GF (hwf c hc) mc hmc
            have hokmv : ok mv := recalcMbr_contents_ok GF hokc mv hr'
            have h3 : encl (F.get_mbr x) mv := GF.trans _ _ _ hencl h2
            exact hov (GF.mono _ _ _ hokx hokmv hq h3 hovx)

theorem search_eq (GF : GoodFns F ok encl) {q : MBR} (hq : ok q)
    {root : RTreeNode T MBR} (h : WF F ok root) :
    search F root q =
      (RTreeNode.itemsOf root).filter (fun c => F.overlaps (F.get_mbr c) q) := by
  unfold search
  cases hmm : nodeMbr root with
  | none =>
      rw [WF_mbr_none_items h hmm]
      rfl
  | some mv => exact searchAux_eq GF hq h

theorem mem_erase_of_split {α : Type} [DecidableEq α] {pre rest : List α} {c d : α}
    (hd : d ∈ rest) : d ∈ (pre ++ c :: rest).erase c := by
  by_cases hc : c ∈ pre
  · rw [List.erase_append_left _ hc]
    exact List.mem_append.mpr (Or.inr (by simp [hd]))
  · rw [List.erase_append_right _ hc, List.erase_cons_head]
    exact List.mem_append.mpr (Or.inr hd)

theorem seedPairs_Q {α : Type} [DecidableEq α] (F : RTreeFns T MBR)
    (mbrOf : α → MBR) (cs : List α) :
    ∀ (l pre : List α) (best : α × α × ℚ), cs = pre ++ l →
      best.1 ∈ cs ∧ best.2.1 ∈ cs.erase best.1 →
      (seedPairs F mbrOf l best).1 ∈ cs ∧
        (seedPairs F mbrOf l best).2.1 ∈ cs.erase (seedPairs F mbrOf l best).1 := by
  intro l
  induction l with
  | nil => intro pre best _ hb; exact hb
  | cons c rest ih =>
      intro pre best hsplit hb
      rw [seedPairs]
      refine ih (pre ++ [c]) _ (by rw [hsplit, List.append_assoc]; rfl) ?_
      have hstep : ∀ (b : α × α × ℚ) (l' : List α), (∀ d ∈ l', d ∈ rest) →
          b.1 ∈ cs ∧ b.2.1 ∈ cs.erase b.1 →
          ((l'.foldl (fun b d =>
            let waste := F.get_volume (F.expand_mbr (some (mbrOf c)) (mbrOf d)) -
              F.get_volume (mbrOf c) - F.get_volume (mbrOf d)
            if waste > b.2.2 then (c, d, waste) else b) b).1 ∈ cs ∧
          (l'.foldl (fun b d =>
            let waste := F.get_volume (F.expand_mbr (some (mbrOf c)) (mbrOf d)) -
              F.get_volume (mbrOf c) - F.get_volume (mbrOf d)
            if waste > b.2.2 then (c, d, waste) else b) b).2.1 ∈ cs.erase
            (l'.foldl (fun b d =>
              let waste := F.get_volume (F.expand_mbr (some (mbrOf c)) (mbrOf d)) -
                F.get_volume (mbrOf c) - F.get_volume (mbrOf d)
              if waste > b.2.2 then (c, d, waste) else b) b).1) := by
        intro b l'
        induction l' generalizing b with
        | nil => intro _ hb'; exact hb'
        | cons d l' ihl =>
            intro hsub hb'
            rw [List.foldl_cons]
            refine ihl _ (fun e he => hsub e (by simp [he])) ?_
            by_cases hw : F.get_volume (F.expand_mbr (some (mbrOf c)) (mbrOf d)) -
                F.get_volume (mbrOf c) - F.get_volume (mbrOf d) > b.2.2
            · simp only [hw, if_pos]
              constructor
              · rw [hsplit]
                exact List.mem_append.mpr (Or.inr (by simp))
              · show d ∈ cs.erase c
                rw [hsplit]
                exact mem_erase_of_split (hsub d (by simp))
            · simp only [hw, if_neg]
              simpa using hb'
      exact hstep best rest (fun d hd => hd) hb

theorem pickSeeds_spec {α : Type} [DecidableEq α] (F : RTreeFns T MBR)
    (mbrOf : α → MBR) (cs : List α) (h2 : 2 ≤ cs.length) :
    ∃ s1 s2, pickSeeds F mbrOf cs = some (s1, s2) ∧ s1 ∈ cs ∧ s2 ∈ cs.erase s1 := by
  match cs, h2 with
  | c0 :: c1 :: rest, _ =>
      refine ⟨_, _, rfl, ?_⟩
      have hinit : (c0, c1, (-1 : ℚ)).1 ∈ c0 :: c1 :: rest ∧
          (c0, c1, (-1 : ℚ)).2.1 ∈ (c0 :: c1 :: rest).erase (c0, c1, (-1 : ℚ)).1 := by
        constructor
        · simp
        · show c1 ∈ (c0 :: c1 :: rest).erase c0
          rw [List.erase_cons_head]
          simp
      exact seedPairs_Q F mbrOf (c0 :: c1 :: rest) (c0 :: c1 :: rest) [] _ rfl hinit

theorem foldMbr_append_one {α : Type} (F : RTreeFns T MBR) (mbrOf : α → MBR)
    (g : List α) (c : α) {m : MBR} (h : some m = foldMbr F (g.map mbrOf)) :
    foldMbr F ((g ++ [c]).map mbrOf) = some (F.expand_mbr (some m) (mbrOf c)) := by
  unfold foldMbr recalcMbr at *
  rw [List.map_append, List.map_append, List.foldl_append, ← h]
  rfl

theorem bulkExpand_fold {α : Type} (F : RTreeFns T MBR) (mbrOf : α → MBR) :
    ∀ (cs g : List α) (m : MBR),
      some m = foldMbr F (g.map mbrOf) →
      some (bulkExpand F mbrOf m cs) = foldMbr F ((g ++ cs).map mbrOf) := by
  intro cs
  induction cs with
  | nil =>
      intro g m h
      simpa using h
  | cons c cs ih =>
      intro g m h
      have h2 : some (F.expand_mbr (some m) (mbrOf c)) = foldMbr F ((g ++ [c]).map mbrOf) :=
        (foldMbr_append_one F mbrOf g c h).symm
      have h3 := ih (g ++ [c]) _ h2
      rw [List.append_assoc] at h3
      simp only [List.singleton_append] at h3
      rw [← h3]
      rfl

theorem splitLoop_spec {α : Type} [DecidableEq α] (F : RTreeFns T MBR)
    (mbrOf : α → MBR) :
    ∀ (g1 : List α) (m1 : MBR) (g2 : List α) (m2 : MBR) (rem : List α),
      some m1 = foldMbr F (g1.map mbrOf) →
      some m2 = foldMbr F (g2.map mbrOf) →
      g1 ≠ [] → g2 ≠ [] →
      ((splitLoop F mbrOf g1 m1 g2 m2 rem).1.1 ++
          (splitLoop F mbrOf g1 m1 g2 m2 rem).2.1).Perm (g1 ++ g2 ++ rem) ∧
      some (splitLoop F mbrOf g1 m1 g2 m2 rem).1.2
        = foldMbr F ((splitLoop F mbrOf g1 m1 g2 m2 rem).1.1.map mbrOf) ∧
      some (splitLoop F mbrOf g1 m1 g2 m2 rem).2.2
        = foldMbr F ((splitLoop F mbrOf g1 m1 g2 m2 rem).2.1.map mbrOf) ∧
      (splitLoop F mbrOf g1 m1 g2 m2 rem).1.1 ≠ [] ∧
      (splitLoop F mbrOf g1 m1 g2 m2 rem).2.1 ≠ [] := by
  intro g1 m1 g2 m2 rem
  induction g1, m1, g2, m2, rem using splitLoop.induct F mbrOf with
  | case1 g1 m1 g2 m2 =>
      intro hm1 hm2 hg1 hg2
      rw [splitLoop]
      exact ⟨by simp, hm1, hm2, hg1, hg2⟩
  | case2 g1 m1 g2 m2 c0 tail h1 =>
      intro hm1 hm2 hg1 hg2
      rw [splitLoop, if_pos h1]
      refine ⟨?_, bulkExpand_fold F mbrOf (c0 :: tail) g1 m1 hm1, hm2, by simp, hg2⟩
      rw [List.perm_iff_count]
      intro a
      simp only [List.count_append]
      omega
  | case3 g1 m1 g2 m2 c0 tail h1 h2 =>
      intro hm1 hm2 hg1 hg2
      rw [splitLoop, if_neg h1, if_pos h2]
      refine ⟨?_, hm1, bulkExpand_fold F mbrOf (c0 :: tail) g2 m2 hm2, hg1, by simp⟩
      rw [List.perm_iff_count]
      intro a
      simp only [List.count_append]
      omega
  | case4 g1 m1 g2 m2 c0 tail h1 h2 hpick =>
      intro hm1 hm2 hg1 hg2
      exfalso
      unfold pickNext at hpick
      simp at hpick
  | case5 g1 m1 g2 m2 c0 tail h1 h2 c hpick hmem hlen hcmp ih =>
      intro hm1 hm2 hg1 hg2
      have heq : splitLoop F mbrOf g1 m1 g2 m2 (c0 :: tail) =
          splitLoop F mbrOf (g1 ++ [c]) (F.expand_mbr (some m1) (mbrOf c)) g2 m2
            ((c0 :: tail).erase c) := by
        rw [splitLoop, if_neg h1, if_neg h2]
        split
        · rename_i hnone
          rw [hpick] at hnone
          cases hnone
        · rename_i c' hsome
          rw [hpick] at hsome
          injection hsome with hc'
          subst hc'
          exact if_pos hcmp
      rw [heq]
      have hres := ih (foldMbr_append_one F mbrOf g1 c hm1).symm hm2 (by simp) hg2
      refine ⟨?_, hres.2.1, hres.2.2.1, hres.2.2.2.1, hres.2.2.2.2⟩
      refine hres.1.trans ?_
      rw [List.perm_iff_count]
      intro a
      have hcnt := (List.perm_cons_erase hmem).count_eq a
      simp only [List.count_append, List.count_cons, List.count_nil] at hcnt ⊢
      omega
  | case6 g1 m1 g2 m2 c0 tail h1 h2 c hpick hmem hlen hc1 hc2 ih =>
      intro hm1 hm2 hg1 hg2
      have heq : splitLoop F mbrOf g1 m1 g2 m2 (c0 :: tail) =
          splitLoop F mbrOf g1 m1 (g2 ++ [c]) (F.expand_mbr (some m2) (mbrOf c))
            ((c0 :: tail).erase c) := by
        rw [splitLoop, if_neg h1, if_neg h2]
        split
        · rename_i hnone
          rw [hpick] at hnone
          cases hnone
        · rename_i c' hsome
          rw [hpick] at hsome
          injection hsome with hc'
          subst hc'
          exact (if_neg hc1).trans (if_pos hc2)
      rw [heq]
      have hres := ih hm1 (foldMbr_append_one F mbrOf g2 c hm2).symm hg1 (by simp)
      refine ⟨?_, hres.2.1, hres.2.2.1, hres.2.2.2.1, hres.2.2.2.2⟩
      refine hres.1.trans ?_
      rw [List.perm_iff_count]
      intro a
      have hcnt := (List.perm_cons_erase hmem).count_eq a
      simp only [List.count_append, List.count_cons, List.count_nil] at hcnt ⊢
      omega
  | case7 g1 m1 g2 m2 c0 tail h1 h2 c hpick hmem hlen hc1 hc2 hc3 ih =>
      intro hm1 hm2 hg1 hg2
      have heq : splitLoop F mbrOf g1 m1 g2 m2 (c0 :: tail) =
          splitLoop F mbrOf (g1 ++ [c]) (F.expand_mbr (some m1) (mbrOf c)) g2 m2
            ((c0 :: tail).erase c) := by
        rw [splitLoop, if_neg h1, if_neg h2]
        split
        · rename_i hnone
          rw [hpick] at hnone
          cases hnone
        · rename_i c' hsome
          rw [hpick] at hsome
          injection hsome with hc'
          subst hc'
          exact (if_neg hc1).trans ((if_neg hc2).trans (if_pos hc3))
      rw [heq]
      have hres := ih (foldMbr_append_one F mbrOf g1 c hm1).symm hm2 (by simp) hg2
      refine ⟨?_, hres.2.1, hres.2.2.1, hres.2.2.2.1, hres.2.2.2.2⟩
      refine hres.1.trans ?_
      rw [List.perm_iff_count]
      intro a
      have hcnt := (List.perm_cons_erase hmem).count_eq a
      simp only [List.count_append, List.count_cons, List.count_nil] at hcnt ⊢
      omega
  | case8 g1 m1 g2 m2 c0 tail h1 h2 c hpick hmem hlen hc1 hc2 hc3 hc4 ih =>
      intro hm1 hm2 hg1 hg2
      have heq : splitLoop F mbrOf g1 m1 g2 m2 (c0 :: tail) =
          splitLoop F mbrOf g1 m1 (g2 ++ [c]) (F.expand_mbr (some m2) (mbrOf c))
            ((c0 :: tail).erase c) := by
        rw [splitLoop, if_neg h1, if_neg h2]
        split
        · rename_i hnone
          rw [hpick] at hnone
          cases hnone
        · rename_i c' hsome
          rw [hpick] at hsome
          injection hsome with hc'
          subst hc'
          exact (if_neg hc1).trans ((if_neg hc2).trans ((if_neg hc3).trans (if_pos hc4)))
      rw [heq]
      have hres := ih hm1 (foldMbr_append_one F mbrOf g2 c hm2).symm hg1 (by simp)
      refine ⟨?_, hres.2.1, hres.2.2.1, hres.2.2.2.1, hres.2.2.2.2⟩
      refine hres.1.trans ?_
      rw [List.perm_iff_count]
      intro a
      have hcnt := (List.perm_cons_erase hmem).count_eq a
      simp only [List.count_append, List.count_cons, List.count_nil] at hcnt ⊢
      omega
  | case9 g1 m1 g2 m2 c0 tail h1 h2 c hpick hmem hlen hc1 hc2 hc3 hc4 hc5 ih =>
      intro hm1 hm2 hg1 hg2
      have heq : splitLoop F mbrOf g1 m1 g2 m2 (c0 :: tail) =
          splitLoop F mbrOf (g1 ++ [c]) (F.expand_mbr (some m1) (mbrOf c)) g2 m2
            ((c0 :: tail).erase c) := by
        rw [splitLoop, if_neg h1, if_neg h2]
        split
        · rename_i hnone
          rw [hpick] at hnone
          cases hnone
        · rename_i c' hsome
          rw [hpick] at hsome
          injection hsome with hc'
          subst hc'
          exact (if_neg hc1).trans ((if_neg hc2).trans ((if_neg hc3).trans
            ((if_neg hc4).trans (if_pos hc5))))
      rw [heq]
      have hres := ih (foldMbr_append_one F mbrOf g1 c hm1).symm hm2 (by simp) hg2
      refine ⟨?_, hres.2.1, hres.2.2.1, hres.2.2.2.1, hres.2.2.2.2⟩
      refine hres.1.trans ?_
      rw [List.perm_iff_count]
      intro a
      have hcnt := (List.perm_cons_erase hmem).count_eq a
      simp only [List.count_append, List.count_cons, List.count_nil] at hcnt ⊢
      omega
  | case10 g1 m1 g2 m2 c0 tail h1 h2 c hpick hmem hlen hc1 hc2 hc3 hc4 hc5 ih =>
      intro hm1 hm2 hg1 hg2
      have heq : splitLoop F mbrOf g1 m1 g2 m2 (c0 :: tail) =
          splitLoop F mbrOf g1 m1 (g2 ++ [c]) (F.expand_mbr (some m2) (mbrOf c))
            ((c0 :: tail).erase c) := by
        rw [splitLoop, if_neg h1, if_neg h2]
        split
        · rename_i hnone
          rw [hpick] at hnone
          cases hnone
        · rename_i c' hsome
          rw [hpick] at hsome
          injection hsome with hc'
          subst hc'
          exact (if_neg hc1).trans ((if_neg hc2).trans ((if_neg hc3).trans
            ((if_neg hc4).trans (if_neg hc5))))
      rw [heq]
      have hres := ih hm1 (foldMbr_append_one F mbrOf g2 c hm2).symm hg1 (by simp)
      refine ⟨?_, hres.2.1, hres.2.2.1, hres.2.2.2.1, hres.2.2.2.2⟩
      refine hres.1.trans ?_
      rw [List.perm_iff_count]
      intro a
      have hcnt := (List.perm_cons_erase hmem).count_eq a
      simp only [List.count_append, List.count_cons, List.count_nil] at hcnt ⊢
      omega

theorem quadSplit_spec {α : Type} [DecidableEq α] (F : RTreeFns T MBR)
    (mbrOf : α → MBR) (cs : List α) (h2 : 2 ≤ cs.length) :
    ∃ M1 M2,
      (quadSplit F mbrOf cs).1.2 = some M1 ∧
      (quadSplit F mbrOf cs).2.2 = some M2 ∧
      ((quadSplit F mbrOf cs).1.1 ++ (quadSplit F mbrOf cs).2.1).Perm cs ∧
      some M1 = foldMbr F ((quadSplit F mbrOf cs).1.1.map mbrOf) ∧
      some M2 = foldMbr F ((quadSplit F mbrOf cs).2.1.map mbrOf) ∧
      (quadSplit F mbrOf cs).1.1 ≠ [] ∧ (quadSplit F mbrOf cs).2.1 ≠ [] := by
  obtain ⟨s1, s2, hps, hs1, hs2⟩ := pickSeeds_spec F mbrOf cs h2
  have hq : quadSplit F mbrOf cs =
      (((splitLoop F mbrOf [s1] (F.expand_mbr none (mbrOf s1))
          [s2] (F.expand_mbr none (mbrOf s2)) ((cs.erase s1).erase s2)).1.1,
        some (splitLoop F mbrOf [s1] (F.expand_mbr none (mbrOf s1))
          [s2] (F.expand_mbr none (mbrOf s2)) ((cs.erase s1).erase s2)).1.2),
       ((splitLoop F mbrOf [s1] (F.expand_mbr none (mbrOf s1))
          [s2] (F.expand_mbr none (mbrOf s2)) ((cs.erase s1).erase s2)).2.1,
        some (splitLoop F mbrOf [s1] (F.expand_mbr none (mbrOf s1))
          [s2] (F.expand_mbr none (mbrOf s2)) ((cs.erase s1).erase s2)).2.2)) := by
    unfold quadSplit
    rw [hps]
  have hspec := splitLoop_spec F mbrOf [s1] (F.expand_mbr none (mbrOf s1))
    [s2] (F.expand_mbr none (mbrOf s2)) ((cs.erase s1).erase s2)
    rfl rfl (by simp) (by simp)
  rw [hq]
  refine ⟨_, _, rfl, rfl, ?_, hspec.2.1, hspec.2.2.1, hspec.2.2.2.1, hspec.2.2.2.2⟩
  refine hspec.1.trans ?_
  rw [List.perm_iff_count]
  intro a
  have hc1 := (List.perm_cons_erase hs1).count_eq a
  have hc2 := (List.perm_cons_erase hs2).count_eq a
  simp only [List.count_append, List.count_cons, List.count_nil] at hc1 hc2 ⊢
  omega

theorem recalc_eq_foldOr (F : RTreeFns T MBR) (d : MBR) :
    ∀ (g : List (RTreeNode T MBR)) (acc : Option MBR),
      (∀ c ∈ g, nodeMbr c ≠ none) →
      (g.map nodeMbr).foldl (recalcStep F) acc
        = ((g.map (nodeMbrOr d)).map some).foldl (recalcStep F) acc := by
  intro g
  induction g with
  | nil => intro acc _; rfl
  | cons c g ih =>
      intro acc h
      have hc := h c (by simp)
      cases hm : nodeMbr c with
      | none => exact absurd hm hc
      | some m =>
          simp only [List.map_cons, List.foldl_cons]
          have : nodeMbrOr d c = m := by
            unfold nodeMbrOr
            rw [hm]
            rfl
          rw [this, hm]
          exact ih _ (fun c' hc' => h c' (by simp [hc']))

theorem recalcMbr_eq_foldMbr_nodeMbrOr (F : RTreeFns T MBR) (d : MBR)
    (g : List (RTreeNode T MBR)) (h : ∀ c ∈ g, nodeMbr c ≠ none) :
    recalcMbr F (g.map nodeMbr) = foldMbr F (g.map (nodeMbrOr d)) :=
  recalc_eq_foldOr F d g none h

theorem getElem?_decomp {β : Type} {cs : List β} {i : Nat} {child : β}
    (h : cs[i]? = some child) :
    cs = cs.take i ++ child :: cs.drop (i + 1) := by
  obtain ⟨hi, hgi⟩ := List.getElem?_eq_some.mp h
  conv_lhs => rw [← List.take_append_drop i cs]
  congr 1
  rw [← List.getElem_cons_drop cs i hi, hgi]

theorem insertAux_leaf_eq [DecidableEq T] [DecidableEq MBR] (F : RTreeFns T MBR)
    (x : T) (cs : List T) (m : Option MBR) :
    insertAux F x (.leaf cs m) =
      (if (cs ++ [x]).length > F.max_entries then
        .split
          (.leaf (quadSplit F F.get_mbr (cs ++ [x])).1.1
            (quadSplit F F.get_mbr (cs ++ [x])).1.2)
          (.leaf (quadSplit F F.get_mbr (cs ++ [x])).2.1
            (quadSplit F F.get_mbr (cs ++ [x])).2.2)
      else .one (.leaf (cs ++ [x]) (foldMbr F ((cs ++ [x]).map F.get_mbr)))) := by
  rw [insertAux]

theorem insertAux_inner_eq [DecidableEq T] [DecidableEq MBR] (F : RTreeFns T MBR)
    (x : T) (cs : List (RTreeNode T MBR)) (m : Option MBR) (i : Nat)
    (child : RTreeNode T MBR)
    (hchoose : chooseIdx F cs (F.get_mbr x) = some i) (hgi : cs[i]? = some child) :
    insertAux F x (.inner cs m) =
      (match insertAux F x child with
      | .one c' => .one (.inner (cs.set i c') (recalcMbr F ((cs.set i c').map nodeMbr)))
      | .split a b =>
          if (cs.eraseIdx i ++ [a, b]).length > F.max_entries then
            .split
              (.inner (quadSplit F (nodeMbrOr (F.get_mbr x)) (cs.eraseIdx i ++ [a, b])).1.1
                (quadSplit F (nodeMbrOr (F.get_mbr x)) (cs.eraseIdx i ++ [a, b])).1.2)
              (.inner (quadSplit F (nodeMbrOr (F.get_mbr x)) (cs.eraseIdx i ++ [a, b])).2.1
                (quadSplit F (nodeMbrOr (F.get_mbr x)) (cs.eraseIdx i ++ [a, b])).2.2)
          else .one (.inner (cs.eraseIdx i ++ [a, b])
            (recalcMbr F ((cs.eraseIdx i ++ [a, b]).map nodeMbr)))) := by
  rw [insertAux]
  split
  · rename_i hc
    rw [hchoose] at hc
    cases hc
  · rename_i i' hc
    rw [hchoose] at hc
    injection hc with hc
    subst hc
    split
    · rename_i hg
      rw [hgi] at hg
      cases hg
    · rename_i child' hg
      rw [hgi] at hg
      injection hg with hg
      subst hg
      rfl

theorem insertAux_inner_one_eq [DecidableEq T] [DecidableEq MBR] (F : RTreeFns T MBR)
    (x : T) (cs : List (RTreeNode T MBR)) (m : Option MBR) (i : Nat)
    (child c' : RTreeNode T MBR)
    (hchoose : chooseIdx F cs (F.get_mbr x) = some i) (hgi : cs[i]? = some child)
    (hrec : insertAux F x child = InsRes.one c') :
    insertAux F x (.inner cs m) =
      .one (.inner (cs.set i c') (recalcMbr F ((cs.set i c').map nodeMbr))) := by
  rw [insertAux_inner_eq F x cs m i child hchoose hgi, hrec]

theorem insertAux_inner_split_eq [DecidableEq T] [DecidableEq MBR] (F : RTreeFns T MBR)
    (x : T) (cs : List (RTreeNode T MBR)) (m : Option MBR) (i : Nat)
    (child a b : RTreeNode T MBR)
    (hchoose : chooseIdx F cs (F.get_mbr x) = some i) (hgi : cs[i]? = some child)
    (hrec : insertAux F x child = InsRes.split a b) :
    insertAux F x (.inner cs m) =
      (if (cs.eraseIdx i ++ [a, b]).length > F.max_entries then
        InsRes.split
          (.inner (quadSplit F (nodeMbrOr (F.get_mbr x)) (cs.eraseIdx i ++ [a, b])).1.1
            (quadSplit F (nodeMbrOr (F.get_mbr x)) (cs.eraseIdx i ++ [a, b])).1.2)
          (.inner (quadSplit F (nodeMbrOr (F.get_mbr x)) (cs.eraseIdx i ++ [a, b])).2.1
            (quadSplit F (nodeMbrOr (F.get_mbr x)) (cs.eraseIdx i ++ [a, b])).2.2)
      else InsRes.one (.inner (cs.eraseIdx i ++ [a, b])
        (recalcMbr F ((cs.eraseIdx i ++ [a, b]).map nodeMbr)))) := by
  rw [insertAux_inner_eq F x cs m i child hchoose hgi, hrec]

/-- The specification of one insertion step below a node: the rebuilt node
(or the two replacement groups) is well-formed, carries a bound, and holds
exactly the previous items plus the new one. -/
def InsOK [DecidableEq T] [DecidableEq MBR] (F : RTreeFns T MBR) (ok : MBR → Prop)
    (x : T) (n : RTreeNode T MBR) : Prop :=
  match insertAux F x n with
  | .one n' => WF F ok n' ∧ nodeMbr n' ≠ none ∧
      (RTreeNode.itemsOf n').Perm (x :: RTreeNode.itemsOf n)
  | .split a b => WF F ok a ∧ WF F ok b ∧ nodeMbr a ≠ none ∧ nodeMbr b ≠ none ∧
      (RTreeNode.itemsOf a ++ RTreeNode.itemsOf b).Perm (x :: RTreeNode.itemsOf n)

theorem insertAux_spec [DecidableEq T] [DecidableEq MBR] (GF : GoodFns F ok encl)
    {x : T} (hokx : ok (F.get_mbr x)) :
    ∀ (n : RTreeNode T MBR), WF F ok n → InsOK F ok x n := by
  intro n
  induction n using insertAux.induct F x with
  | case1 cs m cs0 hov =>
      intro hwf
      cases hwf with
      | leaf cs m hm hok =>
      have hov' : (cs ++ [x]).length > F.max_entries := hov
      unfold InsOK
      rw [insertAux_leaf_eq, if_pos hov']
      have h2 : 2 ≤ (cs ++ [x]).length := by
        have hmp := GF.max_pos
        omega
      obtain ⟨M1, M2, hM1, hM2, hperm, hfold1, hfold2, hne1, hne2⟩ :=
        quadSplit_spec F F.get_mbr (cs ++ [x]) h2
      have hokall : ∀ c ∈ (quadSplit F F.get_mbr (cs ++ [x])).1.1 ++
          (quadSplit F F.get_mbr (cs ++ [x])).2.1, ok (F.get_mbr c) := by
        intro c hc
        have := hperm.mem_iff.mp hc
        rcases List.mem_append.mp this with hc' | hc'
        · exact hok c hc'
        · have : c = x := by simpa using hc'
          exact this ▸ hokx
      refine ⟨?_, ?_, ?_, ?_, ?_⟩
      · refine WF.leaf _ _ (hM1.trans hfold1) ?_
        intro c hc
        exact hokall c (List.mem_append.mpr (Or.inl hc))
      · refine WF.leaf _ _ (hM2.trans hfold2) ?_
        intro c hc
        exact hokall c (List.mem_append.mpr (Or.inr hc))
      · show (quadSplit F F.get_mbr (cs ++ [x])).1.2 ≠ none
        rw [hM1]
        simp
      · show (quadSplit F F.get_mbr (cs ++ [x])).2.2 ≠ none
        rw [hM2]
        simp
      · rw [RTreeNode.itemsOf_leaf, RTreeNode.itemsOf_leaf, RTreeNode.itemsOf_leaf]
        exact hperm.trans (List.perm_append_singleton x cs)
  | case2 cs m cs0 hov =>
      intro hwf
      cases hwf with
      | leaf cs m hm hok =>
      have hov' : ¬ (cs ++ [x]).length > F.max_entries := hov
      unfold InsOK
      rw [insertAux_leaf_eq, if_neg hov']
      refine ⟨?_, ?_, ?_⟩
      · refine WF.leaf _ _ rfl ?_
        intro c hc
        rcases List.mem_append.mp hc with hc' | hc'
        · exact hok c hc'
        · have : c = x := by simpa using hc'
          exact this ▸ hokx
      · show foldMbr F ((cs ++ [x]).map F.get_mbr) ≠ none
        exact foldMbr_ne_none (by simp)
      · rw [RTreeNode.itemsOf_leaf, RTreeNode.itemsOf_leaf]
        exact List.perm_append_singleton x cs
  | case3 cs m hchoose =>
      intro hwf
      cases hwf with
      | inner cs m hne hm hwfc hnn =>
      exact absurd hchoose (chooseIdx_ne_none F (F.get_mbr x) hne)
  | case4 cs m i hchoose hgi =>
      intro hwf
      obtain ⟨c, hc⟩ := chooseIdx_valid F cs (F.get_mbr x) hchoose
      rw [hgi] at hc
      cases hc
  | case5 cs m i hchoose child hgi hszlt c' hrec ih =>
      intro hwf
      cases hwf with
      | inner cs m hne hm hwfc hnn =>
      obtain ⟨hi, hgi'⟩ := List.getElem?_eq_some.mp hgi
      have hchild_mem : child ∈ cs := hgi' ▸ List.getElem_mem hi
      have hins := ih (hwfc child hchild_mem)
      unfold InsOK at hins
      rw [hrec] at hins
      obtain ⟨hwf', hmb', hperm'⟩ := hins
      unfold InsOK
      rw [insertAux_inner_one_eq F x cs m i child c' hchoose hgi hrec]
      have hdecomp : cs = cs.take i ++ child :: cs.drop (i + 1) := getElem?_decomp hgi
      have hset : cs.set i c' = cs.take i ++ c' :: cs.drop (i + 1) :=
        List.set_eq_take_cons_drop c' hi
      refine ⟨?_, ?_, ?_⟩
      · refine WF.inner _ _ ?_ rfl ?_ ?_
        · intro hnil
          have hlen := congrArg List.length hnil
          rw [List.length_set] at hlen
          simp only [List.length_nil] at hlen
          exact hne (List.eq_nil_of_length_eq_zero hlen)
        · intro c hc
          rcases List.mem_or_eq_of_mem_set hc with hc' | rfl
          · exact hwfc c hc'
          · exact hwf'
        · intro c hc
          rcases List.mem_or_eq_of_mem_set hc with hc' | rfl
          · exact hnn c hc'
          · exact hmb'
      · show recalcMbr F ((cs.set i c').map nodeMbr) ≠ none
        refine recalcMbr_ne_none ⟨nodeMbr c', ?_, hmb'⟩
        refine List.mem_map.mpr ⟨c', ?_, rfl⟩
        rw [hset]
        exact List.mem_append.mpr (Or.inr (by simp))
      · have hitems1 : RTreeNode.itemsOf (.inner (cs.set i c')
            (recalcMbr F ((cs.set i c').map nodeMbr))) =
            ((cs.take i).map RTreeNode.itemsOf).flatten ++
              (RTreeNode.itemsOf c' ++ ((cs.drop (i + 1)).map RTreeNode.itemsOf).flatten) := by
          rw [RTreeNode.itemsOf_inner, hset, List.map_append, List.map_cons,
            List.flatten_append, List.flatten_cons]
        have hitems2 : RTreeNode.itemsOf (.inner cs m) =
            ((cs.take i).map RTreeNode.itemsOf).flatten ++
              (RTreeNode.itemsOf child ++ ((cs.drop (i + 1)).map RTreeNode.itemsOf).flatten) := by
          rw [RTreeNode.itemsOf_inner]
          conv_lhs => rw [hdecomp]
          rw [List.map_append, List.map_cons, List.flatten_append, List.flatten_cons]
        rw [hitems1, hitems2, List.perm_iff_count]
        intro a
        have hcnt := hperm'.count_eq a
        simp only [List.count_append, List.count_cons, List.count_nil] at hcnt ⊢
        omega
  | case6 cs m i hchoose child hgi hszlt na nb hrec cs0 hov ih =>
      intro hwf
      cases hwf with
      | inner cs m hne hm hwfc hnn =>
      have hov' : (cs.eraseIdx i ++ [na, nb]).length > F.max_entries := hov
      obtain ⟨hi, hgi'⟩ := List.getElem?_eq_some.mp hgi
      have hchild_mem : child ∈ cs := hgi' ▸ List.getElem_mem hi
      have hins := ih (hwfc child hchild_mem)
      unfold InsOK at hins
      rw [hrec] at hins
      obtain ⟨hwfa, hwfb, hmba, hmbb, hpermab⟩ := hins
      unfold InsOK
      rw [insertAux_inner_split_eq F x cs m i child na nb hchoose hgi hrec, if_pos hov']
      have hdecomp : cs = cs.take i ++ child :: cs.drop (i + 1) := getElem?_decomp hgi
      have herase : cs.eraseIdx i = cs.take i ++ cs.drop (i + 1) :=
        List.eraseIdx_eq_take_drop_succ ..
      have hmem_cs' : ∀ c ∈ cs.eraseIdx i ++ [na, nb],
          (WF F ok c ∧ nodeMbr c ≠ none) := by
        intro c hc
        rcases List.mem_append.mp hc with hc' | hc'
        · rw [herase] at hc'
          rcases List.mem_append.mp hc' with hc'' | hc''
          · have := List.take_subset i cs hc''
            exact ⟨hwfc c this, hnn c this⟩
          · have := List.drop_subset (i + 1) cs hc''
            exact ⟨hwfc c this, hnn c this⟩
        · rcases List.mem_cons.mp hc' with rfl | hc''
          · exact ⟨hwfa, hmba⟩
          · have : c = nb := by simpa using hc''
            exact this ▸ ⟨hwfb, hmbb⟩
      have h2 : 2 ≤ (cs.eraseIdx i ++ [na, nb]).length := by
        simp
      obtain ⟨M1, M2, hM1, hM2, hperm, hfold1, hfold2, hne1, hne2⟩ :=
        quadSplit_spec F (nodeMbrOr (F.get_mbr x)) (cs.eraseIdx i ++ [na, nb]) h2
      have hsub1 : ∀ c ∈ (quadSplit F (nodeMbrOr (F.get_mbr x))
          (cs.eraseIdx i ++ [na, nb])).1.1, WF F ok c ∧ nodeMbr c ≠ none := by
        intro c hc
        exact hmem_cs' c (hperm.mem_iff.mp (List.mem_append.mpr (Or.inl hc)))
      have hsub2 : ∀ c ∈ (quadSplit F (nodeMbrOr (F.get_mbr x))
          (cs.eraseIdx i ++ [na, nb])).2.1, WF F ok c ∧ nodeMbr c ≠ none := by
        intro c hc
        exact hmem_cs' c (hperm.mem_iff.mp (List.mem_append.mpr (Or.inr hc)))
      refine ⟨?_, ?_, ?_, ?_, ?_⟩
      · refine WF.inner _ _ hne1 ?_ (fun c hc => (hsub1 c hc).1) (fun c hc => (hsub1 c hc).2)
        rw [recalcMbr_eq_foldMbr_nodeMbrOr F (F.get_mbr x) _ (fun c hc => (hsub1 c hc).2)]
        exact hM1.trans hfold1
      · refine WF.inner _ _ hne2 ?_ (fun c hc => (hsub2 c hc).1) (fun c hc => (hsub2 c hc).2)
        rw [recalcMbr_eq_foldMbr_nodeMbrOr F (F.get_mbr x) _ (fun c hc => (hsub2 c hc).2)]
        exact hM2.trans hfold2
      · show (quadSplit F (nodeMbrOr (F.get_mbr x)) (cs.eraseIdx i ++ [na, nb])).1.2 ≠ none
        rw [hM1]
        simp
      · show (quadSplit F (nodeMbrOr (F.get_mbr x)) (cs.eraseIdx i ++ [na, nb])).2.2 ≠ none
        rw [hM2]
        simp
      · rw [RTreeNode.itemsOf_inner, RTreeNode.itemsOf_inner]
        have hflat : (((quadSplit F (nodeMbrOr (F.get_mbr x))
              (cs.eraseIdx i ++ [na, nb])).1.1.map RTreeNode.itemsOf).flatten ++
            ((quadSplit F (nodeMbrOr (F.get_mbr x))
              (cs.eraseIdx i ++ [na, nb])).2.1.map RTreeNode.itemsOf).flatten).Perm
            (((cs.eraseIdx i ++ [na, nb]).map RTreeNode.itemsOf).flatten) := by
          rw [← List.flatten_append, ← List.map_append]
          exact (hperm.map RTreeNode.itemsOf).flatten
        refine hflat.trans ?_
        have hitems2 : RTreeNode.itemsOf (.inner cs m) =
            ((cs.take i).map RTreeNode.itemsOf).flatten ++
              (RTreeNode.itemsOf child ++ ((cs.drop (i + 1)).map RTreeNode.itemsOf).flatten) := by
          rw [RTreeNode.itemsOf_inner]
          conv_lhs => rw [hdecomp]
          rw [List.map_append, List.map_cons, List.flatten_append, List.flatten_cons]
        rw [hitems2, herase, List.map_append, List.flatten_append,
          List.map_append, List.flatten_append, List.perm_iff_count]
        intro a
        have hcnt := hpermab.count_eq a
        simp only [List.count_append, List.count_cons, List.count_nil,
          List.map_cons, List.flatten_cons, List.map_nil, List.flatten_nil] at hcnt ⊢
        omega
  | case7 cs m i hchoose child hgi hszlt na nb hrec cs0 hov ih =>
      intro hwf
      cases hwf with
      | inner cs m hne hm hwfc hnn =>
      have hov' : ¬ (cs.eraseIdx i ++ [na, nb]).length > F.max_entries := hov
      obtain ⟨hi, hgi'⟩ := List.getElem?_eq_some.mp hgi
      have hchild_mem : child ∈ cs := hgi' ▸ List.getElem_mem hi
      have hins := ih (hwfc child hchild_mem)
      unfold InsOK at hins
      rw [hrec] at hins
      obtain ⟨hwfa, hwfb, hmba, hmbb, hpermab⟩ := hins
      unfold InsOK
      rw [insertAux_inner_split_eq F x cs m i child na nb hchoose hgi hrec, if_neg hov']
      have hdecomp : cs = cs.take i ++ child :: cs.drop (i + 1) := getElem?_decomp hgi
      have herase : cs.eraseIdx i = cs.take i ++ cs.drop (i + 1) :=
        List.eraseIdx_eq_take_drop_succ ..
      have hmem_cs' : ∀ c ∈ cs.eraseIdx i ++ [na, nb],
          (WF F ok c ∧ nodeMbr c ≠ none) := by
        intro c hc
        rcases List.mem_append.mp hc with hc' | hc'
        · rw [herase] at hc'
          rcases List.mem_append.mp hc' with hc'' | hc''
          · have := List.take_subset i cs hc''
            exact ⟨hwfc c this, hnn c this⟩
          · have := List.drop_subset (i + 1) cs hc''
            exact ⟨hwfc c this, hnn c this⟩
        · rcases List.mem_cons.mp hc' with rfl | hc''
          · exact ⟨hwfa, hmba⟩
          · have : c = nb := by simpa using hc''
            exact this ▸ ⟨hwfb, hmbb⟩
      refine ⟨?_, ?_, ?_⟩
      · refine WF.inner _ _ (by simp) rfl (fun c hc => (hmem_cs' c hc).1)
          (fun c hc => (hmem_cs' c hc).2)
      · show recalcMbr F ((cs.eraseIdx i ++ [na, nb]).map nodeMbr) ≠ none
        refine recalcMbr_ne_none ⟨nodeMbr na, ?_, hmba⟩
        exact List.mem_map.mpr ⟨na, by simp, rfl⟩
      · have hitems2 : RTreeNode.itemsOf (.inner cs m) =
            ((cs.take i).map RTreeNode.itemsOf).flatten ++
              (RTreeNode.itemsOf child ++ ((cs.drop (i + 1)).map RTreeNode.itemsOf).flatten) := by
          rw [RTreeNode.itemsOf_inner]
          conv_lhs => rw [hdecomp]
          rw [List.map_append, List.map_cons, List.flatten_append, List.flatten_cons]
        rw [RTreeNode.itemsOf_inner, hitems2, herase, List.map_append,
          List.flatten_append, List.map_append, List.flatten_append, List.perm_iff_count]
        intro a
        have hcnt := hpermab.count_eq a
        simp only [List.count_append, List.count_cons, List.count_nil,
          List.map_cons, List.flatten_cons, List.map_nil, List.flatten_nil] at hcnt ⊢
        omega

theorem emptyTree_WF : WF F ok (emptyTree : RTreeNode T MBR) :=
  WF.leaf [] none rfl (fun c hc => by cases hc)

theorem insertTree_spec [DecidableEq T] [DecidableEq MBR] (GF : GoodFns F ok encl)
    {x : T} (hokx : ok (F.get_mbr x)) {root : RTreeNode T MBR} (hwf : WF F ok root) :
    WF F ok (insertTree F root x) ∧
    (RTreeNode.itemsOf (insertTree F root x)).Perm (x :: RTreeNode.itemsOf root) := by
  have hins := insertAux_spec GF hokx root hwf
  unfold InsOK at hins
  unfold insertTree
  cases hrec : insertAux F x root with
  | one n' =>
      rw [hrec] at hins
      exact ⟨hins.1, hins.2.2⟩
  | split a b =>
      rw [hrec] at hins
      obtain ⟨hwfa, hwfb, hmba, hmbb, hperm⟩ := hins
      constructor
      · refine WF.inner [a, b] _ (by simp) rfl ?_ ?_
        · intro c hc
          rcases List.mem_cons.mp hc with rfl | hc'
          · exact hwfa
          · have : c = b := by simpa using hc'
            exact this ▸ hwfb
        · intro c hc
          rcases List.mem_cons.mp hc with rfl | hc'
          · exact hmba
          · have : c = b := by simpa using hc'
            exact this ▸ hmbb
      · rw [RTreeNode.itemsOf_inner]
        simp only [List.map_cons, List.map_nil, List.flatten_cons, List.flatten_nil,
          List.append_nil]
        exact hperm

theorem insertAll_go [DecidableEq T] [DecidableEq MBR] (GF : GoodFns F ok encl) :
    ∀ (l : List T) (t : RTreeNode T MBR),
      (∀ x ∈ l, ok (F.get_mbr x)) → WF F ok t →
      WF F ok (l.foldl (insertTree F) t) ∧
      (RTreeNode.itemsOf (l.foldl (insertTree F) t)).Perm (l ++ RTreeNode.itemsOf t) := by
  intro l
  induction l with
  | nil => intro t _ hwf; exact ⟨hwf, by simp⟩
  | cons y l ih =>
      intro t hok hwf
      rw [List.foldl_cons]
      have hstep := insertTree_spec GF (hok y (by simp)) hwf
      have hrec := ih (insertTree F t y) (fun z hz => hok z (by simp [hz])) hstep.1
      refine ⟨hrec.1, ?_⟩
      refine hrec.2.trans ?_
      rw [List.perm_iff_count]
      intro a
      have hcnt := hstep.2.count_eq a
      simp only [List.count_append, List.count_cons, List.count_nil] at hcnt ⊢
      omega

theorem insertAll_spec [DecidableEq T] [DecidableEq MBR] (GF : GoodFns F ok encl)
    (items : List T) (hok : ∀ x ∈ items, ok (F.get_mbr x)) :
    WF F ok (insertAll F items) ∧
    (RTreeNode.itemsOf (insertAll F items)).Perm items := by
  have h := insertAll_go GF items emptyTree hok emptyTree_WF
  refine ⟨h.1, ?_⟩
  have : RTreeNode.itemsOf (emptyTree : RTreeNode T MBR) = [] :=
    RTreeNode.itemsOf_leaf [] none
  simpa [insertAll, this] using h.2

/-- Every node's stored bound encloses the MBR of every item stored below
it. -/
def Encloses (F : RTreeFns T MBR) (encl : MBR → MBR → Prop)
    (n : RTreeNode T MBR) : Prop :=
  ∀ x ∈ RTreeNode.itemsOf n, ∃ m, nodeMbr n = some m ∧ encl (F.get_mbr x) m

/-- A predicate holds at every node of a tree. -/
inductive EveryNode (P : RTreeNode T MBR → Prop) : RTreeNode T MBR → Prop where
  | leaf : ∀ cs m, P (.leaf cs m) → EveryNode P (.leaf cs m)
  | inner : ∀ cs m, P (.inner cs m) → (∀ c ∈ cs, EveryNode P c) →
      EveryNode P (.inner cs m)

theorem WF_everyNode_encloses (GF : GoodFns F ok encl) {n : RTreeNode T MBR}
    (h : WF F ok n) : EveryNode (Encloses F encl) n := by
  induction h with
  | leaf cs m hm hok =>
      exact EveryNode.leaf _ _ (WF_items_encl GF (WF.leaf cs m hm hok))
  | inner cs m hne hm hwfc hnn ih =>
      exact EveryNode.inner _ _ (WF_items_encl GF (WF.inner cs m hne hm hwfc hnn))
        (fun c hc => ih c hc)

end RTree

/-- C4: for any sequence of insertions into an R-tree whose callbacks
satisfy the enclosure/monotonicity contract (and a positive branching
factor, without which Python's `_pick_seeds` would raise), `search(q)`
returns exactly the inserted items whose MBR overlaps `q` (as a multiset:
no false negatives, no false positives), and after the insertions every
node's stored bound encloses the MBRs of all items below it. -/
theorem claim_C4 {T MBR : Type} [DecidableEq T] [DecidableEq MBR]
    (F : RTreeFns T MBR) (encl : MBR → MBR → Prop)
    (hrefl : ∀ m, encl m m)
    (htrans : ∀ a b c, encl a b → encl b c → encl a c)
    (hexp1 : ∀ m1 m2, encl m1 (F.expand_mbr (some m1) m2))
    (hexp2 : ∀ (o : Option MBR) m2, encl m2 (F.expand_mbr o m2))
    (hmono : ∀ a b q, encl a b → F.overlaps a q = true → F.overlaps b q = true)
    (hmax : 1 ≤ F.max_entries)
    (items : List T) (q : MBR) :
    (RTree.search F (RTree.insertAll F items) q).Perm
      (items.filter (fun x => F.overlaps (F.get_mbr x) q)) ∧
    RTree.EveryNode (RTree.Encloses F encl) (RTree.insertAll F items) := by
  have GF : RTree.GoodFns F (fun _ => True) encl :=
    ⟨fun m _ => hrefl m, htrans, fun _ _ _ _ => trivial,
      fun m1 m2 _ _ => hexp1 m1 m2, fun o m2 _ _ => hexp2 o m2,
      fun a b qq _ _ _ => hmono a b qq, hmax⟩
  obtain ⟨hwf, hperm⟩ := RTree.insertAll_spec GF items (fun _ _ => trivial)
  constructor
  · rw [RTree.search_eq GF trivial hwf]
    exact hperm.filter _
  · exact RTree.WF_everyNode_encloses GF hwf

/-- A concrete callback family over rationals used to witness `claim_C4`:
items and bounds are rationals, a bound encloses another iff it is at least
as large, `expand` takes maxima, and `overlaps a q` checks `q ≤ a`. -/
def rataxFns : RTreeFns ℚ ℚ where
  get_mbr := fun x => x
  expand_mbr := fun o m => match o with
    | none => m
    | some a => max a m
  get_volume := fun m => m
  overlaps := fun a q => decide (q ≤ a)
  min_entries := 2
  max_entries := 4

theorem claim_C4_witness :
    (∀ m : ℚ, m ≤ m) ∧ (1 ≤ rataxFns.max_entries) ∧
    ((RTree.search rataxFns (RTree.insertAll rataxFns [1, 2, 3, 4, 5, 6]) 2).Perm
        ([1, 2, 3, 4, 5, 6].filter
          (fun x => rataxFns.overlaps (rataxFns.get_mbr x) 2)) ∧
      RTree.EveryNode (RTree.Encloses rataxFns (fun a b => a ≤ b))
        (RTree.insertAll rataxFns [1, 2, 3, 4, 5, 6])) :=
  ⟨fun m => le_refl m, by decide,
    claim_C4 rataxFns (fun a b => a ≤ b)
      (fun m => le_refl m)
      (fun a b c hab hbc => le_trans hab hbc)
      (fun m1 m2 => le_max_left m1 m2)
      (fun o m2 => by
        cases o with
        | none => exact le_refl m2
        | some a => exact le_max_right a m2)
      (fun a b q hab ha => by
        simp only [rataxFns, decide_eq_true_iff] at ha ⊢
        exact le_trans ha hab)
      (by decide)
      [1, 2, 3, 4, 5, 6] 2⟩

/-! The `BoxSet` layer (multidimensional.py lines 450 to 1057).  Standalone
semantic lemmas about `Box.diffB` (shared by the fragmentation reasoning of
`BoxSet.add` and `BoxSet.difference`). -/

theorem exists_memL_of_nonempty :
    ∀ {l : List Interval}, (∀ i ∈ l, i.is_empty = false) → ∃ p, memL l p := by
  intro l
  induction l with
  | nil => intro _; exact ⟨[], List.Forall₂.nil⟩
  | cons i l ih =>
      intro h
      obtain ⟨x, hx⟩ := Interval.exists_mem_of_not_empty (h i (by simp))
      obtain ⟨p, hp⟩ := ih (fun j hj => h j (by simp [hj]))
      exact ⟨x :: p, List.Forall₂.cons hx hp⟩

theorem exists_point_of_nonempty {b : Box} (h : b.is_empty = false) :
    ∃ p, Box.memB b p = true := by
  obtain ⟨p, hp⟩ := exists_memL_of_nonempty ((box_is_empty_eq_false_iff b).mp h)
  exact ⟨p, (memB_iff_memL b p).mpr hp⟩

theorem diffB_sem {a b : Box} (hd : a.dimension = b.dimension) (p : List ℚ) :
    (∃ f ∈ Box.diffB a b, Box.memB f p = true) ↔
      (Box.memB a p = true ∧ Box.memB b p = false) := by
  unfold Box.diffB
  by_cases hie : (Box.interB a b).is_empty
  · rw [if_pos hie]
    constructor
    · rintro ⟨f, hf, hmf⟩
      rcases List.mem_singleton.mp hf with rfl
      refine ⟨hmf, ?_⟩
      cases hmb : Box.memB b p
      · rfl
      · exfalso
        have := (memB_interB hd p).mpr ⟨hmf, hmb⟩
        rw [is_empty_eq_false_of_memB this] at hie
        exact absurd hie (by simp)
    · rintro ⟨hma, _⟩
      exact ⟨a, List.mem_singleton.mpr rfl, hma⟩
  · rw [if_neg hie]
    have hie' : (Box.interB a b).is_empty = false := bool_eq_false hie
    have hsub := interB_subrel hd hie'
    have hmem := sliceRec_mem_iff hsub
    constructor
    · rintro ⟨f, hf, hmf⟩
      rcases List.mem_map.mp hf with ⟨l', hl', rfl⟩
      obtain ⟨hra, hnos⟩ := (hmem p).mp ⟨l', hl', (memB_mk_iff l' p).mp hmf⟩
      have hia : Box.memB a p = true := (memB_iff_memL a p).mpr hra
      refine ⟨hia, ?_⟩
      cases hmb : Box.memB b p
      · rfl
      · exfalso
        have := (memB_interB hd p).mpr ⟨hia, hmb⟩
        exact hnos ((memB_iff_memL _ p).mp this)
    · rintro ⟨hma, hmb⟩
      have hnos : ¬ memL (Box.interB a b).intervals p := by
        intro hos
        have := (memB_interB hd p).mp ((memB_iff_memL _ p).mpr hos)
        rw [hmb] at this
        exact absurd this.2 (by simp)
      obtain ⟨l', hl', hml'⟩ := (hmem p).mpr ⟨(memB_iff_memL a p).mp hma, hnos⟩
      exact ⟨Box.mk l', List.mem_map.mpr ⟨l', hl', rfl⟩, (memB_mk_iff l' p).mpr hml'⟩

theorem diffB_dim {a b : Box} (hd : a.dimension = b.dimension) :
    ∀ f ∈ Box.diffB a b, f.dimension = a.dimension := by
  unfold Box.diffB
  by_cases hie : (Box.interB a b).is_empty
  · rw [if_pos hie]
    intro f hf
    rcases List.mem_singleton.mp hf with rfl
    rfl
  · rw [if_neg hie]
    have hshape := sliceRec_shape (interB_subrel hd (bool_eq_false hie))
    intro f hf
    rcases List.mem_map.mp hf with ⟨l', hl', rfl⟩
    exact (hshape l' hl').1

theorem diffB_nonempty {a b : Box} (hd : a.dimension = b.dimension)
    (ha : a.is_empty = false) :
    ∀ f ∈ Box.diffB a b, f.is_empty = false := by
  unfold Box.diffB
  by_cases hie : (Box.interB a b).is_empty
  · rw [if_pos hie]
    intro f hf
    rcases List.mem_singleton.mp hf with rfl
    exact ha
  · rw [if_neg hie]
    have hshape := sliceRec_shape (interB_subrel hd (bool_eq_false hie))
    intro f hf
    rcases List.mem_map.mp hf with ⟨l', hl', rfl⟩
    rw [box_is_empty_eq_false_iff]
    exact (hshape l' hl').2

theorem diffB_pairwise {a b : Box} (hd : a.dimension = b.dimension) :
    (Box.diffB a b).Pairwise
      (fun f g => ∀ p : List ℚ, ¬(Box.memB f p = true ∧ Box.memB g p = true)) := by
  unfold Box.diffB
  by_cases hie : (Box.interB a b).is_empty
  · rw [if_pos hie]
    exact List.pairwise_singleton _ _
  · rw [if_neg hie]
    rw [List.pairwise_map]
    refine (sliceRec_pairwise (interB_subrel hd (bool_eq_false hie))).imp ?_
    intro l1 l2 hR p hp
    exact hR p ⟨(memB_mk_iff l1 p).mp hp.1, (memB_mk_iff l2 p).mp hp.2⟩

/-! The spatial-index callbacks of `BoxSet._build_index` (multidimensional.py
lines 707 to 736): a `Box` is its own bound, expansion takes the closed
per-dimension hull, volume and overlap come from `Box`.  In every context the
set builds (all stored boxes and every query share the set's dimension)
`Box.overlaps`'s dimension guard cannot fire, so the Bool core `overlapsB`
embeds the callback. -/

def hullI (i1 i2 : Interval) : Interval :=
  ⟨min i1.start i2.start, max i1.endp i2.endp, false, false⟩

def expandB : Option Box → Box → Box
  | none, m2 => m2
  | some m1, m2 => ⟨List.zipWith hullI m1.intervals m2.intervals⟩

def boxFns : RTreeFns Box Box where
  get_mbr := fun b => b
  expand_mbr := expandB
  get_volume := Box.volume
  overlaps := Box.overlapsB
  min_entries := 2
  max_entries := 4

theorem mem_hullI_left {i1 : Interval} {x : ℚ} (h : i1.mem x = true)
    (i2 : Interval) : (hullI i1 i2).mem x = true := by
  have hle := Interval.mem_le h
  rw [Interval.mem_iff]
  unfold hullI
  simp only [if_neg]
  constructor
  · exact le_trans (min_le_left _ _) hle.1
  · exact le_trans hle.2 (le_max_left _ _)

theorem mem_hullI_right {i2 : Interval} {x : ℚ} (h : i2.mem x = true)
    (i1 : Interval) : (hullI i1 i2).mem x = true := by
  have hle := Interval.mem_le h
  rw [Interval.mem_iff]
  unfold hullI
  simp only [if_neg]
  constructor
  · exact le_trans (min_le_right _ _) hle.1
  · exact le_trans hle.2 (le_max_right _ _)

theorem hullI_nonempty {i1 : Interval} (h : i1.is_empty = false)
    (i2 : Interval) : (hullI i1 i2).is_empty = false := by
  obtain ⟨x, hx⟩ := Interval.exists_mem_of_not_empty h
  rw [Interval.is_empty_eq_false_iff]
  exact ⟨x, mem_hullI_left hx i2⟩

theorem memL_hull_left :
    ∀ (l1 l2 : List Interval) (p : List ℚ), l1.length = l2.length →
      memL l1 p → memL (List.zipWith hullI l1 l2) p := by
  intro l1
  induction l1 with
  | nil =>
      intro l2 p _ hm
      rw [memL, List.forall₂_nil_right_iff] at hm
      subst hm
      rw [List.zipWith_nil_left]
      exact List.Forall₂.nil
  | cons i1 l1 ih =>
      intro l2 p hlen hm
      cases l2 with
      | nil => simp at hlen
      | cons i2 l2 =>
          cases p with
          | nil => exact absurd hm.length_eq (by simp)
          | cons x p =>
              rw [memL, List.forall₂_cons] at hm
              rw [List.zipWith_cons_cons]
              exact List.Forall₂.cons (mem_hullI_left hm.1 i2)
                (ih l2 p (by simpa using hlen) hm.2)

theorem memL_hull_right :
    ∀ (l1 l2 : List Interval) (p : List ℚ), l1.length = l2.length →
      memL l2 p → memL (List.zipWith hullI l1 l2) p := by
  intro l1
  induction l1 with
  | nil =>
      intro l2 p hlen hm
      cases l2 with
      | nil =>
          rw [List.zipWith_nil_left]
          rw [memL, List.forall₂_nil_right_iff] at hm
          subst hm
          exact List.Forall₂.nil
      | cons i2 l2 => simp at hlen
  | cons i1 l1 ih =>
      intro l2 p hlen hm
      cases l2 with
      | nil => simp at hlen
      | cons i2 l2 =>
          cases p with
          | nil => exact absurd hm.length_eq (by simp)
          | cons x p =>
              rw [memL, List.forall₂_cons] at hm
              rw [List.zipWith_cons_cons]
              exact List.Forall₂.cons (mem_hullI_right hm.1 i1)
                (ih l2 p (by simpa using hlen) hm.2)

theorem zipWith_hull_nonempty :
    ∀ (l1 l2 : List Interval), (∀ i ∈ l1, i.is_empty = false) →
      ∀ j ∈ List.zipWith hullI l1 l2, j.is_empty = false := by
  intro l1
  induction l1 with
  | nil => intro l2 _ j hj; simp at hj
  | cons i1 l1 ih =>
      intro l2 h j hj
      cases l2 with
      | nil => simp at hj
      | cons i2 l2 =>
          rw [List.zipWith_cons_cons] at hj
          rcases List.mem_cons.mp hj with rfl | hj'
          · exact hullI_nonempty (h i1 (by simp)) i2
          · exact ih l2 (fun i hi => h i (by simp [hi])) j hj'

/-- The set of bounds occurring in a `BoxSet` index of dimension `d`. -/
def okBox (d : Nat) (m : Box) : Prop := m.dimension = d ∧ m.is_empty = false

/-- Pointwise enclosure of boxes, the enclosure relation of the Box
instantiation. -/
def enclB (m1 m2 : Box) : Prop :=
  ∀ p : List ℚ, Box.memB m1 p = true → Box.memB m2 p = true

theorem expandB_dim {d : Nat} {o : Option Box} {m : Box}
    (ho : ∀ x ∈ o, okBox d x) (hm : okBox d m) : (expandB o m).dimension = d := by
  cases o with
  | none => exact hm.1
  | some m1 =>
      have h1 := (ho m1 (by simp)).1
      show (List.zipWith hullI m1.intervals m.intervals).length = d
      rw [List.length_zipWith]
      have : m1.intervals.length = d := h1
      have h2 : m.intervals.length = d := hm.1
      omega

theorem boxGood (d : Nat) : RTree.GoodFns boxFns (okBox d) enclB := by
  refine ⟨?_, ?_, ?_, ?_, ?_, ?_, ?_⟩
  · intro m _ p hp
    exact hp
  · intro a b c h1 h2 p hp
    exact h2 p (h1 p hp)
  · -- expand_ok
    intro o m ho hm
    refine ⟨expandB_dim ho hm, ?_⟩
    cases o with
    | none => exact hm.2
    | some m1 =>
        have h1 := ho m1 (by simp)
        show (Box.mk (List.zipWith hullI m1.intervals m.intervals)).is_empty = false
        rw [box_is_empty_eq_false_iff]
        exact zipWith_hull_nonempty m1.intervals m.intervals
          ((box_is_empty_eq_false_iff m1).mp h1.2)
  · -- expand_left
    intro m1 m2 h1 h2 p hp
    have hlen : m1.intervals.length = m2.intervals.length := by
      have a1 : m1.intervals.length = d := h1.1
      have a2 : m2.intervals.length = d := h2.1
      omega
    have hm := (memB_iff_memL m1 p).mp hp
    show Box.memB (Box.mk (List.zipWith hullI m1.intervals m2.intervals)) p = true
    exact (memB_mk_iff _ p).mpr (memL_hull_left m1.intervals m2.intervals p hlen hm)
  · -- expand_right
    intro o m2 ho h2 p hp
    cases o with
    | none => exact hp
    | some m1 =>
        have h1 := ho m1 (by simp)
        have hlen : m1.intervals.length = m2.intervals.length := by
          have a1 : m1.intervals.length = d := h1.1
          have a2 : m2.intervals.length = d := h2.1
          omega
        have hm := (memB_iff_memL m2 p).mp hp
        show Box.memB (Box.mk (List.zipWith hullI m1.intervals m2.intervals)) p = true
        exact (memB_mk_iff _ p).mpr (memL_hull_right m1.intervals m2.intervals p hlen hm)
  · -- mono
    intro a b q ha hb hq hab hov
    have hdaq : a.dimension = q.dimension := by rw [ha.1, hq.1]
    have hdbq : b.dimension = q.dimension := by rw [hb.1, hq.1]
    obtain ⟨p, hpa, hpq⟩ := (overlapsB_iff hdaq).mp hov
    exact (overlapsB_iff hdbq).mpr ⟨p, hab p hpa, hpq⟩
  · show 1 ≤ (4 : Nat)
    omega

/-- Shallow embedding of the `BoxSet` state (multidimensional.py lines 460
to 470): the established dimension, the stored disjoint boxes in insertion
order, and the optional spatial index. -/
structure BoxSet where
  dimension : Option Nat
  boxes : List Box
  index : Option (RTreeNode Box Box)
deriving DecidableEq

namespace BoxSet

/-- A freshly constructed `BoxSet()` (lines 468 to 470). -/
def emptyBS : BoxSet := ⟨none, [], none⟩

/-- One pass of the fragmentation loops (`BoxSet.add` lines 547 to 558 and
`BoxSet.difference` lines 803 to 812): subtract one existing box from every
current fragment, keeping fragments that do not overlap it.  The early break
on an empty fragment list is unobservable.  All operands share the set's
dimension here, so `Box.overlaps`/`Box.difference` cannot raise and their
total cores embed the calls. -/
def fragStep (existing : Box) (frags : List Box) : List Box :=
  frags.flatMap (fun frag =>
    if Box.overlapsB frag existing then Box.diffB frag existing else [frag])

/-- The full fragmentation of an incoming box against a search target. -/
def fragmentsAfter (target : List Box) (box : Box) : List Box :=
  target.foldl (fun fr e => fragStep e fr) [box]

/-- `BoxSet._build_index` (lines 707 to 736): construct a fresh R-tree over
the stored boxes, inserting them in order; a no-op on an empty set. -/
def build_index (s : BoxSet) : BoxSet :=
  if s.boxes = [] then s
  else { s with index := some (RTree.insertAll boxFns s.boxes) }

/-- The per-fragment tail of `BoxSet.add` (lines 561 to 566): append the
fragment, insert it into the index if one exists, else build the index once
more than 10 boxes are stored. -/
def placeFrag (s : BoxSet) (frag : Box) : BoxSet :=
  match s.index with
  | some t => ⟨s.dimension, s.boxes ++ [frag], some (RTree.insertTree boxFns t frag)⟩
  | none =>
      if (s.boxes ++ [frag]).length > 10 then
        BoxSet.build_index ⟨s.dimension, s.boxes ++ [frag], none⟩
      else ⟨s.dimension, s.boxes ++ [frag], none⟩

/-- The overlap candidates consulted by `add` (lines 541 to 543): all stored
boxes, or the index query result when an index exists. -/
def searchTarget (s : BoxSet) (box : Box) : List Box :=
  match s.index with
  | none => s.boxes
  | some t => RTree.search boxFns t box

/-- The body of `BoxSet.add` after the emptiness and dimension checks
(lines 539 to 566). -/
def addCore (s : BoxSet) (box : Box) : BoxSet :=
  (fragmentsAfter (searchTarget s box) box).foldl placeFrag s

/-- `BoxSet.add` for a `Box` argument (lines 500 to 566): empty boxes are
skipped before any dimension bookkeeping, the first non-empty box fixes the
dimension, and a mismatched dimension raises before any fragmentation. -/
def add (s : BoxSet) (box : Box) : Except String BoxSet :=
  if box.is_empty then .ok s
  else
    match s.dimension with
    | none => .ok (addCore ⟨some box.dimension, s.boxes, s.index⟩ box)
    | some d =>
        if box.dimension ≠ d then .error "Dimension mismatch"
        else .ok (addCore s box)

/-- Adding a list of boxes in order (the promotion loops of `add` and the
`BoxSet(boxes)` constructor, lines 472 to 474). -/
def addAll (s : BoxSet) (bs : List Box) : Except String BoxSet :=
  bs.foldlM add s

/-- The `BoxSet(boxes)` constructor (lines 460 to 474). -/
def ofList (bs : List Box) : Except String BoxSet :=
  addAll emptyBS bs

/-- Python truthiness of the `_dimension` field (`None` and `0` are falsy),
as used by the guards of `intersection` and `difference`. -/
def dimTruthy : Option Nat → Bool
  | none => false
  | some d => d != 0

/-- The collection loop of `BoxSet.intersection` (lines 764 to 770): all
pairwise intersections over overlapping pairs of component boxes.  Operand
pairs share one dimension in every reachable call that passes the guard, so
the total cores of `Box.overlaps`/`Box.intersection` embed the calls. -/
def pairInters (xs ys : List Box) : List Box :=
  xs.flatMap (fun b1 =>
    (ys.filter (fun b2 => Box.overlapsB b1 b2)).map (fun b2 => Box.interB b1 b2))

/-- `BoxSet.intersection` (lines 741 to 778). -/
def intersection (s other : BoxSet) : Except String BoxSet :=
  if dimTruthy s.dimension && dimTruthy other.dimension
      && decide (s.dimension ≠ other.dimension)
  then .error "Dimension mismatch"
  else ofList (pairInters s.boxes other.boxes)

/-- `BoxSet.difference` (lines 780 to 816): subtract every box of `other`
from each component box, then rebuild a set from the fragments. -/
def difference (s other : BoxSet) : Except String BoxSet :=
  if dimTruthy s.dimension && dimTruthy other.dimension
      && decide (s.dimension ≠ other.dimension)
  then .error "Dimension mismatch"
  else ofList (s.boxes.flatMap (fun a => fragmentsAfter other.boxes a))

/-- `BoxSet.union` (lines 818 to 828): rebuild from this set's boxes, then
`add` each box of the other set. -/
def union (s other : BoxSet) : Except String BoxSet := do
  let base ← ofList s.boxes
  addAll base other.boxes

/-- `BoxSet.contains` for a point (lines 686 to 705): `False` when no
dimension is established, an error on length mismatch, else a scan of the
stored boxes — through the index, querying with the degenerate point box,
when one exists. -/
def containsPoint (s : BoxSet) (p : List ℚ) : Except String Bool :=
  match s.dimension with
  | none => .ok false
  | some d =>
      if p.length ≠ d then .error "Point dimension must match BoxSet dimension"
      else
        let target :=
          match s.index with
          | none => s.boxes
          | some t => RTree.search boxFns t ⟨p.map (fun x => ⟨x, x, false, false⟩)⟩
        .ok (target.any (fun b => Box.memB b p))

/-- `BoxSet.__eq__` between two `BoxSet`s (lines 1035 to 1051): both empty,
else unequal dimensions compare unequal, else equality is symmetric
emptiness of the two differences (with Python's short-circuit `and`). -/
def beq (a b : BoxSet) : Except String Bool :=
  if a.boxes.isEmpty && b.boxes.isEmpty then .ok true
  else if a.dimension ≠ b.dimension then .ok false
  else do
    let d1 ← difference a b
    if !d1.boxes.isEmpty then .ok false
    else do
      let d2 ← difference b a
      .ok d2.boxes.isEmpty

/-! Invariants of reachable `BoxSet` states and the behaviour of `add`. -/

/-- A point lies in the region represented by the set. -/
def ptMem (s : BoxSet) (p : List ℚ) : Prop := ∃ b ∈ s.boxes, Box.memB b p = true

/-- Two boxes share no point. -/
def disjPt (f g : Box) : Prop :=
  ∀ p : List ℚ, ¬(Box.memB f p = true ∧ Box.memB g p = true)

/-- When an index exists it is a well-formed R-tree over exactly the stored
boxes. -/
def IndexInv (d : Nat) (s : BoxSet) : Prop :=
  ∀ t, s.index = some t →
    RTree.WF boxFns (okBox d) t ∧ (RTreeNode.itemsOf t).Perm s.boxes

/-- The full invariant of a `BoxSet` that has established dimension `d`. -/
def InvD (d : Nat) (s : BoxSet) : Prop :=
  s.dimension = some d ∧ 1 ≤ d ∧ s.boxes ≠ [] ∧
  (∀ b ∈ s.boxes, b.dimension = d ∧ b.is_empty = false) ∧
  s.boxes.Pairwise (fun b1 b2 => Box.overlapsB b1 b2 = false) ∧
  IndexInv d s

/-- A reachable state is either untouched or carries the full invariant. -/
def InvC (d : Nat) (s : BoxSet) : Prop := s = emptyBS ∨ InvD d s

theorem pairwise_flatMap {α β : Type} {R : β → β → Prop} {S : α → α → Prop}
    {f : α → List β} :
    ∀ {l : List α}, l.Pairwise S → (∀ a ∈ l, (f a).Pairwise R) →
      (∀ a ∈ l, ∀ b ∈ l, S a b → ∀ x ∈ f a, ∀ y ∈ f b, R x y) →
      (l.flatMap f).Pairwise R := by
  intro l
  induction l with
  | nil => intro _ _ _; simp
  | cons a l ih =>
      intro hS hin hcross
      rw [List.flatMap_cons, List.pairwise_append]
      refine ⟨hin a (by simp),
        ih (List.Pairwise.of_cons hS) (fun b hb => hin b (by simp [hb]))
          (fun x hx y hy => hcross x (by simp [hx]) y (by simp [hy])), ?_⟩
      intro x hx y hy
      rw [List.mem_flatMap] at hy
      obtain ⟨b, hb, hyb⟩ := hy
      exact hcross a (by simp) b (by simp [hb])
        ((List.pairwise_cons.mp hS).1 b hb) x hx y hyb

theorem fragStep_spec {d : Nat} {e : Box} (hed : e.dimension = d)
    {frags : List Box}
    (hfr : ∀ f ∈ frags, f.dimension = d ∧ f.is_empty = false)
    (hpw : frags.Pairwise disjPt) :
    (∀ f ∈ fragStep e frags, f.dimension = d ∧ f.is_empty = false) ∧
    (fragStep e frags).Pairwise disjPt ∧
    (∀ p, (∃ f ∈ fragStep e frags, Box.memB f p = true) ↔
      ((∃ f ∈ frags, Box.memB f p = true) ∧ Box.memB e p = false)) := by
  have hpiece : ∀ f ∈ frags,
      ∀ g ∈ (if Box.overlapsB f e then Box.diffB f e else [f]),
        (g.dimension = d ∧ g.is_empty = false) ∧
        (∀ p, Box.memB g p = true → Box.memB f p = true ∧ Box.memB e p = false) := by
    intro f hf g hg
    have hfd := hfr f hf
    have hde : f.dimension = e.dimension := by rw [hfd.1, hed]
    by_cases hov : Box.overlapsB f e = true
    · rw [if_pos hov] at hg
      refine ⟨⟨(diffB_dim hde g hg).trans hfd.1, diffB_nonempty hde hfd.2 g hg⟩, ?_⟩
      intro p hp
      exact (diffB_sem hde p).mp ⟨g, hg, hp⟩
    · rw [if_neg hov] at hg
      rcases List.mem_singleton.mp hg with rfl
      refine ⟨hfd, ?_⟩
      intro p hp
      refine ⟨hp, ?_⟩
      cases hme : Box.memB e p
      · rfl
      · exact absurd ⟨hp, hme⟩
          ((overlapsB_eq_false_iff hde).mp (bool_eq_false hov) p)
  refine ⟨?_, ?_, ?_⟩
  · intro g hg
    unfold fragStep at hg
    rw [List.mem_flatMap] at hg
    obtain ⟨f, hf, hgf⟩ := hg
    exact (hpiece f hf g hgf).1
  · unfold fragStep
    refine pairwise_flatMap (S := disjPt) hpw ?_ ?_
    · intro f hf
      have hfd := hfr f hf
      have hde : f.dimension = e.dimension := by rw [hfd.1, hed]
      by_cases hov : Box.overlapsB f e = true
      · rw [if_pos hov]
        exact (diffB_pairwise hde).imp (fun h => h)
      · rw [if_neg hov]
        exact List.pairwise_singleton _ _
    · intro a ha b hb hS x hx y hy p hp
      have hxa := ((hpiece a ha x hx).2 p hp.1).1
      have hyb := ((hpiece b hb y hy).2 p hp.2).1
      exact hS p ⟨hxa, hyb⟩
  · intro p
    constructor
    · rintro ⟨g, hg, hmg⟩
      unfold fragStep at hg
      rw [List.mem_flatMap] at hg
      obtain ⟨f, hf, hgf⟩ := hg
      have h := (hpiece f hf g hgf).2 p hmg
      exact ⟨⟨f, hf, h.1⟩, h.2⟩
    · rintro ⟨⟨f, hf, hmf⟩, hme⟩
      have hfd := hfr f hf
      have hde : f.dimension = e.dimension := by rw [hfd.1, hed]
      by_cases hov : Box.overlapsB f e = true
      · obtain ⟨g, hg, hmg⟩ := (diffB_sem hde p).mpr ⟨hmf, hme⟩
        refine ⟨g, ?_, hmg⟩
        unfold fragStep
        rw [List.mem_flatMap]
        exact ⟨f, hf, by rw [if_pos hov]; exact hg⟩
      · refine ⟨f, ?_, hmf⟩
        unfold fragStep
        rw [List.mem_flatMap]
        exact ⟨f, hf, by rw [if_neg hov]; simp⟩

theorem fragFold_spec {d : Nat} :
    ∀ (target : List Box) (frags : List Box),
      (∀ e ∈ target, e.dimension = d) →
      (∀ f ∈ frags, f.dimension = d ∧ f.is_empty = false) →
      frags.Pairwise disjPt →
      (∀ f ∈ target.foldl (fun fr e => fragStep e fr) frags,
          f.dimension = d ∧ f.is_empty = false) ∧
      (target.foldl (fun fr e => fragStep e fr) frags).Pairwise disjPt ∧
      (∀ p, (∃ f ∈ target.foldl (fun fr e => fragStep e fr) frags,
            Box.memB f p = true) ↔
        ((∃ f ∈ frags, Box.memB f p = true) ∧
          ∀ e ∈ target, Box.memB e p = false)) := by
  intro target
  induction target with
  | nil =>
      intro frags _ hfr hpw
      refine ⟨hfr, hpw, ?_⟩
      intro p
      simp only [List.foldl_nil]
      constructor
      · intro h
        exact ⟨h, fun e he => absurd he (List.not_mem_nil e)⟩
      · intro h
        exact h.1
  | cons e target ih =>
      intro frags htd hfr hpw
      rw [List.foldl_cons]
      have hstep := fragStep_spec (htd e (by simp)) hfr hpw
      have hrec := ih (fragStep e frags) (fun x hx => htd x (by simp [hx]))
        hstep.1 hstep.2.1
      refine ⟨hrec.1, hrec.2.1, ?_⟩
      intro p
      rw [hrec.2.2 p, hstep.2.2 p]
      constructor
      · rintro ⟨⟨hex, hme⟩, htgt⟩
        refine ⟨hex, ?_⟩
        intro x hx
        rcases List.mem_cons.mp hx with rfl | hx'
        · exact hme
        · exact htgt x hx'
      · rintro ⟨hex, htgt⟩
        exact ⟨⟨hex, htgt e (by simp)⟩, fun x hx => htgt x (by simp [hx])⟩

theorem fragmentsAfter_spec {d : Nat} {target : List Box} {box : Box}
    (htd : ∀ e ∈ target, e.dimension = d)
    (hbd : box.dimension = d) (hbne : box.is_empty = false) :
    (∀ f ∈ fragmentsAfter target box, f.dimension = d ∧ f.is_empty = false) ∧
    (fragmentsAfter target box).Pairwise disjPt ∧
    (∀ p, (∃ f ∈ fragmentsAfter target box, Box.memB f p = true) ↔
      (Box.memB box p = true ∧ ∀ e ∈ target, Box.memB e p = false)) := by
  have h := fragFold_spec target [box] htd
    (by
      intro f hf
      rcases List.mem_singleton.mp hf with rfl
      exact ⟨hbd, hbne⟩)
    (List.pairwise_singleton _ _)
  refine ⟨h.1, h.2.1, ?_⟩
  intro p
  rw [show fragmentsAfter target box
      = target.foldl (fun fr e => fragStep e fr) [box] from rfl]
  rw [h.2.2 p]
  constructor
  · rintro ⟨⟨f, hf, hmf⟩, htgt⟩
    rcases List.mem_singleton.mp hf with rfl
    exact ⟨hmf, htgt⟩
  · rintro ⟨hmb, htgt⟩
    exact ⟨⟨box, by simp, hmb⟩, htgt⟩

theorem searchTarget_spec {d : Nat} {s : BoxSet}
    (hidx : IndexInv d s) {box : Box}
    (hbd : box.dimension = d) (hbne : box.is_empty = false) :
    (∀ e ∈ searchTarget s box, e ∈ s.boxes) ∧
    (∀ e ∈ s.boxes, Box.overlapsB e box = true → e ∈ searchTarget s box) := by
  unfold searchTarget
  cases hI : s.index with
  | none => exact ⟨fun e he => he, fun e he _ => he⟩
  | some t =>
      obtain ⟨hWF, hperm⟩ := hidx t hI
      have hsearch := RTree.search_eq (boxGood d)
        (show okBox d box from ⟨hbd, hbne⟩) hWF
      show (∀ e ∈ RTree.search boxFns t box, e ∈ s.boxes) ∧
        (∀ e ∈ s.boxes, Box.overlapsB e box = true →
          e ∈ RTree.search boxFns t box)
      rw [hsearch]
      constructor
      · intro e he
        exact hperm.mem_iff.mp (List.mem_of_mem_filter he)
      · intro e he hov
        exact List.mem_filter.mpr ⟨hperm.mem_iff.mpr he, hov⟩

theorem build_index_spec {d : Nat} {s : BoxSet} (hnil : s.boxes ≠ [])
    (h1 : s.dimension = some d)
    (h2 : ∀ b ∈ s.boxes, b.dimension = d ∧ b.is_empty = false) :
    s.build_index.dimension = some d ∧ s.build_index.boxes = s.boxes ∧
    IndexInv d s.build_index := by
  unfold build_index
  rw [if_neg hnil]
  refine ⟨h1, rfl, ?_⟩
  intro t ht
  injection ht with ht
  subst ht
  have h := RTree.insertAll_spec (boxGood d) s.boxes
    (fun b hb => show okBox d b from ⟨(h2 b hb).1, (h2 b hb).2⟩)
  exact ⟨h.1, h.2⟩

theorem placeFrag_spec {d : Nat} {s : BoxSet} {f : Box}
    (h1 : s.dimension = some d)
    (h2 : ∀ b ∈ s.boxes, b.dimension = d ∧ b.is_empty = false)
    (hf : f.dimension = d ∧ f.is_empty = false)
    (h4 : IndexInv d s) :
    (placeFrag s f).dimension = some d ∧
    (placeFrag s f).boxes = s.boxes ++ [f] ∧
    IndexInv d (placeFrag s f) := by
  unfold placeFrag
  cases hI : s.index with
  | some t =>
      obtain ⟨hWF, hperm⟩ := h4 t hI
      refine ⟨h1, rfl, ?_⟩
      intro t' ht'
      injection ht' with ht'
      subst ht'
      have hins := RTree.insertTree_spec (boxGood d)
        (show okBox d (boxFns.get_mbr f) from ⟨hf.1, hf.2⟩) hWF
      refine ⟨hins.1, ?_⟩
      exact hins.2.trans ((hperm.cons f).trans (List.perm_append_singleton f s.boxes).symm)
  | none =>
      have h2' : ∀ b ∈ s.boxes ++ [f], b.dimension = d ∧ b.is_empty = false := by
        intro b hb
        rcases List.mem_append.mp hb with hb' | hb'
        · exact h2 b hb'
        · rcases List.mem_singleton.mp hb' with rfl
          exact hf
      by_cases hlen : (s.boxes ++ [f]).length > 10
      · rw [if_pos hlen]
        have hb := build_index_spec (s := ⟨s.dimension, s.boxes ++ [f], none⟩)
          (by simp) h1 h2'
        exact ⟨hb.1, hb.2.1, hb.2.2⟩
      · rw [if_neg hlen]
        exact ⟨h1, rfl, fun t ht => by cases ht⟩

theorem placeFold_spec {d : Nat} :
    ∀ (frags : List Box) (s : BoxSet),
      s.dimension = some d →
      (∀ b ∈ s.boxes, b.dimension = d ∧ b.is_empty = false) →
      (∀ f ∈ frags, f.dimension = d ∧ f.is_empty = false) →
      IndexInv d s →
      (frags.foldl placeFrag s).dimension = some d ∧
      (frags.foldl placeFrag s).boxes = s.boxes ++ frags ∧
      IndexInv d (frags.foldl placeFrag s) := by
  intro frags
  induction frags with
  | nil =>
      intro s h1 h2 _ h4
      exact ⟨h1, by simp, h4⟩
  | cons f frags ih =>
      intro s h1 h2 h3 h4
      rw [List.foldl_cons]
      have hstep := placeFrag_spec h1 h2 (h3 f (by simp)) h4
      have h2' : ∀ b ∈ (placeFrag s f).boxes, b.dimension = d ∧ b.is_empty = false := by
        rw [hstep.2.1]
        intro b hb
        rcases List.mem_append.mp hb with hb' | hb'
        · exact h2 b hb'
        · rcases List.mem_singleton.mp hb' with rfl
          exact h3 _ (by simp)
      have hrec := ih (placeFrag s f) hstep.1 h2'
        (fun g hg => h3 g (by simp [hg])) hstep.2.2
      refine ⟨hrec.1, ?_, hrec.2.2⟩
      rw [hrec.2.1, hstep.2.1, List.append_assoc]
      rfl

theorem addCore_spec {d : Nat} {s : BoxSet} {box : Box}
    (hdim : s.dimension = some d)
    (hboxes : ∀ b ∈ s.boxes, b.dimension = d ∧ b.is_empty = false)
    (hpw : s.boxes.Pairwise (fun b1 b2 => Box.overlapsB b1 b2 = false))
    (hidx : IndexInv d s)
    (hbd : box.dimension = d) (hbne : box.is_empty = false) :
    (addCore s box).dimension = some d ∧
    (∀ b ∈ (addCore s box).boxes, b.dimension = d ∧ b.is_empty = false) ∧
    (addCore s box).boxes.Pairwise (fun b1 b2 => Box.overlapsB b1 b2 = false) ∧
    IndexInv d (addCore s box) ∧
    (∀ p, ptMem (addCore s box) p ↔ (ptMem s p ∨ Box.memB box p = true)) ∧
    (addCore s box).boxes ≠ [] := by
  have hst := searchTarget_spec hidx hbd hbne
  have htd : ∀ e ∈ searchTarget s box, e.dimension = d :=
    fun e he => (hboxes e (hst.1 e he)).1
  obtain ⟨hfr_ok, hfr_pw, hfr_sem⟩ := fragmentsAfter_spec htd hbd hbne
  obtain ⟨hdim', hboxes', hidx'⟩ :=
    placeFold_spec (fragmentsAfter (searchTarget s box) box) s hdim hboxes hfr_ok hidx
  have hcore : addCore s box
      = (fragmentsAfter (searchTarget s box) box).foldl placeFrag s := rfl
  have hok' : ∀ b ∈ (addCore s box).boxes, b.dimension = d ∧ b.is_empty = false := by
    rw [hcore, hboxes']
    intro b hb
    rcases List.mem_append.mp hb with hb' | hb'
    · exact hboxes b hb'
    · exact hfr_ok b hb'
  have hsem : ∀ p, ptMem (addCore s box) p ↔ (ptMem s p ∨ Box.memB box p = true) := by
    intro p
    unfold ptMem
    rw [hcore, hboxes']
    constructor
    · rintro ⟨b, hb, hmb⟩
      rcases List.mem_append.mp hb with h | h
      · exact Or.inl ⟨b, h, hmb⟩
      · exact Or.inr ((hfr_sem p).mp ⟨b, h, hmb⟩).1
    · rintro (⟨b, hb, hmb⟩ | hmb)
      · exact ⟨b, List.mem_append.mpr (Or.inl hb), hmb⟩
      · by_cases hsp : ∃ b ∈ s.boxes, Box.memB b p = true
        · obtain ⟨b, hb, h⟩ := hsp
          exact ⟨b, List.mem_append.mpr (Or.inl hb), h⟩
        · push_neg at hsp
          have htgt : ∀ e ∈ searchTarget s box, Box.memB e p = false :=
            fun e he => bool_eq_false (hsp e (hst.1 e he))
          obtain ⟨f, hf, hmf⟩ := (hfr_sem p).mpr ⟨hmb, htgt⟩
          exact ⟨f, List.mem_append.mpr (Or.inr hf), hmf⟩
  refine ⟨hcore ▸ hdim', hok', ?_, hcore ▸ hidx', hsem, ?_⟩
  · rw [hcore, hboxes', List.pairwise_append]
    refine ⟨hpw, ?_, ?_⟩
    · refine hfr_pw.imp_of_mem ?_
      intro f g hf hg hdisj
      have hfg : f.dimension = g.dimension := by
        rw [(hfr_ok f hf).1, (hfr_ok g hg).1]
      exact (overlapsB_eq_false_iff hfg).mpr hdisj
    · intro e he f hf
      have hde : e.dimension = f.dimension := by
        rw [(hboxes e he).1, (hfr_ok f hf).1]
      rw [overlapsB_eq_false_iff hde]
      rintro p ⟨hpe, hpf⟩
      obtain ⟨hbox, htgt⟩ := (hfr_sem p).mp ⟨f, hf, hpf⟩
      by_cases hmem : e ∈ searchTarget s box
      · rw [htgt e hmem] at hpe
        exact absurd hpe (by simp)
      · have hov : Box.overlapsB e box = false :=
          bool_eq_false (fun h => hmem (hst.2 e he h))
        have hdeb : e.dimension = box.dimension := by rw [(hboxes e he).1, hbd]
        exact (overlapsB_eq_false_iff hdeb).mp hov p ⟨hpe, hbox⟩
  · obtain ⟨p0, hp0⟩ := exists_point_of_nonempty hbne
    obtain ⟨b, hb, _⟩ := (hsem p0).mpr (Or.inr hp0)
    exact List.ne_nil_of_mem hb

theorem memB_false_of_empty {b : Box} (h : b.is_empty = true) (p : List ℚ) :
    Box.memB b p = false := by
  cases hm : Box.memB b p
  · rfl
  · rw [is_empty_eq_false_of_memB hm] at h
    exact absurd h (by simp)

theorem add_spec {d : Nat} {s : BoxSet} (hInv : InvC d s) {box : Box}
    (hbd : box.dimension = d) (hd1 : 1 ≤ d) :
    ∃ s', add s box = Except.ok s' ∧ InvC d s' ∧
      ∀ p, ptMem s' p ↔ (ptMem s p ∨ Box.memB box p = true) := by
  unfold add
  by_cases he : box.is_empty = true
  · rw [if_pos he]
    refine ⟨s, rfl, hInv, ?_⟩
    intro p
    rw [memB_false_of_empty he p]
    simp
  · rw [if_neg he]
    have hbne : box.is_empty = false := bool_eq_false he
    rcases hInv with rfl | hID
    · refine ⟨addCore ⟨some box.dimension, [], none⟩ box, rfl, ?_, ?_⟩
      · refine Or.inr ?_
        have hc := addCore_spec (s := ⟨some box.dimension, [], none⟩)
          (by rw [hbd]) (fun b hb => absurd hb (List.not_mem_nil b))
          List.Pairwise.nil (fun t ht => by cases ht) hbd hbne
        exact ⟨hc.1, hd1, hc.2.2.2.2.2, hc.2.1, hc.2.2.1, hc.2.2.2.1⟩
      · have hc := addCore_spec (s := ⟨some box.dimension, [], none⟩)
          (by rw [hbd]) (fun b hb => absurd hb (List.not_mem_nil b))
          List.Pairwise.nil (fun t ht => by cases ht) hbd hbne
        intro p
        rw [hc.2.2.2.2.1 p]
        constructor
        · rintro (⟨b, hb, _⟩ | h)
          · exact absurd hb (List.not_mem_nil b)
          · exact Or.inr h
        · rintro (⟨b, hb, _⟩ | h)
          · exact absurd hb (List.not_mem_nil b)
          · exact Or.inr h
    · obtain ⟨hdim, hd1', hne, hok, hpw, hidx⟩ := hID
      rw [hdim]
      have hc := addCore_spec hdim hok hpw hidx hbd hbne
      refine ⟨addCore s box, ?_, Or.inr ?_, hc.2.2.2.2.1⟩
      · show (if box.dimension ≠ d then Except.error "Dimension mismatch"
            else Except.ok (addCore s box)) = Except.ok (addCore s box)
        rw [if_neg (fun h => h hbd)]
      · exact ⟨hc.1, hd1, hc.2.2.2.2.2, hc.2.1, hc.2.2.1, hc.2.2.2.1⟩

/-- The dimension-mismatch branch of `add` (multidimensional.py lines 534 to
537): raised before any fragmentation or insertion. -/
theorem add_mismatch_error {s : BoxSet} {d : Nat} {box : Box}
    (hdim : s.dimension = some d) (hbne : box.is_empty = false)
    (hmis : box.dimension ≠ d) :
    add s box = Except.error "Dimension mismatch" := by
  unfold add
  rw [if_neg (by rw [hbne]; exact fun h => absurd h (by simp))]
  rw [hdim]
  show (if box.dimension ≠ d then Except.error "Dimension mismatch"
      else Except.ok (addCore s box)) = Except.error "Dimension mismatch"
  rw [if_pos hmis]

theorem addAll_cons (s : BoxSet) (b : Box) (bs : List Box) :
    addAll s (b :: bs) = match add s b with
      | .ok s1 => addAll s1 bs
      | .error e => .error e := by
  unfold addAll
  rw [List.foldlM_cons]
  cases add s b <;> rfl

theorem addAll_spec {d : Nat} (hd1 : 1 ≤ d) :
    ∀ (bs : List Box) (s : BoxSet), InvC d s → (∀ b ∈ bs, b.dimension = d) →
    ∃ s', addAll s bs = Except.ok s' ∧ InvC d s' ∧
      ∀ p, ptMem s' p ↔ (ptMem s p ∨ ∃ b ∈ bs, Box.memB b p = true) := by
  intro bs
  induction bs with
  | nil =>
      intro s hs _
      refine ⟨s, rfl, hs, ?_⟩
      intro p
      simp
  | cons b bs ih =>
      intro s hs hbs
      obtain ⟨s1, hadd, hs1, hsem1⟩ := add_spec hs (hbs b (by simp)) hd1
      obtain ⟨s', hrec, hs', hsem2⟩ := ih s1 hs1 (fun x hx => hbs x (by simp [hx]))
      refine ⟨s', ?_, hs', ?_⟩
      · rw [addAll_cons, hadd]
        exact hrec
      · intro p
        rw [hsem2 p, hsem1 p]
        simp only [List.mem_cons]
        constructor
        · rintro ((h | h) | ⟨x, hx, hm⟩)
          · exact Or.inl h
          · exact Or.inr ⟨b, Or.inl rfl, h⟩
          · exact Or.inr ⟨x, Or.inr hx, hm⟩
        · rintro (h | ⟨x, rfl | hx, hm⟩)
          · exact Or.inl (Or.inl h)
          · exact Or.inl (Or.inr hm)
          · exact Or.inr ⟨x, hx, hm⟩

theorem ofList_spec {d : Nat} (hd1 : 1 ≤ d) (bs : List Box)
    (hbs : ∀ b ∈ bs, b.dimension = d) :
    ∃ s', ofList bs = Except.ok s' ∧ InvC d s' ∧
      ∀ p, ptMem s' p ↔ ∃ b ∈ bs, Box.memB b p = true := by
  obtain ⟨s', h1, h2, h3⟩ := addAll_spec hd1 bs emptyBS (Or.inl rfl) hbs
  refine ⟨s', h1, h2, ?_⟩
  intro p
  rw [h3 p]
  constructor
  · rintro (⟨b, hb, _⟩ | h)
    · exact absurd hb (List.not_mem_nil b)
    · exact h
  · exact Or.inr

theorem InvC_boxes_dim {d : Nat} {s : BoxSet} (h : InvC d s) :
    ∀ b ∈ s.boxes, b.dimension = d := by
  rcases h with rfl | hID
  · intro b hb
    exact absurd hb (List.not_mem_nil b)
  · intro b hb
    exact (hID.2.2.2.1 b hb).1

theorem InvC_boxes_nonempty {d : Nat} {s : BoxSet} (h : InvC d s) :
    ∀ b ∈ s.boxes, b.is_empty = false := by
  rcases h with rfl | hID
  · intro b hb
    exact absurd hb (List.not_mem_nil b)
  · intro b hb
    exact (hID.2.2.2.1 b hb).2

theorem guard_false {d : Nat} {A B : BoxSet} (hA : InvC d A) (hB : InvC d B) :
    (dimTruthy A.dimension && dimTruthy B.dimension
      && decide (A.dimension ≠ B.dimension)) = false := by
  rcases hA with rfl | hIA
  · rfl
  · rcases hB with rfl | hIB
    · rw [show emptyBS.dimension = none from rfl]
      rw [show dimTruthy none = false from rfl]
      simp
    · rw [hIA.1, hIB.1]
      simp

theorem pairInters_dim {d : Nat} {xs ys : List Box}
    (hx : ∀ b ∈ xs, b.dimension = d) (hy : ∀ b ∈ ys, b.dimension = d) :
    ∀ c ∈ pairInters xs ys, c.dimension = d := by
  intro c hc
  unfold pairInters at hc
  rw [List.mem_flatMap] at hc
  obtain ⟨b1, hb1, hc1⟩ := hc
  rw [List.mem_map] at hc1
  obtain ⟨b2, hb2, rfl⟩ := hc1
  have h2 : b2.intervals.length = d := hy b2 (List.mem_of_mem_filter hb2)
  have h1 : b1.intervals.length = d := hx b1 hb1
  show (List.zipWith Interval.normInter b1.intervals b2.intervals).length = d
  rw [List.length_zipWith]
  omega

theorem pairInters_sem {d : Nat} {xs ys : List Box}
    (hx : ∀ b ∈ xs, b.dimension = d) (hy : ∀ b ∈ ys, b.dimension = d)
    (p : List ℚ) :
    (∃ c ∈ pairInters xs ys, Box.memB c p = true) ↔
      ((∃ a ∈ xs, Box.memB a p = true) ∧ (∃ b ∈ ys, Box.memB b p = true)) := by
  unfold pairInters
  constructor
  · rintro ⟨c, hc, hmc⟩
    rw [List.mem_flatMap] at hc
    obtain ⟨a, ha, hc1⟩ := hc
    rw [List.mem_map] at hc1
    obtain ⟨b, hb, rfl⟩ := hc1
    have hb' := List.mem_of_mem_filter hb
    have hd : a.dimension = b.dimension := by rw [hx a ha, hy b hb']
    have h := (memB_interB hd p).mp hmc
    exact ⟨⟨a, ha, h.1⟩, ⟨b, hb', h.2⟩⟩
  · rintro ⟨⟨a, ha, hma⟩, ⟨b, hb, hmb⟩⟩
    have hd : a.dimension = b.dimension := by rw [hx a ha, hy b hb]
    have hov : Box.overlapsB a b = true := (overlapsB_iff hd).mpr ⟨p, hma, hmb⟩
    refine ⟨Box.interB a b, ?_, (memB_interB hd p).mpr ⟨hma, hmb⟩⟩
    rw [List.mem_flatMap]
    exact ⟨a, ha, List.mem_map.mpr ⟨b, List.mem_filter.mpr ⟨hb, hov⟩, rfl⟩⟩

theorem interS_spec {d : Nat} {A B : BoxSet} (hA : InvC d A) (hB : InvC d B)
    (hd1 : 1 ≤ d) :
    ∃ s', intersection A B = Except.ok s' ∧ InvC d s' ∧
      ∀ p, ptMem s' p ↔ (ptMem A p ∧ ptMem B p) := by
  have hxd := InvC_boxes_dim hA
  have hyd := InvC_boxes_dim hB
  unfold intersection
  rw [guard_false hA hB, if_neg (by simp)]
  obtain ⟨s', h1, h2, h3⟩ := ofList_spec hd1 (pairInters A.boxes B.boxes)
    (pairInters_dim hxd hyd)
  refine ⟨s', h1, h2, ?_⟩
  intro p
  rw [h3 p, pairInters_sem hxd hyd p]
  exact Iff.rfl

theorem diffS_spec {d : Nat} {A B : BoxSet} (hA : InvC d A) (hB : InvC d B)
    (hd1 : 1 ≤ d) :
    ∃ s', difference A B = Except.ok s' ∧ InvC d s' ∧
      ∀ p, ptMem s' p ↔ (ptMem A p ∧ ¬ ptMem B p) := by
  have hxd := InvC_boxes_dim hA
  have hxne := InvC_boxes_nonempty hA
  have hyd := InvC_boxes_dim hB
  unfold difference
  rw [guard_false hA hB, if_neg (by simp)]
  have hfd : ∀ f ∈ A.boxes.flatMap (fun a => fragmentsAfter B.boxes a),
      f.dimension = d := by
    intro f hf
    rw [List.mem_flatMap] at hf
    obtain ⟨a, ha, hfa⟩ := hf
    exact ((fragmentsAfter_spec hyd (hxd a ha) (hxne a ha)).1 f hfa).1
  obtain ⟨s', h1, h2, h3⟩ := ofList_spec hd1 _ hfd
  refine ⟨s', h1, h2, ?_⟩
  intro p
  rw [h3 p]
  constructor
  · rintro ⟨f, hf, hmf⟩
    rw [List.mem_flatMap] at hf
    obtain ⟨a, ha, hfa⟩ := hf
    obtain ⟨hma, hnb⟩ :=
      ((fragmentsAfter_spec hyd (hxd a ha) (hxne a ha)).2.2 p).mp ⟨f, hfa, hmf⟩
    refine ⟨⟨a, ha, hma⟩, ?_⟩
    rintro ⟨b, hb, hmb⟩
    rw [hnb b hb] at hmb
    exact absurd hmb (by simp)
  · rintro ⟨⟨a, ha, hma⟩, hnb⟩
    have hnb' : ∀ e ∈ B.boxes, Box.memB e p = false := by
      intro e he
      cases hme : Box.memB e p
      · rfl
      · exact absurd ⟨e, he, hme⟩ hnb
    obtain ⟨f, hf, hmf⟩ :=
      ((fragmentsAfter_spec hyd (hxd a ha) (hxne a ha)).2.2 p).mpr ⟨hma, hnb'⟩
    refine ⟨f, ?_, hmf⟩
    rw [List.mem_flatMap]
    exact ⟨a, ha, hf⟩

theorem unionS_spec {d : Nat} {A B : BoxSet} (hA : InvC d A) (hB : InvC d B)
    (hd1 : 1 ≤ d) :
    ∃ s', union A B = Except.ok s' ∧ InvC d s' ∧
      ∀ p, ptMem s' p ↔ (ptMem A p ∨ ptMem B p) := by
  obtain ⟨base, h1, h2, h3⟩ := ofList_spec hd1 A.boxes (InvC_boxes_dim hA)
  obtain ⟨s', g1, g2, g3⟩ := addAll_spec hd1 B.boxes base h2 (InvC_boxes_dim hB)
  refine ⟨s', ?_, g2, ?_⟩
  · unfold union
    rw [h1]
    exact g1
  · intro p
    rw [g3 p, h3 p]
    exact Iff.rfl

theorem InvC_point_of_boxes_ne {d : Nat} {s : BoxSet} (h : InvC d s)
    (hne : s.boxes ≠ []) : ∃ p, ptMem s p := by
  rcases h with rfl | hID
  · exact absurd rfl hne
  · obtain ⟨b, hb⟩ := List.exists_mem_of_ne_nil s.boxes hne
    obtain ⟨p, hp⟩ := exists_point_of_nonempty ((hID.2.2.2.1 b hb).2)
    exact ⟨p, b, hb, hp⟩

theorem InvC_boxes_nil_of_no_point {d : Nat} {s : BoxSet} (h : InvC d s)
    (hnp : ∀ p, ¬ ptMem s p) : s.boxes = [] := by
  by_contra hne
  obtain ⟨p, hp⟩ := InvC_point_of_boxes_ne h hne
  exact hnp p hp

theorem beq_true_of {d : Nat} {A B : BoxSet} (hA : InvC d A) (hB : InvC d B)
    (hd1 : 1 ≤ d) (hpt : ∀ p, ptMem A p ↔ ptMem B p) :
    beq A B = Except.ok true := by
  unfold beq
  by_cases hAe : A.boxes = []
  · have hBe : B.boxes = [] := by
      refine InvC_boxes_nil_of_no_point hB ?_
      intro p hp
      obtain ⟨b, hb, _⟩ := (hpt p).mpr hp
      rw [hAe] at hb
      exact absurd hb (List.not_mem_nil b)
    rw [if_pos (by rw [hAe, hBe]; rfl)]
  · have hBne : B.boxes ≠ [] := by
      intro hBe
      obtain ⟨p, hp⟩ := InvC_point_of_boxes_ne hA hAe
      obtain ⟨b, hb, _⟩ := (hpt p).mp hp
      rw [hBe] at hb
      exact absurd hb (List.not_mem_nil b)
    have hIA : InvD d A := by
      rcases hA with rfl | h
      · exact absurd rfl hAe
      · exact h
    have hIB : InvD d B := by
      rcases hB with rfl | h
      · exact absurd rfl hBne
      · exact h
    rw [if_neg (by
      rw [Bool.and_eq_true]
      rintro ⟨h1, _⟩
      rw [List.isEmpty_iff] at h1
      exact hAe h1)]
    rw [if_neg (show ¬ A.dimension ≠ B.dimension from
      fun h => h (by rw [hIA.1, hIB.1]))]
    obtain ⟨D1, e1, i1, s1⟩ := diffS_spec (Or.inr hIA) (Or.inr hIB) hd1
    obtain ⟨D2, e2, i2, s2⟩ := diffS_spec (Or.inr hIB) (Or.inr hIA) hd1
    have hD1 : D1.boxes = [] := by
      refine InvC_boxes_nil_of_no_point i1 ?_
      intro p hp
      have h := (s1 p).mp hp
      exact h.2 ((hpt p).mp h.1)
    have hD2 : D2.boxes = [] := by
      refine InvC_boxes_nil_of_no_point i2 ?_
      intro p hp
      have h := (s2 p).mp hp
      exact h.2 ((hpt p).mpr h.1)
    rw [e1]
    show (if !D1.boxes.isEmpty then Except.ok false
      else do
        let d2 ← difference B A
        Except.ok d2.boxes.isEmpty) = Except.ok true
    rw [hD1, if_neg (by simp)]
    rw [e2]
    show Except.ok D2.boxes.isEmpty = Except.ok true
    rw [hD2]
    rfl

/-- The `BoxSet` states produced by any sequence of `add`, `union`,
`intersection` and `difference` calls starting from construction (the
`BoxSet(boxes)` constructor itself is a sequence of `add` calls on a fresh
state).  `add` steps carry the Python `Box` constructor validity: a real
`Box` always has at least one component interval. -/
inductive Reach : BoxSet → Prop where
  | base : Reach emptyBS
  | add_step : ∀ {s : BoxSet} {box : Box} {s' : BoxSet}, Reach s →
      box.intervals ≠ [] → add s box = Except.ok s' → Reach s'
  | union_step : ∀ {s u s' : BoxSet}, Reach s → Reach u →
      union s u = Except.ok s' → Reach s'
  | inter_step : ∀ {s u s' : BoxSet}, Reach s → Reach u →
      intersection s u = Except.ok s' → Reach s'
  | diff_step : ∀ {s u s' : BoxSet}, Reach s → Reach u →
      difference s u = Except.ok s' → Reach s'

/-- The dimension-indexed invariant, with the dimension existentially
quantified. -/
def Inv (s : BoxSet) : Prop := s = emptyBS ∨ ∃ d, InvD d s

theorem InvC_to_Inv {d : Nat} {s : BoxSet} (h : InvC d s) : Inv s := by
  rcases h with h | h
  · exact Or.inl h
  · exact Or.inr ⟨d, h⟩

theorem Inv_of_op_eq {d : Nat} {x : Except String BoxSet} {s' s'' : BoxSet}
    (he : x = Except.ok s'') (hi : InvC d s'') (heq : x = Except.ok s') :
    Inv s' := by
  rw [he] at heq
  injection heq with heq
  subst heq
  exact InvC_to_Inv hi

theorem add_inv {s : BoxSet} {box : Box} {s' : BoxSet} (h : Inv s)
    (hb : box.intervals ≠ []) (hadd : add s box = Except.ok s') : Inv s' := by
  by_cases he : box.is_empty = true
  · unfold add at hadd
    rw [if_pos he] at hadd
    injection hadd with hadd
    subst hadd
    exact h
  · have hbne : box.is_empty = false := bool_eq_false he
    have hd1 : 1 ≤ box.dimension := by
      have := List.length_pos.mpr hb
      show 1 ≤ box.intervals.length
      omega
    rcases h with rfl | ⟨d, hID⟩
    · obtain ⟨s'', heq, hinv, _⟩ := add_spec (d := box.dimension) (Or.inl rfl) rfl hd1
      exact Inv_of_op_eq heq hinv hadd
    · by_cases hmd : box.dimension = d
      · obtain ⟨s'', heq, hinv, _⟩ := add_spec (Or.inr hID) hmd hID.2.1
        exact Inv_of_op_eq heq hinv hadd
      · rw [add_mismatch_error hID.1 hbne hmd] at hadd
        cases hadd

theorem addAll_cons_ok {s : BoxSet} {b : Box} {bs : List Box} {s1 : BoxSet}
    (h : add s b = Except.ok s1) : addAll s (b :: bs) = addAll s1 bs := by
  rw [addAll_cons, h]

theorem addAll_cons_err {s : BoxSet} {b : Box} {bs : List Box} {e : String}
    (h : add s b = Except.error e) : addAll s (b :: bs) = Except.error e := by
  rw [addAll_cons, h]

theorem addAll_inv : ∀ {bs : List Box} {s s' : BoxSet}, Inv s →
    (∀ b ∈ bs, b.intervals ≠ []) → addAll s bs = Except.ok s' → Inv s' := by
  intro bs
  induction bs with
  | nil =>
      intro s s' h _ heq
      have heq' : Except.ok s = Except.ok s' := heq
      injection heq' with heq'
      subst heq'
      exact h
  | cons b bs ih =>
      intro s s' h hval heq
      cases hab : add s b with
      | error e =>
          rw [addAll_cons_err hab] at heq
          cases heq
      | ok s1 =>
          rw [addAll_cons_ok hab] at heq
          exact ih (add_inv h (hval b (by simp)) hab)
            (fun x hx => hval x (by simp [hx])) heq

theorem Inv_boxes_valid {s : BoxSet} (h : Inv s) :
    ∀ b ∈ s.boxes, b.intervals ≠ [] := by
  rcases h with rfl | ⟨d, hID⟩
  · intro b hb
    exact absurd hb (List.not_mem_nil b)
  · intro b hb
    have h1 : b.intervals.length = d := (hID.2.2.2.1 b hb).1
    have h2 : 1 ≤ d := hID.2.1
    intro hnil
    rw [hnil] at h1
    simp at h1
    omega

theorem dimTruthy_some {d : Nat} (h : 1 ≤ d) : dimTruthy (some d) = true := by
  unfold dimTruthy
  rw [bne_iff_ne]
  omega

theorem guard_true {ds du : Nat} {A B : BoxSet} (hIA : InvD ds A)
    (hIB : InvD du B) (hne : ds ≠ du) :
    (dimTruthy A.dimension && dimTruthy B.dimension
      && decide (A.dimension ≠ B.dimension)) = true := by
  rw [hIA.1, hIB.1, dimTruthy_some hIA.2.1, dimTruthy_some hIB.2.1]
  have hd : (some ds : Option Nat) ≠ some du := by
    intro hc
    injection hc with hc
    exact hne hc
  rw [decide_eq_true hd]
  rfl

theorem union_mixed_err {ds du : Nat} {A B : BoxSet} (hIA : InvD ds A)
    (hIB : InvD du B) (hne : ds ≠ du) {s' : BoxSet} :
    union A B ≠ Except.ok s' := by
  intro heq
  obtain ⟨base, h1, h2, h3⟩ := ofList_spec hIA.2.1 A.boxes
    (fun b hb => (hIA.2.2.2.1 b hb).1)
  have hbase_ne : base.boxes ≠ [] := by
    obtain ⟨p, hp⟩ := InvC_point_of_boxes_ne (Or.inr hIA) hIA.2.2.1
    obtain ⟨b, hb, hm⟩ := (h3 p).mpr hp
    exact List.ne_nil_of_mem hb
  have hIbase : InvD ds base := by
    rcases h2 with rfl | h
    · exact absurd rfl hbase_ne
    · exact h
  obtain ⟨b0, rest, hbs⟩ := List.exists_cons_of_ne_nil hIB.2.2.1
  have hb0 : b0 ∈ B.boxes := by rw [hbs]; simp
  have hberr : add base b0 = Except.error "Dimension mismatch" :=
    add_mismatch_error hIbase.1 ((hIB.2.2.2.1 b0 hb0).2)
      (by
        rw [(hIB.2.2.2.1 b0 hb0).1]
        intro hc
        exact hne hc.symm)
  unfold union at heq
  rw [h1] at heq
  have heq2 : addAll base B.boxes = Except.ok s' := heq
  rw [hbs, addAll_cons_err hberr] at heq2
  cases heq2

theorem Reach_inv : ∀ {s : BoxSet}, Reach s → Inv s := by
  intro s h
  induction h with
  | base => exact Or.inl rfl
  | add_step hr hval hadd ih => exact add_inv ih hval hadd
  | union_step hr hu heq ihs ihu =>
      rcases ihs with rfl | ⟨ds, hIA⟩
      · rcases ihu with rfl | ⟨du, hIB⟩
        · obtain ⟨s'', e, i, _⟩ :=
            unionS_spec (d := 1) (Or.inl rfl) (Or.inl rfl) (le_refl 1)
          exact Inv_of_op_eq e i heq
        · obtain ⟨s'', e, i, _⟩ :=
            unionS_spec (Or.inl rfl) (Or.inr hIB) hIB.2.1
          exact Inv_of_op_eq e i heq
      · rcases ihu with rfl | ⟨du, hIB⟩
        · obtain ⟨s'', e, i, _⟩ :=
            unionS_spec (Or.inr hIA) (Or.inl rfl) hIA.2.1
          exact Inv_of_op_eq e i heq
        · by_cases hdd : ds = du
          · subst hdd
            obtain ⟨s'', e, i, _⟩ :=
              unionS_spec (Or.inr hIA) (Or.inr hIB) hIA.2.1
            exact Inv_of_op_eq e i heq
          · exact absurd heq (union_mixed_err hIA hIB hdd)
  | inter_step hr hu heq ihs ihu =>
      rcases ihs with rfl | ⟨ds, hIA⟩
      · rcases ihu with rfl | ⟨du, hIB⟩
        · obtain ⟨s'', e, i, _⟩ :=
            interS_spec (d := 1) (Or.inl rfl) (Or.inl rfl) (le_refl 1)
          exact Inv_of_op_eq e i heq
        · obtain ⟨s'', e, i, _⟩ :=
            interS_spec (Or.inl rfl) (Or.inr hIB) hIB.2.1
          exact Inv_of_op_eq e i heq
      · rcases ihu with rfl | ⟨du, hIB⟩
        · obtain ⟨s'', e, i, _⟩ :=
            interS_spec (Or.inr hIA) (Or.inl rfl) hIA.2.1
          exact Inv_of_op_eq e i heq
        · by_cases hdd : ds = du
          · subst hdd
            obtain ⟨s'', e, i, _⟩ :=
              interS_spec (Or.inr hIA) (Or.inr hIB) hIA.2.1
            exact Inv_of_op_eq e i heq
          · exfalso
            unfold intersection at heq
            rw [if_pos (guard_true hIA hIB hdd)] at heq
            cases heq
  | diff_step hr hu heq ihs ihu =>
      rcases ihs with rfl | ⟨ds, hIA⟩
      · rcases ihu with rfl | ⟨du, hIB⟩
        · obtain ⟨s'', e, i, _⟩ :=
            diffS_spec (d := 1) (Or.inl rfl) (Or.inl rfl) (le_refl 1)
          exact Inv_of_op_eq e i heq
        · obtain ⟨s'', e, i, _⟩ :=
            diffS_spec (Or.inl rfl) (Or.inr hIB) hIB.2.1
          exact Inv_of_op_eq e i heq
      · rcases ihu with rfl | ⟨du, hIB⟩
        · obtain ⟨s'', e, i, _⟩ :=
            diffS_spec (Or.inr hIA) (Or.inl rfl) hIA.2.1
          exact Inv_of_op_eq e i heq
        · by_cases hdd : ds = du
          · subst hdd
            obtain ⟨s'', e, i, _⟩ :=
              diffS_spec (Or.inr hIA) (Or.inr hIB) hIA.2.1
            exact Inv_of_op_eq e i heq
          · exfalso
            unfold difference at heq
            rw [if_pos (guard_true hIA hIB hdd)] at heq
            cases heq

theorem InvC_index {d : Nat} {s : BoxSet} (h : InvC d s) : IndexInv d s := by
  rcases h with rfl | hID
  · exact fun t ht => by cases ht
  · exact hID.2.2.2.2.2

theorem InvC_pairwise {d : Nat} {s : BoxSet} (h : InvC d s) :
    s.boxes.Pairwise (fun b1 b2 => Box.overlapsB b1 b2 = false) := by
  rcases h with rfl | hID
  · exact List.Pairwise.nil
  · exact hID.2.2.2.2.1

theorem fragFold_disjoint {d : Nat} {b : Box} (hbd : b.dimension = d) :
    ∀ (target : List Box), (∀ e ∈ target, e.dimension = d) →
      (∀ e ∈ target, disjPt e b) →
      target.foldl (fun fr e => fragStep e fr) [b] = [b] := by
  intro target
  induction target with
  | nil => intro _ _; rfl
  | cons e tgt ih =>
      intro htd hdis
      rw [List.foldl_cons]
      have hde : b.dimension = e.dimension := by rw [hbd, htd e (by simp)]
      have hov : Box.overlapsB b e = false := by
        rw [overlapsB_eq_false_iff hde]
        intro p hp
        exact hdis e (by simp) p ⟨hp.2, hp.1⟩
      have hstep : fragStep e [b] = [b] := by
        unfold fragStep
        rw [List.flatMap_cons, List.flatMap_nil,
          if_neg (show ¬ Box.overlapsB b e = true by rw [hov]; simp)]
        rfl
      rw [hstep]
      exact ih (fun x hx => htd x (by simp [hx])) (fun x hx => hdis x (by simp [hx]))

theorem addCore_boxes_exact {d : Nat} {s : BoxSet} {box : Box}
    (hdim : s.dimension = some d)
    (hboxes : ∀ b ∈ s.boxes, b.dimension = d ∧ b.is_empty = false)
    (hidx : IndexInv d s)
    (hbd : box.dimension = d) (hbne : box.is_empty = false)
    (hdis : ∀ e ∈ s.boxes, disjPt e box) :
    (addCore s box).boxes = s.boxes ++ [box] := by
  have hst := searchTarget_spec hidx hbd hbne
  have htd : ∀ e ∈ searchTarget s box, e.dimension = d :=
    fun e he => (hboxes e (hst.1 e he)).1
  have hfr : fragmentsAfter (searchTarget s box) box = [box] :=
    fragFold_disjoint hbd _ htd (fun e he => hdis e (hst.1 e he))
  have hpf := placeFold_spec (fragmentsAfter (searchTarget s box) box) s hdim hboxes
    (by
      rw [hfr]
      intro f hf
      rcases List.mem_singleton.mp hf with rfl
      exact ⟨hbd, hbne⟩)
    hidx
  have hb : (addCore s box).boxes
      = s.boxes ++ fragmentsAfter (searchTarget s box) box := hpf.2.1
  rw [hb, hfr]

theorem add_exact {d : Nat} {s : BoxSet} (hs : InvC d s) {box : Box}
    (hbd : box.dimension = d) (hbne : box.is_empty = false)
    (hdis : ∀ e ∈ s.boxes, disjPt e box) (hd1 : 1 ≤ d) :
    ∃ s', add s box = Except.ok s' ∧ s'.boxes = s.boxes ++ [box] ∧
      InvC d s' := by
  obtain ⟨s', heq, hinv, _⟩ := add_spec hs hbd hd1
  refine ⟨s', heq, ?_, hinv⟩
  have hkey : add s box
      = Except.ok (addCore ⟨some d, s.boxes, s.index⟩ box) := by
    unfold add
    rw [if_neg (by rw [hbne]; exact fun h => absurd h (by simp))]
    rcases hs with rfl | hID
    · show Except.ok (addCore ⟨some box.dimension, [], none⟩ box) = _
      rw [hbd]
      rfl
    · rw [hID.1]
      show (if box.dimension ≠ d then Except.error "Dimension mismatch"
          else Except.ok (addCore s box)) = _
      rw [if_neg (fun h => h hbd)]
      rw [← hID.1]
  rw [hkey] at heq
  injection heq with heq
  rw [← heq]
  have hboxes0 : ∀ b ∈ (⟨some d, s.boxes, s.index⟩ : BoxSet).boxes,
      b.dimension = d ∧ b.is_empty = false :=
    fun b hb => ⟨InvC_boxes_dim hs b hb, InvC_boxes_nonempty hs b hb⟩
  have hidx0 : IndexInv d (⟨some d, s.boxes, s.index⟩ : BoxSet) :=
    fun t ht => InvC_index hs t ht
  exact addCore_boxes_exact rfl hboxes0 hidx0 hbd hbne hdis

theorem addAll_exact {d : Nat} (hd1 : 1 ≤ d) :
    ∀ (bs : List Box) (s : BoxSet), InvC d s →
      (∀ b ∈ bs, b.dimension = d ∧ b.is_empty = false) →
      (∀ b ∈ bs, ∀ e ∈ s.boxes, disjPt e b) →
      bs.Pairwise disjPt →
      ∃ s', addAll s bs = Except.ok s' ∧ s'.boxes = s.boxes ++ bs := by
  intro bs
  induction bs with
  | nil =>
      intro s hs _ _ _
      exact ⟨s, rfl, by simp⟩
  | cons b bs ih =>
      intro s hs hok hdis hpw
      obtain ⟨s1, h1, hb1, hi1⟩ := add_exact hs (hok b (by simp)).1
        (hok b (by simp)).2 (fun e he => hdis b (by simp) e he) hd1
      have hdis1 : ∀ x ∈ bs, ∀ e ∈ s1.boxes, disjPt e x := by
        intro x hx e he
        rw [hb1] at he
        rcases List.mem_append.mp he with he' | he'
        · exact hdis x (by simp [hx]) e he'
        · rcases List.mem_singleton.mp he' with rfl
          exact (List.pairwise_cons.mp hpw).1 x hx
      obtain ⟨s', h2, hb2⟩ := ih s1 hi1 (fun x hx => hok x (by simp [hx])) hdis1
        (List.Pairwise.of_cons hpw)
      refine ⟨s', ?_, ?_⟩
      · rw [addAll_cons_ok h1]
        exact h2
      · rw [hb2, hb1, List.append_assoc]
        rfl

theorem ofList_exact {d : Nat} (hd1 : 1 ≤ d) (bs : List Box)
    (hok : ∀ b ∈ bs, b.dimension = d ∧ b.is_empty = false)
    (hpw : bs.Pairwise disjPt) :
    ∃ s', ofList bs = Except.ok s' ∧ s'.boxes = bs := by
  obtain ⟨s', h1, h2⟩ := addAll_exact hd1 bs emptyBS (Or.inl rfl) hok
    (fun b _ e he => absurd he (List.not_mem_nil e)) hpw
  exact ⟨s', h1, by simpa using h2⟩

theorem pairInters_props {d : Nat} {xs ys : List Box}
    (hx : ∀ b ∈ xs, b.dimension = d ∧ b.is_empty = false)
    (hy : ∀ b ∈ ys, b.dimension = d ∧ b.is_empty = false)
    (hxpw : xs.Pairwise (fun b1 b2 => Box.overlapsB b1 b2 = false))
    (hypw : ys.Pairwise (fun b1 b2 => Box.overlapsB b1 b2 = false)) :
    (∀ c ∈ pairInters xs ys, c.dimension = d ∧ c.is_empty = false) ∧
    (pairInters xs ys).Pairwise disjPt := by
  constructor
  · intro c hc
    have hcd := pairInters_dim (fun b hb => (hx b hb).1) (fun b hb => (hy b hb).1) c hc
    refine ⟨hcd, ?_⟩
    unfold pairInters at hc
    rw [List.mem_flatMap] at hc
    obtain ⟨a, ha, hc1⟩ := hc
    rw [List.mem_map] at hc1
    obtain ⟨b, hb, rfl⟩ := hc1
    have hb' := List.mem_of_mem_filter hb
    have hov : Box.overlapsB a b = true := (List.mem_filter.mp hb).2
    have hdab : a.dimension = b.dimension := by rw [(hx a ha).1, (hy b hb').1]
    obtain ⟨p, hpa, hpb⟩ := (overlapsB_iff hdab).mp hov
    exact is_empty_eq_false_of_memB ((memB_interB hdab p).mpr ⟨hpa, hpb⟩)
  · unfold pairInters
    refine pairwise_flatMap (S := fun a1 a2 => Box.overlapsB a1 a2 = false)
      hxpw ?_ ?_
    · intro a ha
      rw [List.pairwise_map]
      refine List.Pairwise.imp_of_mem ?_
        ((hypw.sublist (List.filter_sublist ys)))
      intro b1 b2 h1 h2 hov12 p hp
      have hb1 := List.mem_of_mem_filter h1
      have hb2 := List.mem_of_mem_filter h2
      have hd1' : a.dimension = b1.dimension := by rw [(hx a ha).1, (hy b1 hb1).1]
      have hd2' : a.dimension = b2.dimension := by rw [(hx a ha).1, (hy b2 hb2).1]
      have hm1 := (memB_interB hd1' p).mp hp.1
      have hm2 := (memB_interB hd2' p).mp hp.2
      have hdb : b1.dimension = b2.dimension := by rw [← hd1', hd2']
      exact (overlapsB_eq_false_iff hdb).mp hov12 p ⟨hm1.2, hm2.2⟩
    · intro a1 ha1 a2 ha2 hS x hx' y hy' p hp
      rw [List.mem_map] at hx' hy'
      obtain ⟨b1, hb1, rfl⟩ := hx'
      obtain ⟨b2, hb2, rfl⟩ := hy'
      have hb1' := List.mem_of_mem_filter hb1
      have hb2' := List.mem_of_mem_filter hb2
      have hd1' : a1.dimension = b1.dimension := by
        rw [(hx a1 ha1).1, (hy b1 hb1').1]
      have hd2' : a2.dimension = b2.dimension := by
        rw [(hx a2 ha2).1, (hy b2 hb2').1]
      have hm1 := (memB_interB hd1' p).mp hp.1
      have hm2 := (memB_interB hd2' p).mp hp.2
      have hda : a1.dimension = a2.dimension := by
        rw [(hx a1 ha1).1, (hx a2 ha2).1]
      exact (overlapsB_eq_false_iff hda).mp hS p ⟨hm1.1, hm2.1⟩

theorem common_dim_of_eq {A B : BoxSet} (hA : Inv A) (hB : Inv B)
    (hd : A.dimension = B.dimension) :
    ∃ d, 1 ≤ d ∧ InvC d A ∧ InvC d B := by
  rcases hA with rfl | ⟨ds, hIA⟩
  · rcases hB with rfl | ⟨du, hIB⟩
    · exact ⟨1, le_refl 1, Or.inl rfl, Or.inl rfl⟩
    · rw [hIB.1] at hd
      cases hd
  · rcases hB with rfl | ⟨du, hIB⟩
    · rw [hIA.1] at hd
      cases hd
    · rw [hIA.1, hIB.1] at hd
      injection hd with hd
      subst hd
      exact ⟨ds, hIA.2.1, Or.inr hIA, Or.inr hIB⟩

theorem memB_pointBox (p : List ℚ) :
    Box.memB (Box.mk (p.map (fun x => ⟨x, x, false, false⟩))) p = true := by
  rw [memB_mk_iff]
  induction p with
  | nil => exact List.Forall₂.nil
  | cons x p ih =>
      rw [List.map_cons]
      refine List.Forall₂.cons ?_ ih
      rw [Interval.mem_iff]
      constructor <;> simp

theorem pointBox_ok {d : Nat} {p : List ℚ} (hp : p.length = d) :
    okBox d (Box.mk (p.map (fun x => ⟨x, x, false, false⟩))) := by
  constructor
  · show (p.map (fun x => (⟨x, x, false, false⟩ : Interval))).length = d
    rw [List.length_map, hp]
  · exact is_empty_eq_false_of_memB (memB_pointBox p)

end BoxSet

/-- C2: every `BoxSet` produced by any sequence of `add`, `union`,
`intersection` and `difference` calls starting from construction stores
pairwise non-overlapping boxes (`overlaps()` returns `False`, never
raising), all of one dimension. -/
theorem claim_C2 (s : BoxSet) (h : BoxSet.Reach s) :
    s.boxes.Pairwise (fun b1 b2 => Box.overlaps b1 b2 = Except.ok false) ∧
    (∀ b1 ∈ s.boxes, ∀ b2 ∈ s.boxes, b1.dimension = b2.dimension) := by
  rcases BoxSet.Reach_inv h with rfl | ⟨d, hID⟩
  · exact ⟨List.Pairwise.nil, fun b1 hb1 => absurd hb1 (List.not_mem_nil b1)⟩
  · obtain ⟨hdim, hd1, hne, hok, hpw, hidx⟩ := hID
    constructor
    · refine List.Pairwise.imp_of_mem ?_ hpw
      intro b1 b2 h1 h2 hov
      unfold Box.overlaps
      rw [if_neg (show ¬ b1.dimension ≠ b2.dimension from
        fun hc => hc (by rw [(hok b1 h1).1, (hok b2 h2).1]))]
      rw [hov]
    · intro b1 hb1 b2 hb2
      rw [(hok b1 hb1).1, (hok b2 hb2).1]

theorem claim_C2_witness :
    BoxSet.Reach (BoxSet.mk (some 1) [Box.mk [Interval.closed 0 1]] none) ∧
    ((BoxSet.mk (some 1) [Box.mk [Interval.closed 0 1]] none).boxes.Pairwise
        (fun b1 b2 => Box.overlaps b1 b2 = Except.ok false) ∧
      (∀ b1 ∈ (BoxSet.mk (some 1) [Box.mk [Interval.closed 0 1]] none).boxes,
        ∀ b2 ∈ (BoxSet.mk (some 1) [Box.mk [Interval.closed 0 1]] none).boxes,
          b1.dimension = b2.dimension)) :=
  ⟨@BoxSet.Reach.add_step BoxSet.emptyBS (Box.mk [Interval.closed 0 1])
      (BoxSet.mk (some 1) [Box.mk [Interval.closed 0 1]] none)
      BoxSet.Reach.base (by simp) rfl,
    claim_C2 _
      (@BoxSet.Reach.add_step BoxSet.emptyBS (Box.mk [Interval.closed 0 1])
        (BoxSet.mk (some 1) [Box.mk [Interval.closed 0 1]] none)
        BoxSet.Reach.base (by simp) rfl)⟩

/-- C3: for reachable `BoxSet`s of equal dimension, the union of the
difference with the intersection equals the original set, under `BoxSet`
equality (symmetric emptiness of the two set differences). -/
theorem claim_C3 (A B : BoxSet) (hA : BoxSet.Reach A) (hB : BoxSet.Reach B)
    (hd : A.dimension = B.dimension) (D I U : BoxSet)
    (hD : BoxSet.difference A B = Except.ok D)
    (hI : BoxSet.intersection A B = Except.ok I)
    (hU : BoxSet.union D I = Except.ok U) :
    BoxSet.beq U A = Except.ok true := by
  obtain ⟨d, hd1, hCA, hCB⟩ := BoxSet.common_dim_of_eq
    (BoxSet.Reach_inv hA) (BoxSet.Reach_inv hB) hd
  obtain ⟨D', eD, iD, sD⟩ := BoxSet.diffS_spec hCA hCB hd1
  rw [eD] at hD
  injection hD with hD
  subst hD
  obtain ⟨I', eI, iI, sI⟩ := BoxSet.interS_spec hCA hCB hd1
  rw [eI] at hI
  injection hI with hI
  subst hI
  obtain ⟨U', eU, iU, sU⟩ := BoxSet.unionS_spec iD iI hd1
  rw [eU] at hU
  injection hU with hU
  subst hU
  refine BoxSet.beq_true_of iU hCA hd1 ?_
  intro p
  rw [sU p, sD p, sI p]
  constructor
  · rintro (⟨h, _⟩ | ⟨h, _⟩) <;> exact h
  · intro h
    by_cases hpb : BoxSet.ptMem B p
    · exact Or.inr ⟨h, hpb⟩
    · exact Or.inl ⟨h, hpb⟩

theorem claim_C3_witness :
    (BoxSet.mk (some 1) [Box.mk [Interval.mk 0 2 false false]] none).dimension
        = (BoxSet.mk (some 1) [Box.mk [Interval.mk 1 3 false false]] none).dimension ∧
    BoxSet.difference (BoxSet.mk (some 1) [Box.mk [Interval.mk 0 2 false false]] none)
        (BoxSet.mk (some 1) [Box.mk [Interval.mk 1 3 false false]] none)
      = Except.ok (BoxSet.mk (some 1) [Box.mk [Interval.mk 0 1 false true]] none) ∧
    BoxSet.intersection (BoxSet.mk (some 1) [Box.mk [Interval.mk 0 2 false false]] none)
        (BoxSet.mk (some 1) [Box.mk [Interval.mk 1 3 false false]] none)
      = Except.ok (BoxSet.mk (some 1) [Box.mk [Interval.mk 1 2 false false]] none) ∧
    BoxSet.union (BoxSet.mk (some 1) [Box.mk [Interval.mk 0 1 false true]] none)
        (BoxSet.mk (some 1) [Box.mk [Interval.mk 1 2 false false]] none)
      = Except.ok (BoxSet.mk (some 1)
          [Box.mk [Interval.mk 0 1 false true], Box.mk [Interval.mk 1 2 false false]] none) ∧
    BoxSet.beq (BoxSet.mk (some 1)
          [Box.mk [Interval.mk 0 1 false true], Box.mk [Interval.mk 1 2 false false]] none)
        (BoxSet.mk (some 1) [Box.mk [Interval.mk 0 2 false false]] none)
      = Except.ok true :=
  ⟨rfl, rfl, rfl, rfl,
    claim_C3 (BoxSet.mk (some 1) [Box.mk [Interval.mk 0 2 false false]] none)
      (BoxSet.mk (some 1) [Box.mk [Interval.mk 1 3 false false]] none)
      (@BoxSet.Reach.add_step BoxSet.emptyBS (Box.mk [Interval.mk 0 2 false false])
        (BoxSet.mk (some 1) [Box.mk [Interval.mk 0 2 false false]] none)
        BoxSet.Reach.base (by simp) rfl)
      (@BoxSet.Reach.add_step BoxSet.emptyBS (Box.mk [Interval.mk 1 3 false false])
        (BoxSet.mk (some 1) [Box.mk [Interval.mk 1 3 false false]] none)
        BoxSet.Reach.base (by simp) rfl)
      rfl
      (BoxSet.mk (some 1) [Box.mk [Interval.mk 0 1 false true]] none)
      (BoxSet.mk (some 1) [Box.mk [Interval.mk 1 2 false false]] none)
      (BoxSet.mk (some 1)
        [Box.mk [Interval.mk 0 1 false true], Box.mk [Interval.mk 1 2 false false]] none)
      rfl rfl rfl⟩

/-- C5: for reachable `BoxSet`s of equal dimension, `intersection` stores
exactly the list of pairwise box intersections over overlapping pairs — no
re-fragmentation happens — and that list is already pairwise non-overlapping,
so it satisfies the disjointness invariant as built. -/
theorem claim_C5 (A B : BoxSet) (hA : BoxSet.Reach A) (hB : BoxSet.Reach B)
    (hd : A.dimension = B.dimension) (I : BoxSet)
    (hI : BoxSet.intersection A B = Except.ok I) :
    I.boxes = BoxSet.pairInters A.boxes B.boxes ∧
    (BoxSet.pairInters A.boxes B.boxes).Pairwise
      (fun c1 c2 => Box.overlaps c1 c2 = Except.ok false) ∧
    (∀ p, BoxSet.ptMem I p ↔
      ∃ a ∈ A.boxes, ∃ b ∈ B.boxes, Box.memB (Box.interB a b) p = true) := by
  obtain ⟨d, hd1, hCA, hCB⟩ := BoxSet.common_dim_of_eq
    (BoxSet.Reach_inv hA) (BoxSet.Reach_inv hB) hd
  have hok_x : ∀ b ∈ A.boxes, b.dimension = d ∧ b.is_empty = false :=
    fun b hb => ⟨BoxSet.InvC_boxes_dim hCA b hb, BoxSet.InvC_boxes_nonempty hCA b hb⟩
  have hok_y : ∀ b ∈ B.boxes, b.dimension = d ∧ b.is_empty = false :=
    fun b hb => ⟨BoxSet.InvC_boxes_dim hCB b hb, BoxSet.InvC_boxes_nonempty hCB b hb⟩
  obtain ⟨hcd, hcpw⟩ := BoxSet.pairInters_props hok_x hok_y
    (BoxSet.InvC_pairwise hCA) (BoxSet.InvC_pairwise hCB)
  obtain ⟨I', e1, e2⟩ := BoxSet.ofList_exact hd1
    (BoxSet.pairInters A.boxes B.boxes) hcd hcpw
  have hIdef : BoxSet.intersection A B
      = BoxSet.ofList (BoxSet.pairInters A.boxes B.boxes) := by
    unfold BoxSet.intersection
    rw [BoxSet.guard_false hCA hCB, if_neg (by simp)]
  rw [hIdef, e1] at hI
  injection hI with hI
  subst hI
  refine ⟨e2, ?_, ?_⟩
  · refine List.Pairwise.imp_of_mem ?_ hcpw
    intro c1 c2 h1 h2 hdis
    unfold Box.overlaps
    rw [if_neg (show ¬ c1.dimension ≠ c2.dimension from
      fun hc => hc (by rw [(hcd c1 h1).1, (hcd c2 h2).1]))]
    have hcc : c1.dimension = c2.dimension := by
      rw [(hcd c1 h1).1, (hcd c2 h2).1]
    rw [(overlapsB_eq_false_iff hcc).mpr hdis]
  · intro p
    have hsem : BoxSet.ptMem I' p ↔
        ((∃ a ∈ A.boxes, Box.memB a p = true) ∧
          ∃ b ∈ B.boxes, Box.memB b p = true) := by
      unfold BoxSet.ptMem
      rw [e2]
      exact BoxSet.pairInters_sem (fun b hb => (hok_x b hb).1)
        (fun b hb => (hok_y b hb).1) p
    rw [hsem]
    constructor
    · rintro ⟨⟨a, ha, hma⟩, ⟨b, hb, hmb⟩⟩
      have hdab : a.dimension = b.dimension := by
        rw [(hok_x a ha).1, (hok_y b hb).1]
      exact ⟨a, ha, b, hb, (memB_interB hdab p).mpr ⟨hma, hmb⟩⟩
    · rintro ⟨a, ha, b, hb, hm⟩
      have hdab : a.dimension = b.dimension := by
        rw [(hok_x a ha).1, (hok_y b hb).1]
      have h := (memB_interB hdab p).mp hm
      exact ⟨⟨a, ha, h.1⟩, ⟨b, hb, h.2⟩⟩

theorem claim_C5_witness :
    (BoxSet.mk (some 1) [Box.mk [Interval.mk 0 2 false false]] none).dimension
        = (BoxSet.mk (some 1) [Box.mk [Interval.mk 1 3 false false]] none).dimension ∧
    BoxSet.intersection (BoxSet.mk (some 1) [Box.mk [Interval.mk 0 2 false false]] none)
        (BoxSet.mk (some 1) [Box.mk [Interval.mk 1 3 false false]] none)
      = Except.ok (BoxSet.mk (some 1) [Box.mk [Interval.mk 1 2 false false]] none) ∧
    ((BoxSet.mk (some 1) [Box.mk [Interval.mk 1 2 false false]] none).boxes
        = BoxSet.pairInters
            (BoxSet.mk (some 1) [Box.mk [Interval.mk 0 2 false false]] none).boxes
            (BoxSet.mk (some 1) [Box.mk [Interval.mk 1 3 false false]] none).boxes ∧
      (BoxSet.pairInters
          (BoxSet.mk (some 1) [Box.mk [Interval.mk 0 2 false false]] none).boxes
          (BoxSet.mk (some 1) [Box.mk [Interval.mk 1 3 false false]] none).boxes).Pairwise
        (fun c1 c2 => Box.overlaps c1 c2 = Except.ok false) ∧
      (∀ p, BoxSet.ptMem
          (BoxSet.mk (some 1) [Box.mk [Interval.mk 1 2 false false]] none) p ↔
        ∃ a ∈ (BoxSet.mk (some 1) [Box.mk [Interval.mk 0 2 false false]] none).boxes,
          ∃ b ∈ (BoxSet.mk (some 1) [Box.mk [Interval.mk 1 3 false false]] none).boxes,
            Box.memB (Box.interB a b) p = true)) :=
  ⟨rfl, rfl,
    claim_C5 (BoxSet.mk (some 1) [Box.mk [Interval.mk 0 2 false false]] none)
      (BoxSet.mk (some 1) [Box.mk [Interval.mk 1 3 false false]] none)
      (@BoxSet.Reach.add_step BoxSet.emptyBS (Box.mk [Interval.mk 0 2 false false])
        (BoxSet.mk (some 1) [Box.mk [Interval.mk 0 2 false false]] none)
        BoxSet.Reach.base (by simp) rfl)
      (@BoxSet.Reach.add_step BoxSet.emptyBS (Box.mk [Interval.mk 1 3 false false])
        (BoxSet.mk (some 1) [Box.mk [Interval.mk 1 3 false false]] none)
        BoxSet.Reach.base (by simp) rfl)
      rfl
      (BoxSet.mk (some 1) [Box.mk [Interval.mk 1 2 false false]] none)
      rfl⟩

/-- C6: on a reachable `BoxSet` with established dimension, `contains` at a
point of matching length returns exactly whether some stored box contains
the point — the same answer as a brute-force scan of all stored boxes,
whether or not the spatial index is consulted. -/
theorem claim_C6 (s : BoxSet) (h : BoxSet.Reach s) (d : Nat) (p : List ℚ)
    (hdim : s.dimension = some d) (hp : p.length = d) :
    BoxSet.containsPoint s p
      = Except.ok (s.boxes.any (fun b => Box.memB b p)) := by
  rcases BoxSet.Reach_inv h with rfl | ⟨d', hID⟩
  · cases hdim
  · have hd' : d' = d := by
      rw [hID.1] at hdim
      injection hdim with h'
    rw [hd'] at hID
    unfold BoxSet.containsPoint
    rw [hID.1]
    show (if p.length ≠ d then
        Except.error "Point dimension must match BoxSet dimension"
      else _) = _
    rw [if_neg (fun hc => hc hp)]
    cases hIx : s.index with
    | none => rfl
    | some t =>
        obtain ⟨hWF, hperm⟩ := hID.2.2.2.2.2 t hIx
        have hsearch := RTree.search_eq (boxGood d)
          (BoxSet.pointBox_ok hp) hWF
        show Except.ok ((RTree.search boxFns t
            (Box.mk (p.map (fun x => ⟨x, x, false, false⟩)))).any
              (fun b => Box.memB b p)) = _
        rw [hsearch]
        congr 1
        rw [Bool.eq_iff_iff, List.any_eq_true, List.any_eq_true]
        constructor
        · rintro ⟨b, hb, hmb⟩
          exact ⟨b, hperm.mem_iff.mp (List.mem_of_mem_filter hb), hmb⟩
        · rintro ⟨b, hb, hmb⟩
          refine ⟨b, List.mem_filter.mpr ⟨hperm.mem_iff.mpr hb, ?_⟩, hmb⟩
          have hdb : b.dimension
              = (Box.mk (p.map (fun x => ⟨x, x, false, false⟩))).dimension := by
            rw [(hID.2.2.2.1 b hb).1, (BoxSet.pointBox_ok hp).1]
          exact (overlapsB_iff hdb).mpr ⟨p, hmb, BoxSet.memB_pointBox p⟩

theorem claim_C6_witness :
    (BoxSet.mk (some 1) [Box.mk [Interval.closed 0 1]] none).dimension = some 1 ∧
    [(1 : ℚ)/2].length = 1 ∧
    BoxSet.containsPoint
        (BoxSet.mk (some 1) [Box.mk [Interval.closed 0 1]] none) [1/2]
      = Except.ok ((BoxSet.mk (some 1) [Box.mk [Interval.closed 0 1]] none).boxes.any
          (fun b => Box.memB b [1/2])) :=
  ⟨rfl, rfl,
    claim_C6 _
      (@BoxSet.Reach.add_step BoxSet.emptyBS (Box.mk [Interval.closed 0 1])
        (BoxSet.mk (some 1) [Box.mk [Interval.closed 0 1]] none)
        BoxSet.Reach.base (by simp) rfl)
      1 [1/2] rfl rfl⟩

/-- C7: `add` with a non-empty box whose dimension differs from the set's
established dimension raises the dimension-mismatch error; the check runs
before any fragmentation or index insertion (multidimensional.py lines 529
to 537 precede lines 539 to 566), so the functional result is the error
alone and the caller's state is untouched. -/
theorem claim_C7 (s : BoxSet) (d : Nat) (box : Box)
    (hdim : s.dimension = some d) (hne : box.is_empty = false)
    (hmis : box.dimension ≠ d) :
    BoxSet.add s box = Except.error "Dimension mismatch" :=
  BoxSet.add_mismatch_error hdim hne hmis

theorem claim_C7_witness :
    ((BoxSet.mk (some 1) [Box.mk [Interval.closed 0 1]] none).dimension = some 1 ∧
      (Box.mk [Interval.closed 0 1, Interval.closed 2 3]).is_empty = false ∧
      (Box.mk [Interval.closed 0 1, Interval.closed 2 3]).dimension ≠ 1) ∧
    BoxSet.add (BoxSet.mk (some 1) [Box.mk [Interval.closed 0 1]] none)
        (Box.mk [Interval.closed 0 1, Interval.closed 2 3])
      = Except.error "Dimension mismatch" :=
  ⟨⟨rfl, by decide, by decide⟩,
    claim_C7 (BoxSet.mk (some 1) [Box.mk [Interval.closed 0 1]] none) 1
      (Box.mk [Interval.closed 0 1, Interval.closed 2 3]) rfl
      (by decide) (by decide)⟩

end IntervalSets
